/-
Verification of the NoSQL_DB storage/index/query engine.

Shallow embedding of:
  * src/internal/index/btree.go      — the B+tree (Insert, Search, RangeSearch, SearchIn, ...)
  * src/internal/storage/collection.go — Collection, Delete, CreateIndex, RebuildAllIndexes,
                                         serializeBTree / deserializeBTree, SaveIndex
  * src/unnamed/part_001             — the CLI command layer (cmdFind, cmdDelete, findWithIndex,
                                         findFullScan, hasLogicalOperators)

Parts of the repository referenced by the sources above but not present under src/
(`internal/operators.MatchDocument`, `internal/query.Parse`, `index.ValueToKey`,
`storage.HashMap`) are modelled from the spec; each such definition carries a
doc comment starting `Modelled from the spec:`.

Go byte strings ([]byte, and Go `string`, which is an immutable byte sequence)
are modelled as `List Nat`; machine integers as `Int`/`Nat` with explicit
2^64 wrap-around where overflow matters.
-/
import Mathlib
set_option linter.unusedTactic false
set_option linter.unreachableTactic false
set_option linter.unusedVariables false

/-- Go []byte / B+tree key bytes (`type Key []byte`). -/
abbrev Key := List Nat

/-- Go []byte value stored in the tree (`type Value []byte`): a document id. -/
abbrev BVal := List Nat

/-- `bytes.Compare`: lexicographic comparison of byte slices. -/
def keyCmp : Key → Key → Ordering
  | [], [] => .eq
  | [], _ :: _ => .lt
  | _ :: _, [] => .gt
  | a :: as, b :: bs =>
      if a < b then .lt else if b < a then .gt else keyCmp as bs

/-- strict byte-lexicographic order, `bytes.Compare(a,b) < 0`. -/
def keyLt (a b : Key) : Prop := keyCmp a b = .lt

/-- non-strict byte-lexicographic order, `bytes.Compare(a,b) <= 0`. -/
def keyLe (a b : Key) : Prop := keyCmp a b ≠ .gt

instance keyLtDec (a b : Key) : Decidable (keyLt a b) := by
  unfold keyLt; infer_instance

instance keyLeDec (a b : Key) : Decidable (keyLe a b) := by
  unfold keyLe; infer_instance

theorem keyCmp_self (a : Key) : keyCmp a a = .eq := by
  induction a with
  | nil => rfl
  | cons x xs ih => simp [keyCmp, ih]

theorem keyCmp_eq_iff {a b : Key} : keyCmp a b = .eq ↔ a = b := by
  constructor
  · intro h
    induction a generalizing b with
    | nil => cases b with
      | nil => rfl
      | cons y ys => simp [keyCmp] at h
    | cons x xs ih =>
      cases b with
      | nil => simp [keyCmp] at h
      | cons y ys =>
        simp only [keyCmp] at h
        by_cases h1 : x < y
        · simp [h1] at h
        · by_cases h2 : y < x
          · simp [h1, h2] at h
          · have hxy : x = y := Nat.le_antisymm (Nat.not_lt.mp h2) (Nat.not_lt.mp h1)
            simp [h1, h2] at h
            rw [hxy, ih h]
  · intro h; subst h; exact keyCmp_self a

theorem keyCmp_swap (a b : Key) : keyCmp b a = (keyCmp a b).swap := by
  induction a generalizing b with
  | nil => cases b <;> rfl
  | cons x xs ih =>
    cases b with
    | nil => rfl
    | cons y ys =>
      simp only [keyCmp]
      by_cases h1 : x < y
      · have h2 : ¬ y < x := Nat.lt_asymm h1
        simp [h1, h2, Ordering.swap]
      · by_cases h2 : y < x
        · simp [h1, h2, Ordering.swap]
        · simp [h1, h2, ih ys]

theorem keyCmp_gt_iff {a b : Key} : keyCmp a b = .gt ↔ keyCmp b a = .lt := by
  rw [keyCmp_swap b a]
  cases hc : keyCmp b a <;> simp [Ordering.swap]

theorem keyLt_trans {a b c : Key} (h1 : keyLt a b) (h2 : keyLt b c) : keyLt a c := by
  unfold keyLt at *
  induction a generalizing b c with
  | nil =>
    cases c with
    | nil =>
      cases b with
      | nil => exact h1
      | cons y ys => simp [keyCmp] at h2
    | cons z zs => rfl
  | cons x xs ih =>
    cases b with
    | nil => simp [keyCmp] at h1
    | cons y ys =>
      cases c with
      | nil => simp [keyCmp] at h2
      | cons z zs =>
        simp only [keyCmp] at h1 h2 ⊢
        rcases Nat.lt_trichotomy x y with hxy | hxy | hxy
        · rcases Nat.lt_trichotomy y z with hyz | hyz | hyz
          · simp [Nat.lt_trans hxy hyz]
          · subst hyz; simp [hxy]
          · rw [if_neg (Nat.lt_asymm hyz), if_pos hyz] at h2; cases h2
        · subst hxy
          rcases Nat.lt_trichotomy x z with hxz | hxz | hxz
          · simp [hxz]
          · subst hxz
            rw [if_neg (lt_irrefl x), if_neg (lt_irrefl x)] at h1 h2 ⊢
            exact ih h1 h2
          · rw [if_neg (Nat.lt_asymm hxz), if_pos hxz] at h2; cases h2
        · rw [if_neg (Nat.lt_asymm hxy), if_pos hxy] at h1; cases h1

theorem keyLe_iff_lt_or_eq {a b : Key} : keyLe a b ↔ keyLt a b ∨ a = b := by
  unfold keyLe keyLt
  constructor
  · intro h
    rcases hc : keyCmp a b with _ | _ | _
    · exact Or.inl rfl
    · exact Or.inr (keyCmp_eq_iff.mp hc)
    · exact absurd hc h
  · rintro (h | h)
    · rw [h]; intro hc; cases hc
    · subst h; rw [keyCmp_self]; intro hc; cases hc

theorem keyLt_irrefl (a : Key) : ¬ keyLt a a := by
  unfold keyLt; rw [keyCmp_self]; intro h; cases h

theorem keyLt_asymm {a b : Key} (h : keyLt a b) : ¬ keyLt b a := by
  intro h2
  exact keyLt_irrefl a (keyLt_trans h h2)

theorem keyLt_of_le_of_lt {a b c : Key} (h1 : keyLe a b) (h2 : keyLt b c) : keyLt a c := by
  rcases keyLe_iff_lt_or_eq.mp h1 with h | h
  · exact keyLt_trans h h2
  · subst h; exact h2

theorem keyLt_of_lt_of_le {a b c : Key} (h1 : keyLt a b) (h2 : keyLe b c) : keyLt a c := by
  rcases keyLe_iff_lt_or_eq.mp h2 with h | h
  · exact keyLt_trans h1 h
  · subst h; exact h1

theorem keyLe_trans {a b c : Key} (h1 : keyLe a b) (h2 : keyLe b c) : keyLe a c := by
  rcases keyLe_iff_lt_or_eq.mp h1 with h | h
  · exact keyLe_iff_lt_or_eq.mpr (Or.inl (keyLt_of_lt_of_le h h2))
  · subst h; exact h2

theorem keyLe_refl (a : Key) : keyLe a a := by
  unfold keyLe; rw [keyCmp_self]; intro h; cases h

theorem keyLe_of_lt {a b : Key} (h : keyLt a b) : keyLe a b :=
  keyLe_iff_lt_or_eq.mpr (Or.inl h)

theorem not_keyLt_iff_le {a b : Key} : ¬ keyLt a b ↔ keyLe b a := by
  unfold keyLt keyLe
  constructor
  · intro h hg
    exact h (keyCmp_gt_iff.mp hg)
  · intro h hl
    exact h (keyCmp_gt_iff.mpr hl)

theorem keyLt_of_not_le {a b : Key} (h : ¬ keyLe a b) : keyLt b a := by
  unfold keyLe at h
  push_neg at h
  exact keyCmp_gt_iff.mp h

theorem keyLt_total (a b : Key) : keyLt a b ∨ a = b ∨ keyLt b a := by
  rcases hc : keyCmp a b with _ | _ | _
  · exact Or.inl hc
  · exact Or.inr (Or.inl (keyCmp_eq_iff.mp hc))
  · exact Or.inr (Or.inr (keyCmp_gt_iff.mp hc))

theorem keyLt_ne {a b : Key} (h : keyLt a b) : a ≠ b := by
  intro he; subst he; exact keyLt_irrefl a h

/-
=====================  B+tree (src/internal/index/btree.go)  =====================

A `Node` in Go owns `keys`, per-key value lists (leaves), `children`
(internal nodes), plus `next`/`parent` pointers.  The functional embedding
carries the owning structure; the `parent` back-pointer is implicit in the
recursion and the leaf `next` chain is the left-to-right order of leaves,
which is exactly the order `splitLeaf` maintains (the new right leaf is
linked immediately after the split leaf).
-/

/-- A B+tree node: a leaf holds parallel `keys`/`values` (here fused into
an entry list); an internal node holds `keys` and `children`. -/
inductive BNode where
  | leaf (entries : List (Key × List BVal))
  | node (keys : List Key) (children : List BNode)
deriving Repr

mutual
/-- number of nodes of a subtree (termination measure). -/
def bsize : BNode → Nat
  | .leaf _ => 1
  | .node _ cs => 1 + bsizeL cs
def bsizeL : List BNode → Nat
  | [] => 0
  | c :: cs => bsize c + bsizeL cs
end

theorem bsize_pos (n : BNode) : 1 ≤ bsize n := by
  cases n <;> simp [bsize]

mutual
/-- all (key, value-list) entries of a subtree in leaf order. -/
def entriesN : BNode → List (Key × List BVal)
  | .leaf es => es
  | .node _ cs => entriesL cs
def entriesL : List BNode → List (Key × List BVal)
  | [] => []
  | c :: cs => entriesN c ++ entriesL cs
end

mutual
/-- the leaves of a subtree, left to right: the `next`-chain order. -/
def leavesN : BNode → List (List (Key × List BVal))
  | .leaf es => [es]
  | .node _ cs => leavesL cs
def leavesL : List BNode → List (List (Key × List BVal))
  | [] => []
  | c :: cs => leavesN c ++ leavesL cs
end

mutual
def numLeavesN : BNode → Nat
  | .leaf _ => 1
  | .node _ cs => numLeavesL cs
def numLeavesL : List BNode → Nat
  | [] => 0
  | c :: cs => numLeavesN c + numLeavesL cs
end

/-- `type BTree struct { root *Node; order int }`. -/
structure BTree where
  root : BNode
  order : Nat

/-- `NewBPlusTree`: a fresh tree whose root is an empty leaf. -/
def NewBPlusTree (order : Nat) : BTree :=
  { root := .leaf [], order := order }

/-- `insertInLeaf`: scan to the first position whose key is not below `key`
(`bytes.Compare(leaf.keys[pos], key) < 0` loop); append the value if the key
is already present, otherwise splice in a fresh singleton entry. -/
def insertInLeaf (key : Key) (value : BVal) :
    List (Key × List BVal) → List (Key × List BVal)
  | [] => [(key, [value])]
  | (k, vs) :: rest =>
      match keyCmp k key with
      | .lt => (k, vs) :: insertInLeaf key value rest
      | .eq => (k, vs ++ [value]) :: rest
      | .gt => (key, [value]) :: (k, vs) :: rest

/-- `insertInParent`'s array surgery: scan `keys` for the first position not
below `key` (`bytes.Compare(parent.keys[pos], key) < 0` loop), insert `key`
there and the new `right` node at the following child position. -/
def insertKeyChild (key : Key) (right : BNode) :
    List Key → List BNode → List Key × List BNode
  | k :: ks, c :: cs =>
      match keyCmp k key with
      | .lt =>
          let p := insertKeyChild key right ks cs
          (k :: p.1, c :: p.2)
      | _ => (key :: k :: ks, c :: right :: cs)
  | [], c :: cs => ([key], c :: right :: cs)
  | ks, [] => (key :: ks, [right])

/-- result of inserting below a node: an updated node, or a split
(left node, separator pushed up, right node) as produced by
`splitLeaf`/`splitInternal` + `insertInParent`. -/
inductive InsRes where
  | one (n : BNode)
  | split (l : BNode) (k : Key) (r : BNode)

mutual
/-- the recursive core of `Insert`: descend via `findLeaf`'s child choice
(first child whose separator is above the key, else the rightmost child),
insert in the target leaf (`insertInLeaf`), and split overfull nodes on the
way back up (`splitLeaf` / `insertInParent` / `splitInternal`). -/
def insertNode (ord : Nat) (key : Key) (value : BVal) : BNode → InsRes
  | .leaf es =>
      let es2 := insertInLeaf key value es
      if es2.length > 2 * ord - 1 then
        -- splitLeaf: mid := len/2; right gets keys[mid:]; first right key goes up
        let mid := es2.length / 2
        .split (.leaf (es2.take mid))
          (((es2.drop mid).headD ([], [])).1)
          (.leaf (es2.drop mid))
      else .one (.leaf es2)
  | .node ks [] => .one (.node ks [])   -- no children: unreachable for trees built by Insert
  | .node ks (c :: cs) =>
      let p := insertChildren ord key value ks c cs
      match p.2 with
      | none => .one (.node ks p.1)
      | some (sk, r) =>
          let q := insertKeyChild sk r ks p.1
          if q.1.length > 2 * ord - 1 then
            -- splitInternal: mid := len/2; keys[mid] goes up;
            -- right gets keys[mid+1:] and children[mid+1:]
            let mid := q.1.length / 2
            .split (.node (q.1.take mid) (q.2.take (mid + 1)))
              (q.1.getD mid [])
              (.node (q.1.drop (mid + 1)) (q.2.drop (mid + 1)))
          else .one (.node q.1 q.2)
termination_by n => (bsize n, 0)
decreasing_by
  all_goals simp_wf
  all_goals try simp only [bsize, bsizeL, Nat.add_zero]
  all_goals (apply Prod.Lex.left; omega)

/-- `findLeaf`'s loop fused with the recursive insert: walk keys and children
in parallel; descend into the first child whose separator exceeds the key,
else into the rightmost child.  The updated child replaces the original in
place (the Go code mutates the node); a split is handed up as `some`. -/
def insertChildren (ord : Nat) (key : Key) (value : BVal) :
    List Key → BNode → List BNode → List BNode × Option (Key × BNode)
  | [], c, [] =>
      (match insertNode ord key value c with
       | .one c2 => ([c2], none)
       | .split l sk r => ([l], some (sk, r)))
  | [], c, c2 :: cs =>
      let p := insertChildren ord key value [] c2 cs
      (c :: p.1, p.2)
  | k :: ks, c, cs =>
      if keyCmp key k = .lt then
        (match insertNode ord key value c with
         | .one c2 => (c2 :: cs, none)
         | .split l sk r => (l :: cs, some (sk, r)))
      else
        match cs with
        | [] =>
            (match insertNode ord key value c with
             | .one c2 => ([c2], none)
             | .split l sk r => ([l], some (sk, r)))
        | c2 :: cs2 =>
            let p := insertChildren ord key value ks c2 cs2
            (c :: p.1, p.2)
termination_by ks c cs => (bsize c + bsizeL cs, 1)
decreasing_by
  all_goals simp_wf
  all_goals try simp only [bsize, bsizeL, Nat.add_zero]
  all_goals
    first
      | exact Prod.Lex.right _ (by omega)
      | (apply Prod.Lex.left
         first
           | (have h9 : 0 < bsize c := bsize_pos c; omega)
           | (have h9 : 0 < bsize c2 := bsize_pos c2; omega)
           | omega)
      | (rcases Nat.eq_zero_or_pos (bsizeL cs) with h | h
         · rw [h, Nat.add_zero]; exact Prod.Lex.right _ (by omega)
         · apply Prod.Lex.left; omega)
      | (apply Prod.Lex.left
         rename_i cskip hskip
         have := bsize_pos cskip
         omega)
      | (apply Prod.Lex.left
         rename_i cskip
         have := bsize_pos cskip
         omega)
end

/-- `Insert` at the tree level: if the root splits, `insertInParent` with a
nil parent creates a fresh root with the one promoted key and two children. -/
def BTree.Insert (t : BTree) (key : Key) (value : BVal) : BTree :=
  match insertNode t.order key value t.root with
  | .one n => { t with root := n }
  | .split l sk r => { t with root := .node [sk] [l, r] }

mutual
/-- `findLeaf`: descend to the leaf that would hold `key`; returns the leaf's
entry list.  Child choice: the first child whose separator exceeds the key,
else the rightmost child. -/
def findLeafN : BNode → Key → List (Key × List BVal)
  | .leaf es, _ => es
  | .node _ [], _ => []
  | .node ks (c :: cs), key => findLeafL ks c cs key
termination_by n _ => (bsize n, 0)
decreasing_by
  all_goals simp_wf
  all_goals try simp only [bsize, bsizeL, Nat.add_zero]
  all_goals (apply Prod.Lex.left; omega)
def findLeafL : List Key → BNode → List BNode → Key → List (Key × List BVal)
  | [], c, [], key => findLeafN c key
  | [], c, c2 :: cs, key => findLeafL [] c2 cs key
  | k :: ks, c, cs, key =>
      if keyCmp key k = .lt then findLeafN c key
      else match cs with
        | [] => findLeafN c key
        | c2 :: cs2 => findLeafL ks c2 cs2 key
termination_by ks c cs _ => (bsize c + bsizeL cs, 1)
decreasing_by
  all_goals simp_wf
  all_goals try simp only [bsize, bsizeL, Nat.add_zero]
  all_goals
    first
      | exact Prod.Lex.right _ (by omega)
      | (apply Prod.Lex.left
         first
           | (have h9 : 0 < bsize c := bsize_pos c; omega)
           | (have h9 : 0 < bsize c2 := bsize_pos c2; omega)
           | omega)
      | (rcases Nat.eq_zero_or_pos (bsizeL cs) with h | h
         · rw [h, Nat.add_zero]; exact Prod.Lex.right _ (by omega)
         · apply Prod.Lex.left; omega)
      | (apply Prod.Lex.left
         rename_i cskip hskip
         have := bsize_pos cskip
         omega)
      | (apply Prod.Lex.left
         rename_i cskip
         have := bsize_pos cskip
         omega)
end

/-- `Search`: point lookup — find the leaf, scan it for a `bytes.Equal` key,
return its value list (or nothing). -/
def BTree.Search (t : BTree) (key : Key) : List BVal :=
  match (findLeafN t.root key).find? (fun e => e.1 == key) with
  | some e => e.2
  | none => []

mutual
/-- position (in `next`-chain order) of the leaf `findLeaf` reaches: the
number of leaves strictly to its left. -/
def leafIdxN : BNode → Key → Nat
  | .leaf _, _ => 0
  | .node _ [], _ => 0
  | .node ks (c :: cs), key => leafIdxL ks c cs key
termination_by n _ => (bsize n, 0)
decreasing_by
  all_goals simp_wf
  all_goals try simp only [bsize, bsizeL, Nat.add_zero]
  all_goals (apply Prod.Lex.left; omega)
def leafIdxL : List Key → BNode → List BNode → Key → Nat
  | [], c, [], key => leafIdxN c key
  | [], c, c2 :: cs, key => numLeavesN c + leafIdxL [] c2 cs key
  | k :: ks, c, cs, key =>
      if keyCmp key k = .lt then leafIdxN c key
      else match cs with
        | [] => leafIdxN c key
        | c2 :: cs2 => numLeavesN c + leafIdxL ks c2 cs2 key
termination_by ks c cs _ => (bsize c + bsizeL cs, 1)
decreasing_by
  all_goals simp_wf
  all_goals try simp only [bsize, bsizeL, Nat.add_zero]
  all_goals
    first
      | exact Prod.Lex.right _ (by omega)
      | (apply Prod.Lex.left
         first
           | (have h9 : 0 < bsize c := bsize_pos c; omega)
           | (have h9 : 0 < bsize c2 := bsize_pos c2; omega)
           | omega)
      | (rcases Nat.eq_zero_or_pos (bsizeL cs) with h | h
         · rw [h, Nat.add_zero]; exact Prod.Lex.right _ (by omega)
         · apply Prod.Lex.left; omega)
      | (apply Prod.Lex.left
         rename_i cskip hskip
         have := bsize_pos cskip
         omega)
      | (apply Prod.Lex.left
         rename_i cskip
         have := bsize_pos cskip
         omega)
end

/-- the `cmp < 0 || (cmp == 0 && !includeStart)` skip test of `RangeSearch`. -/
def belowStart (start : Option Key) (includeStart : Bool) (k : Key) : Bool :=
  match start with
  | none => false
  | some s =>
      match keyCmp k s with
      | .lt => true
      | .eq => !includeStart
      | .gt => false

/-- the `cmp > 0 || (cmp == 0 && !includeEnd)` early-return test of `RangeSearch`. -/
def pastEnd (stop : Option Key) (includeEnd : Bool) (k : Key) : Bool :=
  match stop with
  | none => false
  | some e =>
      match keyCmp k e with
      | .gt => true
      | .eq => !includeEnd
      | .lt => false

/-- the per-leaf body of `RangeSearch`'s loop: skip keys below `start`
(`continue`), return as soon as a key passes `end` (the early
`return result`), otherwise collect the key's values.  The Bool flags the
early return. -/
def scanLeaf (start stop : Option Key) (includeStart includeEnd : Bool) :
    List (Key × List BVal) → List BVal × Bool
  | [] => ([], false)
  | (k, vs) :: rest =>
      if belowStart start includeStart k then
        scanLeaf start stop includeStart includeEnd rest
      else if pastEnd stop includeEnd k then ([], true)
      else
        let p := scanLeaf start stop includeStart includeEnd rest
        (vs ++ p.1, p.2)

/-- the `end != nil && len(leaf.keys) > 0 && bytes.Compare(lastKey, end) >= 0`
break test at the bottom of `RangeSearch`'s leaf loop. -/
def lastKeyStops (stop : Option Key) (es : List (Key × List BVal)) : Bool :=
  match stop, es.getLast? with
  | some e, some entry =>
      (match keyCmp entry.1 e with
       | .lt => false
       | _ => true)
  | _, _ => false

/-- the leaf-chain walk of `RangeSearch`: process leaves in `next` order,
stopping on an early return or when a nonempty leaf's last key has reached
`end`. -/
def walkLeaves (start stop : Option Key) (includeStart includeEnd : Bool) :
    List (List (Key × List BVal)) → List BVal
  | [] => []
  | es :: rest =>
      let p := scanLeaf start stop includeStart includeEnd es
      if p.2 then p.1
      else if lastKeyStops stop es then p.1
      else p.1 ++ walkLeaves start stop includeStart includeEnd rest

/-- `RangeSearch`: start from the leftmost leaf when `start` is absent
(`findLeftmostLeaf`), else from `findLeaf(start)`; walk the `next` chain
filtering by the bounds. -/
def BTree.RangeSearch (t : BTree) (start stop : Option Key)
    (includeStart includeEnd : Bool) : List BVal :=
  let idx : Nat :=
    match start with
    | none => 0
    | some s => leafIdxN t.root s
  walkLeaves start stop includeStart includeEnd ((leavesN t.root).drop idx)

/-- `SearchGreaterThan` — sugar on `RangeSearch`. -/
def BTree.SearchGreaterThan (t : BTree) (key : Key) : List BVal :=
  t.RangeSearch (some key) none false false

/-- `SearchLessThan` — sugar on `RangeSearch`. -/
def BTree.SearchLessThan (t : BTree) (key : Key) : List BVal :=
  t.RangeSearch none (some key) false false

/-- `SearchGreaterThanOrEqual` — sugar on `RangeSearch`. -/
def BTree.SearchGreaterThanOrEqual (t : BTree) (key : Key) : List BVal :=
  t.RangeSearch (some key) none true false

/-- `SearchLessThanOrEqual` — sugar on `RangeSearch`. -/
def BTree.SearchLessThanOrEqual (t : BTree) (key : Key) : List BVal :=
  t.RangeSearch none (some key) false true

/-- `SearchIn`: concatenation of point lookups in argument order. -/
def BTree.SearchIn (t : BTree) (keys : List Key) : List BVal :=
  (keys.map (fun k => t.Search k)).flatten

/-
=====================  well-formedness invariant  =====================

Keys of a subtree lie in the half-open interval [lo, hi); a separator key
bounds its left child from above and its right siblings from below; every
child subtree contains at least one entry.  These are the invariants
`Insert` maintains and `findLeaf` / `RangeSearch` rely on.
-/

/-- every optional lower bound is ≤ k. -/
def lbO (lo : Option Key) (k : Key) : Prop := ∀ l ∈ lo, keyLe l k

/-- k is strictly below every optional upper bound. -/
def ubO (hi : Option Key) (k : Key) : Prop := ∀ h ∈ hi, keyLt k h

theorem lbO_none (k : Key) : lbO none k := by intro l hl; cases hl
theorem ubO_none (k : Key) : ubO none k := by intro h hh; cases hh
theorem lbO_some {l k : Key} (h : keyLe l k) : lbO (some l) k := by
  intro x hx; cases hx; exact h
theorem ubO_some {h k : Key} (hlt : keyLt k h) : ubO (some h) k := by
  intro x hx; cases hx; exact hlt
theorem lbO_some_elim {l k : Key} (h : lbO (some l) k) : keyLe l k := h l rfl
theorem ubO_some_elim {h k : Key} (hu : ubO (some h) k) : keyLt k h := hu h rfl
theorem lbO_mono {lo : Option Key} {a b : Key} (h : lbO lo a) (hab : keyLe a b) :
    lbO lo b := fun l hl => keyLe_trans (h l hl) hab
theorem ubO_mono {hi : Option Key} {a b : Key} (h : ubO hi b) (hab : keyLe a b) :
    ubO hi a := fun x hx => keyLt_of_le_of_lt hab (h x hx)
theorem ubO_of_lt {hi : Option Key} {a b : Key} (h : ubO hi b) (hab : keyLt a b) :
    ubO hi a := fun x hx => keyLt_trans hab (h x hx)

/-- the keys of an entry list. -/
def keysOf (es : List (Key × List BVal)) : List Key := es.map Prod.fst

mutual
/-- interval well-formedness of a subtree (see the section comment). -/
def WFB : Option Key → Option Key → BNode → Prop
  | lo, hi, .leaf es =>
      List.Chain' keyLt (keysOf es) ∧
      (∀ k ∈ keysOf es, lbO lo k ∧ ubO hi k) ∧
      (∀ e ∈ es, e.2 ≠ [])
  | lo, hi, .node ks cs => WFC lo hi ks cs
termination_by lo hi n => (bsize n, 0)
decreasing_by
  all_goals simp_wf
  all_goals try simp only [bsize, bsizeL, Nat.add_zero]
  all_goals (apply Prod.Lex.left; omega)
/-- well-formedness of a parallel (keys, children) structure. -/
def WFC : Option Key → Option Key → List Key → List BNode → Prop
  | lo, hi, [], [c] => WFB lo hi c ∧ entriesN c ≠ []
  | lo, hi, k :: ks, c :: cs =>
      WFB lo (some k) c ∧ entriesN c ≠ [] ∧ lbO lo k ∧ ubO hi k ∧
      WFC (some k) hi ks cs
  | _, _, _, _ => False
termination_by lo hi ks cs => (bsizeL cs, 1)
decreasing_by
  all_goals simp_wf
  all_goals try simp only [bsize, bsizeL, Nat.add_zero]
  all_goals
    first
      | exact Prod.Lex.right _ (by omega)
      | (apply Prod.Lex.left; have := bsize_pos c; omega)
      | (rcases Nat.eq_zero_or_pos (bsizeL cs) with h | h
         · rw [h, Nat.add_zero]; exact Prod.Lex.right _ (by omega)
         · apply Prod.Lex.left; omega)
end

/-- a well-formed tree: the root interval is unbounded. -/
def WFT (t : BTree) : Prop := WFB none none t.root

/-- association-list lookup used by `Search`'s leaf scan. -/
def lookupE (es : List (Key × List BVal)) (key : Key) : List BVal :=
  match es.find? (fun e => e.1 == key) with
  | some e => e.2
  | none => []

/-
=====================  insertInLeaf lemmas  =====================
-/

/-- key-level shape of `insertInLeaf`: ordered insertion of a key,
keeping the list unchanged when the key is present. -/
def insertKeyList (key : Key) : List Key → List Key
  | [] => [key]
  | k :: ks =>
      match keyCmp k key with
      | .lt => k :: insertKeyList key ks
      | .eq => k :: ks
      | .gt => key :: k :: ks

theorem keysOf_insertInLeaf (key : Key) (v : BVal) (es : List (Key × List BVal)) :
    keysOf (insertInLeaf key v es) = insertKeyList key (keysOf es) := by
  induction es with
  | nil => rfl
  | cons e es ih =>
    obtain ⟨k, vs⟩ := e
    simp only [insertInLeaf, keysOf, List.map_cons, insertKeyList]
    rcases hc : keyCmp k key with _ | _ | _ <;>
      simp [keysOf, hc, ih, List.map_cons] at *
    · exact ih

theorem insertKeyList_mem {key k2 : Key} {ks : List Key}
    (h : k2 ∈ insertKeyList key ks) : k2 = key ∨ k2 ∈ ks := by
  induction ks with
  | nil => simp [insertKeyList] at h; exact Or.inl h
  | cons k ks ih =>
    simp only [insertKeyList] at h
    rcases hc : keyCmp k key with _ | _ | _ <;> rw [hc] at h <;>
      simp only [List.mem_cons] at h
    · rcases h with h | h
      · subst h; exact Or.inr (List.mem_cons_self _ _)
      · rcases ih h with h2 | h2
        · exact Or.inl h2
        · exact Or.inr (List.mem_cons_of_mem k h2)
    · rcases h with h | h
      · subst h; exact Or.inr (List.mem_cons_self _ _)
      · exact Or.inr (List.mem_cons_of_mem k h)
    · rcases h with h | h
      · exact Or.inl h
      · rcases h with h | h
        · subst h; exact Or.inr (List.mem_cons_self _ _)
        · exact Or.inr (List.mem_cons_of_mem k h)

theorem insertKeyList_head {key : Key} {ks : List Key} :
    ∀ h ∈ (insertKeyList key ks).head?, h = key ∨ ∃ h0 ∈ ks.head?, h = h0 := by
  intro h hh
  cases ks with
  | nil => simp [insertKeyList] at hh; exact Or.inl hh.symm
  | cons k ks =>
    simp only [insertKeyList] at hh
    rcases hc : keyCmp k key with _ | _ | _ <;> rw [hc] at hh <;>
      simp only [List.head?, Option.mem_def, Option.some.injEq] at hh
    · exact Or.inr ⟨k, by simp, hh.symm⟩
    · exact Or.inr ⟨k, by simp, hh.symm⟩
    · exact Or.inl hh.symm

theorem insertKeyList_sorted {key : Key} {ks : List Key}
    (h : List.Chain' keyLt ks) : List.Chain' keyLt (insertKeyList key ks) := by
  induction ks with
  | nil => simp [insertKeyList]
  | cons k ks ih =>
    rw [List.chain'_cons'] at h
    obtain ⟨hhead, htail⟩ := h
    simp only [insertKeyList]
    rcases hc : keyCmp k key with _ | _ | _
    · rw [List.chain'_cons']
      refine ⟨?_, ih htail⟩
      intro h2 hh2
      rcases insertKeyList_head h2 hh2 with h3 | h3
      · subst h3; exact hc
      · obtain ⟨h0, hh0, h3⟩ := h3
        rw [h3]; exact hhead h0 hh0
    · rw [List.chain'_cons']; exact ⟨hhead, htail⟩
    · rw [List.chain'_cons']
      refine ⟨?_, by rw [List.chain'_cons']; exact ⟨hhead, htail⟩⟩
      intro h2 hh2
      simp only [List.head?, Option.mem_def, Option.some.injEq] at hh2
      rw [← hh2]
      exact keyCmp_gt_iff.mp hc

theorem insertKeyList_length {key : Key} (ks : List Key) :
    ks.length ≤ (insertKeyList key ks).length ∧
    (insertKeyList key ks).length ≤ ks.length + 1 := by
  induction ks with
  | nil => simp [insertKeyList]
  | cons k ks ih =>
    simp only [insertKeyList]
    rcases hc : keyCmp k key with _ | _ | _ <;> simp [List.length_cons] <;> omega

theorem insertInLeaf_length {key : Key} {v : BVal} (es : List (Key × List BVal)) :
    es.length ≤ (insertInLeaf key v es).length ∧
    (insertInLeaf key v es).length ≤ es.length + 1 := by
  have h1 : (insertInLeaf key v es).length = (keysOf (insertInLeaf key v es)).length := by
    simp [keysOf]
  have h2 : es.length = (keysOf es).length := by simp [keysOf]
  rw [h1, h2, keysOf_insertInLeaf]
  exact insertKeyList_length (keysOf es)

theorem insertInLeaf_vals_ne {key : Key} {v : BVal} {es : List (Key × List BVal)}
    (h : ∀ e ∈ es, e.2 ≠ []) : ∀ e ∈ insertInLeaf key v es, e.2 ≠ [] := by
  induction es with
  | nil =>
    intro e he; simp [insertInLeaf] at he; subst he; simp
  | cons e0 es ih =>
    obtain ⟨k, vs⟩ := e0
    intro e he
    simp only [insertInLeaf] at he
    rcases hc : keyCmp k key with _ | _ | _ <;> rw [hc] at he <;>
      simp only [List.mem_cons] at he
    · rcases he with he | he
      · subst he; exact h (k, vs) (List.mem_cons_self _ _)
      · exact ih (fun e2 he2 => h e2 (List.mem_cons_of_mem _ he2)) e he
    · rcases he with he | he
      · subst he; simp
      · exact h e (List.mem_cons_of_mem _ he)
    · rcases he with he | he
      · subst he; simp
      · rcases he with he | he
        · subst he; exact h (k, vs) (List.mem_cons_self _ _)
        · exact h e (List.mem_cons_of_mem _ he)

instance : IsTrans Key keyLt := ⟨fun _ _ _ => keyLt_trans⟩

theorem lookupE_cons (e : Key × List BVal) (es : List (Key × List BVal)) (key : Key) :
    lookupE (e :: es) key = if e.1 = key then e.2 else lookupE es key := by
  by_cases h : e.1 = key
  · unfold lookupE
    rw [List.find?_cons_of_pos _ (by simp [h])]
    simp [h]
  · unfold lookupE
    rw [List.find?_cons_of_neg _ (by simp [h])]
    simp [h]

theorem lookupE_eq_nil {key : Key} {es : List (Key × List BVal)}
    (h : ∀ e ∈ es, e.1 ≠ key) : lookupE es key = [] := by
  induction es with
  | nil => rfl
  | cons e es ih =>
    rw [lookupE_cons, if_neg (h e (List.mem_cons_self _ _))]
    exact ih (fun e2 he2 => h e2 (List.mem_cons_of_mem _ he2))

theorem sorted_cons_keys {k : Key} {ks : List Key}
    (h : List.Chain' keyLt (k :: ks)) : ∀ k2 ∈ ks, keyLt k k2 := by
  rw [List.chain'_iff_pairwise] at h
  exact (List.pairwise_cons.mp h).1

theorem lookupE_insertInLeaf_self {key : Key} {v : BVal} {es : List (Key × List BVal)}
    (hs : List.Chain' keyLt (keysOf es)) :
    lookupE (insertInLeaf key v es) key = lookupE es key ++ [v] := by
  induction es with
  | nil => simp [insertInLeaf, lookupE_cons, lookupE]
  | cons e es ih =>
    obtain ⟨k, vs⟩ := e
    simp only [insertInLeaf]
    have hs2 : List.Chain' keyLt (keysOf es) := by
      simp only [keysOf, List.map_cons] at hs
      exact hs.tail
    rcases hc : keyCmp k key with _ | _ | _
    · have hne : k ≠ key := keyLt_ne hc
      rw [lookupE_cons, lookupE_cons]
      simp only [if_neg hne]
      exact ih hs2
    · have heq : k = key := keyCmp_eq_iff.mp hc
      rw [lookupE_cons, lookupE_cons]
      simp only [if_pos heq]
    · have hgt : keyLt key k := keyCmp_gt_iff.mp hc
      have hne : k ≠ key := fun he => keyLt_ne hgt he.symm
      rw [lookupE_cons, lookupE_cons, if_pos rfl, if_neg hne]
      have hnil : lookupE es key = [] := by
        apply lookupE_eq_nil
        intro e2 he2
        have hk2 : keyLt k e2.1 := by
          have hs3 : List.Chain' keyLt (k :: keysOf es) := by simpa [keysOf] using hs
          exact sorted_cons_keys hs3 e2.1 (List.mem_map_of_mem Prod.fst he2)
        exact fun he => keyLt_ne (keyLt_trans hgt hk2) he.symm
      rw [hnil]
      simp

theorem lookupE_insertInLeaf_other {key k2 : Key} {v : BVal} {es : List (Key × List BVal)}
    (hne : k2 ≠ key) :
    lookupE (insertInLeaf key v es) k2 = lookupE es k2 := by
  have hne2 : key ≠ k2 := fun h => hne h.symm
  induction es with
  | nil =>
    simp only [insertInLeaf]
    rw [lookupE_cons, if_neg hne2]
  | cons e es ih =>
    obtain ⟨k, vs⟩ := e
    simp only [insertInLeaf]
    rcases hc : keyCmp k key with _ | _ | _
    · rw [lookupE_cons, lookupE_cons]
      by_cases h : k = k2 <;> simp [h, ih]
    · have heq : k = key := keyCmp_eq_iff.mp hc
      rw [lookupE_cons, lookupE_cons]
      have hk : k ≠ k2 := by rw [heq]; exact hne2
      simp [hk]
    · simp only [lookupE_cons]
      rw [if_neg hne2]

/-- the (key, value) pairs of an entry list, in entry order. -/
def flattenE (es : List (Key × List BVal)) : List (Key × BVal) :=
  (es.map (fun e => e.2.map (fun w => (e.1, w)))).flatten

theorem flattenE_cons (e : Key × List BVal) (es : List (Key × List BVal)) :
    flattenE (e :: es) = e.2.map (fun w => (e.1, w)) ++ flattenE es := by
  simp [flattenE]

theorem flattenE_insertInLeaf_perm (key : Key) (v : BVal) (es : List (Key × List BVal)) :
    (flattenE (insertInLeaf key v es)).Perm ((key, v) :: flattenE es) := by
  induction es with
  | nil => simp [insertInLeaf, flattenE]
  | cons e es ih =>
    obtain ⟨k, vs⟩ := e
    simp only [insertInLeaf]
    rcases hc : keyCmp k key with _ | _ | _
    · rw [flattenE_cons, flattenE_cons]
      refine (List.Perm.append_left _ ih).trans ?_
      exact List.perm_middle
    · have heq : k = key := keyCmp_eq_iff.mp hc
      subst heq
      rw [flattenE_cons, flattenE_cons]
      have h1 : (vs ++ [v]).map (fun w => (k, w)) ++ flattenE es
          = vs.map (fun w => (k, w)) ++ ((k, v) :: flattenE es) := by simp
      rw [h1]
      exact List.perm_middle
    · rw [flattenE_cons]
      simp [flattenE_cons]

theorem bsize_mem_le {c : BNode} {cs : List BNode} (h : c ∈ cs) :
    bsize c ≤ bsizeL cs := by
  induction cs with
  | nil => cases h
  | cons c2 cs ih =>
    rcases List.mem_cons.mp h with h | h
    · subst h; simp [bsizeL]
    · have := ih h; simp [bsizeL]; omega

theorem entriesL_nil : entriesL [] = [] := by simp [entriesL]

theorem entriesL_cons (c : BNode) (cs : List BNode) :
    entriesL (c :: cs) = entriesN c ++ entriesL cs := by simp [entriesL]

theorem wfc_len {lo hi : Option Key} : ∀ {ks : List Key} {cs : List BNode},
    WFC lo hi ks cs → cs.length = ks.length + 1 := by
  intro ks
  induction ks generalizing lo with
  | nil =>
    intro cs hwf
    match cs with
    | [] => simp [WFC] at hwf
    | [c] => simp
    | c :: c2 :: cs => simp [WFC] at hwf
  | cons k ks ih =>
    intro cs hwf
    match cs with
    | [] => simp [WFC] at hwf
    | c :: cs =>
      rw [WFC] at hwf
      have := ih hwf.2.2.2.2
      simp [this]

/-- bounds for the entries below a (keys, children) structure, generic in a
handler for the child subtrees. -/
theorem wfc_bounds_aux :
    ∀ (cs : List BNode) (ks : List Key) (lo hi : Option Key),
    (∀ c ∈ cs, ∀ lo2 hi2, WFB lo2 hi2 c →
      ∀ e ∈ entriesN c, lbO lo2 e.1 ∧ ubO hi2 e.1) →
    WFC lo hi ks cs → ∀ e ∈ entriesL cs, lbO lo e.1 ∧ ubO hi e.1 := by
  intro cs
  induction cs with
  | nil =>
    intro ks lo hi hch hwf e he
    rw [entriesL_nil] at he; cases he
  | cons c cs ih =>
    intro ks lo hi hch hwf e he
    rw [entriesL_cons] at he
    cases ks with
    | nil =>
      cases cs with
      | nil =>
        rw [WFC] at hwf
        rcases List.mem_append.mp he with h | h
        · exact hch c (List.mem_cons_self _ _) lo hi hwf.1 e h
        · rw [entriesL_nil] at h; cases h
      | cons c2 cs2 => simp [WFC] at hwf
    | cons k ks2 =>
      rw [WFC] at hwf
      obtain ⟨hwc, _hne, hlbk, hubk, hrest⟩ := hwf
      rcases List.mem_append.mp he with h | h
      · have h2 := hch c (List.mem_cons_self _ _) lo (some k) hwc e h
        exact ⟨h2.1, ubO_of_lt hubk (ubO_some_elim h2.2)⟩
      · have h2 := ih ks2 (some k) hi
          (fun c2 hc2 => hch c2 (List.mem_cons_of_mem _ hc2)) hrest e h
        exact ⟨lbO_mono hlbk (lbO_some_elim h2.1), h2.2⟩

theorem wfb_bounds_fuel :
    ∀ (N : Nat) (n : BNode), bsize n ≤ N → ∀ lo hi, WFB lo hi n →
    ∀ e ∈ entriesN n, lbO lo e.1 ∧ ubO hi e.1 := by
  intro N
  induction N with
  | zero => intro n h; have := bsize_pos n; omega
  | succ N ih =>
    intro n hn lo hi hwf e he
    cases n with
    | leaf es =>
      rw [WFB] at hwf
      rw [entriesN] at he
      exact hwf.2.1 e.1 (List.mem_map_of_mem _ he)
    | node ks cs =>
      rw [WFB] at hwf
      rw [entriesN] at he
      refine wfc_bounds_aux cs ks lo hi ?_ hwf e he
      intro c hc lo2 hi2 hwf2 e2 he2
      have hsz : bsize c ≤ N := by
        have h1 := bsize_mem_le hc
        simp only [bsize] at hn
        omega
      exact ih c hsz lo2 hi2 hwf2 e2 he2

/-- every entry key of a well-formed subtree lies in its interval. -/
theorem wfb_bounds {n : BNode} {lo hi : Option Key} (hwf : WFB lo hi n) :
    ∀ e ∈ entriesN n, lbO lo e.1 ∧ ubO hi e.1 :=
  wfb_bounds_fuel (bsize n) n (Nat.le_refl _) lo hi hwf

/-- bounds under a (keys, children) structure. -/
theorem wfc_bounds {ks : List Key} {cs : List BNode} {lo hi : Option Key}
    (hwf : WFC lo hi ks cs) : ∀ e ∈ entriesL cs, lbO lo e.1 ∧ ubO hi e.1 := by
  have : WFB lo hi (.node ks cs) := by rw [WFB]; exact hwf
  have h2 := wfb_bounds this
  rw [entriesN] at h2
  exact h2

theorem mem_of_getLast? {α : Type} {l : List α} {a : α} (h : a ∈ l.getLast?) : a ∈ l := by
  obtain ⟨hne, he⟩ := List.mem_getLast?_eq_getLast h
  rw [he]
  exact List.getLast_mem hne

theorem keysOf_append (a b : List (Key × List BVal)) :
    keysOf (a ++ b) = keysOf a ++ keysOf b := by simp [keysOf]

theorem wfc_sorted_aux :
    ∀ (cs : List BNode) (ks : List Key) (lo hi : Option Key),
    (∀ c ∈ cs, ∀ lo2 hi2, WFB lo2 hi2 c → List.Chain' keyLt (keysOf (entriesN c))) →
    WFC lo hi ks cs → List.Chain' keyLt (keysOf (entriesL cs)) := by
  intro cs
  induction cs with
  | nil => intro ks lo hi hch hwf; rw [entriesL_nil]; simp [keysOf]
  | cons c cs ih =>
    intro ks lo hi hch hwf
    cases ks with
    | nil =>
      cases cs with
      | nil =>
        rw [WFC] at hwf
        rw [entriesL_cons, entriesL_nil, List.append_nil]
        exact hch c (List.mem_cons_self _ _) lo hi hwf.1
      | cons c2 cs2 => simp [WFC] at hwf
    | cons k ks2 =>
      rw [WFC] at hwf
      obtain ⟨hwc, _hne, _hlbk, _hubk, hrest⟩ := hwf
      rw [entriesL_cons, keysOf_append]
      rw [List.chain'_append]
      refine ⟨hch c (List.mem_cons_self _ _) lo (some k) hwc, ?_, ?_⟩
      · exact ih ks2 (some k) hi (fun c2 hc2 => hch c2 (List.mem_cons_of_mem _ hc2)) hrest
      · intro x hx y hy
        have hxm : x ∈ keysOf (entriesN c) := mem_of_getLast? hx
        have hym : y ∈ keysOf (entriesL cs) := List.mem_of_mem_head? hy
        obtain ⟨ex, hex, hex2⟩ := List.mem_map.mp hxm
        obtain ⟨ey, hey, hey2⟩ := List.mem_map.mp hym
        have hbx := wfb_bounds hwc ex hex
        have hby := wfc_bounds hrest ey hey
        rw [← hex2, ← hey2]
        exact keyLt_of_lt_of_le (ubO_some_elim hbx.2) (lbO_some_elim hby.1)

theorem wfb_sorted_fuel :
    ∀ (N : Nat) (n : BNode), bsize n ≤ N → ∀ lo hi, WFB lo hi n →
    List.Chain' keyLt (keysOf (entriesN n)) := by
  intro N
  induction N with
  | zero => intro n h; have := bsize_pos n; omega
  | succ N ih =>
    intro n hn lo hi hwf
    cases n with
    | leaf es =>
      rw [WFB] at hwf
      rw [entriesN]
      exact hwf.1
    | node ks cs =>
      rw [WFB] at hwf
      rw [entriesN]
      refine wfc_sorted_aux cs ks lo hi ?_ hwf
      intro c hc lo2 hi2 hwf2
      have hsz : bsize c ≤ N := by
        have h1 := bsize_mem_le hc
        simp only [bsize] at hn
        omega
      exact ih c hsz lo2 hi2 hwf2

/-- the entry keys of a well-formed subtree are strictly increasing in
leaf-chain order. -/
theorem wfb_sorted {n : BNode} {lo hi : Option Key} (hwf : WFB lo hi n) :
    List.Chain' keyLt (keysOf (entriesN n)) :=
  wfb_sorted_fuel (bsize n) n (Nat.le_refl _) lo hi hwf

theorem wfc_sorted {ks : List Key} {cs : List BNode} {lo hi : Option Key}
    (hwf : WFC lo hi ks cs) : List.Chain' keyLt (keysOf (entriesL cs)) := by
  have : WFB lo hi (.node ks cs) := by rw [WFB]; exact hwf
  have h2 := wfb_sorted this
  rw [entriesN] at h2
  exact h2

theorem wfc_entries_ne {ks : List Key} {cs : List BNode} {lo hi : Option Key}
    (hwf : WFC lo hi ks cs) : entriesL cs ≠ [] := by
  cases ks with
  | nil =>
    match cs with
    | [] => simp [WFC] at hwf
    | [c] =>
      rw [WFC] at hwf
      rw [entriesL_cons, entriesL_nil, List.append_nil]
      exact hwf.2
    | c :: c2 :: cs2 => simp [WFC] at hwf
  | cons k ks2 =>
    match cs with
    | [] => simp [WFC] at hwf
    | c :: cs2 =>
      rw [WFC] at hwf
      rw [entriesL_cons]
      intro hcon
      exact hwf.2.1 (List.append_eq_nil.mp hcon).1

/-- every value list stored below a well-formed subtree is nonempty. -/
theorem wfc_vals_ne_aux :
    ∀ (cs : List BNode) (ks : List Key) (lo hi : Option Key),
    (∀ c ∈ cs, ∀ lo2 hi2, WFB lo2 hi2 c → ∀ e ∈ entriesN c, e.2 ≠ []) →
    WFC lo hi ks cs → ∀ e ∈ entriesL cs, e.2 ≠ [] := by
  intro cs
  induction cs with
  | nil => intro ks lo hi hch hwf e he; rw [entriesL_nil] at he; cases he
  | cons c cs ih =>
    intro ks lo hi hch hwf e he
    rw [entriesL_cons] at he
    cases ks with
    | nil =>
      cases cs with
      | nil =>
        rw [WFC] at hwf
        rcases List.mem_append.mp he with h | h
        · exact hch c (List.mem_cons_self _ _) lo hi hwf.1 e h
        · rw [entriesL_nil] at h; cases h
      | cons c2 cs2 => simp [WFC] at hwf
    | cons k ks2 =>
      rw [WFC] at hwf
      rcases List.mem_append.mp he with h | h
      · exact hch c (List.mem_cons_self _ _) lo (some k) hwf.1 e h
      · exact ih ks2 (some k) hi
          (fun c2 hc2 => hch c2 (List.mem_cons_of_mem _ hc2)) hwf.2.2.2.2 e h

theorem wfb_vals_ne_fuel :
    ∀ (N : Nat) (n : BNode), bsize n ≤ N → ∀ lo hi, WFB lo hi n →
    ∀ e ∈ entriesN n, e.2 ≠ [] := by
  intro N
  induction N with
  | zero => intro n h; have := bsize_pos n; omega
  | succ N ih =>
    intro n hn lo hi hwf e he
    cases n with
    | leaf es =>
      rw [WFB] at hwf
      rw [entriesN] at he
      exact hwf.2.2 e he
    | node ks cs =>
      rw [WFB] at hwf
      rw [entriesN] at he
      refine wfc_vals_ne_aux cs ks lo hi ?_ hwf e he
      intro c hc lo2 hi2 hwf2 e2 he2
      have hsz : bsize c ≤ N := by
        have h1 := bsize_mem_le hc
        simp only [bsize] at hn
        omega
      exact ih c hsz lo2 hi2 hwf2 e2 he2

theorem wfb_vals_ne {n : BNode} {lo hi : Option Key} (hwf : WFB lo hi n) :
    ∀ e ∈ entriesN n, e.2 ≠ [] :=
  wfb_vals_ne_fuel (bsize n) n (Nat.le_refl _) lo hi hwf

theorem insertInLeaf_ne (key : Key) (v : BVal) (es : List (Key × List BVal)) :
    insertInLeaf key v es ≠ [] := by
  cases es with
  | nil => simp [insertInLeaf]
  | cons e es =>
    obtain ⟨k, vs⟩ := e
    simp only [insertInLeaf]
    rcases keyCmp k key with _ | _ | _ <;> simp

theorem insertInLeaf_append_right {key : Key} {v : BVal}
    {es1 es2 : List (Key × List BVal)}
    (h : ∀ k1 ∈ keysOf es1, keyLt k1 key) :
    insertInLeaf key v (es1 ++ es2) = es1 ++ insertInLeaf key v es2 := by
  induction es1 with
  | nil => simp
  | cons e es1 ih =>
    obtain ⟨k, vs⟩ := e
    have hk : keyCmp k key = .lt := h k (by simp [keysOf])
    simp only [List.cons_append, insertInLeaf, hk]
    exact congrArg (List.cons (k, vs))
      (ih (fun k1 hk1 => h k1 (by simp [keysOf] at hk1 ⊢; exact Or.inr hk1)))

theorem insertInLeaf_append_left {key : Key} {v : BVal}
    {es1 es2 : List (Key × List BVal)}
    (h : ∀ k2 ∈ keysOf es2, keyLt key k2) :
    insertInLeaf key v (es1 ++ es2) = insertInLeaf key v es1 ++ es2 := by
  induction es1 with
  | nil =>
    simp only [List.nil_append, insertInLeaf]
    cases es2 with
    | nil => rfl
    | cons e2 es2 =>
      obtain ⟨k2, vs2⟩ := e2
      have hk2 : keyLt key k2 := h k2 (by simp [keysOf])
      have : keyCmp k2 key = .gt := keyCmp_gt_iff.mpr hk2
      simp only [insertInLeaf, this]
      rfl
  | cons e es1 ih =>
    obtain ⟨k, vs⟩ := e
    simp only [List.cons_append, insertInLeaf]
    rcases keyCmp k key with _ | _ | _ <;> simp [ih]

/-- strict version of `lbO`. -/
def lbS (lo : Option Key) (k : Key) : Prop := ∀ l ∈ lo, keyLt l k

theorem lbS_none (k : Key) : lbS none k := by intro l hl; cases hl
theorem lbS_some_elim {l k : Key} (h : lbS (some l) k) : keyLt l k := h l rfl
theorem lbS_of_le_of_lt {lo : Option Key} {a b : Key} (h : lbO lo a) (hab : keyLt a b) :
    lbS lo b := fun l hl => keyLt_of_le_of_lt (h l hl) hab
theorem lbO_of_lbS {lo : Option Key} {k : Key} (h : lbS lo k) : lbO lo k :=
  fun l hl => keyLe_of_lt (h l hl)

/-- a separator above a nonempty subtree is strictly above the subtree's
lower bound. -/
theorem lbS_of_wfb {lo : Option Key} {sk : Key} {n : BNode}
    (hwf : WFB lo (some sk) n) (hne : entriesN n ≠ []) : lbS lo sk := by
  intro l hl
  obtain ⟨e, he⟩ := List.exists_mem_of_ne_nil _ hne
  have hb := wfb_bounds hwf e he
  exact keyLt_of_le_of_lt (hb.1 l hl) (ubO_some_elim hb.2)

theorem keysOf_take (n : Nat) (es : List (Key × List BVal)) :
    keysOf (es.take n) = (keysOf es).take n := by simp [keysOf, List.map_take]

theorem keysOf_drop (n : Nat) (es : List (Key × List BVal)) :
    keysOf (es.drop n) = (keysOf es).drop n := by simp [keysOf, List.map_drop]

/-- `splitLeaf` is sound: both halves are well-formed against the promoted
separator (the first key of the right half). -/
theorem leaf_split_ok {es2 : List (Key × List BVal)} {lo hi : Option Key} {mid : Nat}
    (hs : List.Chain' keyLt (keysOf es2))
    (hb : ∀ k ∈ keysOf es2, lbO lo k ∧ ubO hi k)
    (hv : ∀ e ∈ es2, e.2 ≠ [])
    (h1 : 1 ≤ mid) (h2 : mid < es2.length) :
    WFB lo (some ((es2.drop mid).headD ([], [])).1) (.leaf (es2.take mid)) ∧
    WFB (some ((es2.drop mid).headD ([], [])).1) hi (.leaf (es2.drop mid)) ∧
    entriesN (.leaf (es2.take mid)) ≠ [] ∧
    entriesN (.leaf (es2.drop mid)) ≠ [] ∧
    lbO lo ((es2.drop mid).headD ([], [])).1 ∧
    ubO hi ((es2.drop mid).headD ([], [])).1 ∧
    entriesN (.leaf (es2.take mid)) ++ entriesN (.leaf (es2.drop mid)) = es2 := by
  have hdropne : es2.drop mid ≠ [] := by
    intro h
    have := List.length_drop mid es2
    rw [h] at this
    simp at this
    omega
  obtain ⟨e0, rest, hdrop⟩ := List.exists_cons_of_ne_nil hdropne
  have hheadD : (es2.drop mid).headD ([], []) = e0 := by rw [hdrop]; rfl
  rw [hheadD]
  have hsplitkeys : keysOf es2 = keysOf (es2.take mid) ++ keysOf (es2.drop mid) := by
    rw [← keysOf_append, List.take_append_drop]
  have hp : List.Pairwise keyLt (keysOf es2) := List.chain'_iff_pairwise.mp hs
  rw [hsplitkeys] at hp
  obtain ⟨p1, p2, hglue⟩ := List.pairwise_append.mp hp
  have hsepmem : e0.1 ∈ keysOf (es2.drop mid) := by
    rw [hdrop]; simp [keysOf]
  have htakemem : ∀ k ∈ keysOf (es2.take mid), k ∈ keysOf es2 := by
    intro k hk
    rw [keysOf_take] at hk
    exact List.take_subset _ _ hk
  have hdropmem : ∀ k ∈ keysOf (es2.drop mid), k ∈ keysOf es2 := by
    intro k hk
    rw [keysOf_drop] at hk
    exact List.drop_subset _ _ hk
  refine ⟨?_, ?_, ?_, ?_, ?_, ?_, ?_⟩
  · rw [WFB]
    refine ⟨List.chain'_iff_pairwise.mpr p1, ?_, ?_⟩
    · intro k hk
      exact ⟨(hb k (htakemem k hk)).1, ubO_some (hglue k hk e0.1 hsepmem)⟩
    · intro e he
      exact hv e (List.take_subset _ _ he)
  · rw [WFB]
    refine ⟨List.chain'_iff_pairwise.mpr p2, ?_, ?_⟩
    · intro k hk
      refine ⟨?_, (hb k (hdropmem k hk)).2⟩
      have hkeys : keysOf (es2.drop mid) = e0.1 :: keysOf rest := by
        rw [hdrop]; rfl
      rw [hkeys] at hk
      rcases List.mem_cons.mp hk with h | h
      · subst h; exact lbO_some (keyLe_refl _)
      · rw [hkeys] at p2
        exact lbO_some (keyLe_of_lt ((List.pairwise_cons.mp p2).1 k h))
    · intro e he
      exact hv e (List.drop_subset _ _ he)
  · rw [entriesN]
    intro h
    have hlen := congrArg List.length h
    rw [List.length_take] at hlen
    simp only [List.length_nil] at hlen
    omega
  · rw [entriesN]
    exact hdropne
  · exact (hb e0.1 (hdropmem e0.1 hsepmem)).1
  · exact (hb e0.1 (hdropmem e0.1 hsepmem)).2
  · rw [entriesN, entriesN]
    exact List.take_append_drop mid es2

/-- `splitInternal` is sound: pushing up `keys[mid]` and splitting keys and
children at it yields two well-formed structures. -/
theorem wfc_split_ok :
    ∀ (mid : Nat) (ks : List Key) (cs : List BNode) (lo hi : Option Key),
    WFC lo hi ks cs → mid < ks.length →
    WFC lo (some (ks.getD mid [])) (ks.take mid) (cs.take (mid + 1)) ∧
    WFC (some (ks.getD mid [])) hi (ks.drop (mid + 1)) (cs.drop (mid + 1)) ∧
    lbO lo (ks.getD mid []) ∧ ubO hi (ks.getD mid []) ∧
    lbS lo (ks.getD mid []) ∧
    entriesL (cs.take (mid + 1)) ++ entriesL (cs.drop (mid + 1)) = entriesL cs := by
  intro mid
  induction mid with
  | zero =>
    intro ks cs lo hi hwf hmid
    match ks, cs with
    | [], _ => simp at hmid
    | k0 :: ks2, [] => simp [WFC] at hwf
    | k0 :: ks2, c0 :: cs2 =>
      rw [WFC] at hwf
      obtain ⟨hwc, hne, hlb, hub, hrest⟩ := hwf
      have ht : List.take (0 + 1) (c0 :: cs2) = [c0] := rfl
      have hd : List.drop (0 + 1) (c0 :: cs2) = cs2 := rfl
      have htk : List.take 0 (k0 :: ks2) = ([] : List Key) := rfl
      have hdk : List.drop (0 + 1) (k0 :: ks2) = ks2 := rfl
      have hg : (k0 :: ks2).getD 0 [] = k0 := rfl
      refine ⟨?_, ?_, ?_, ?_, ?_, ?_⟩
      · rw [ht, htk, hg, WFC]
        exact ⟨hwc, hne⟩
      · rw [hd, hdk, hg]
        exact hrest
      · rw [hg]; exact hlb
      · rw [hg]; exact hub
      · rw [hg]; exact lbS_of_wfb hwc hne
      · rw [ht, hd]
        simp [entriesL_cons, entriesL_nil]
  | succ mid ih =>
    intro ks cs lo hi hwf hmid
    match ks, cs with
    | [], _ => simp at hmid
    | k0 :: ks2, [] => simp [WFC] at hwf
    | k0 :: ks2, c0 :: cs2 =>
      rw [WFC] at hwf
      obtain ⟨hwc, hne, hlb, hub, hrest⟩ := hwf
      have hmid2 : mid < ks2.length := by simpa using hmid
      obtain ⟨ih1, ih2, ih3, ih4, ih5, ih6⟩ := ih ks2 cs2 (some k0) hi hrest hmid2
      have hksep : keyLt k0 (ks2.getD mid []) := lbS_some_elim ih5
      have ht : List.take (mid + 1 + 1) (c0 :: cs2) = c0 :: List.take (mid + 1) cs2 := rfl
      have hd : List.drop (mid + 1 + 1) (c0 :: cs2) = List.drop (mid + 1) cs2 := rfl
      have htk : List.take (mid + 1) (k0 :: ks2) = k0 :: List.take mid ks2 := rfl
      have hdk : List.drop (mid + 1 + 1) (k0 :: ks2) = List.drop (mid + 1) ks2 := rfl
      have hg : (k0 :: ks2).getD (mid + 1) [] = ks2.getD mid [] := rfl
      refine ⟨?_, ?_, ?_, ?_, ?_, ?_⟩
      · rw [ht, htk, hg, WFC]
        exact ⟨hwc, hne, hlb, ubO_some hksep, ih1⟩
      · rw [hd, hdk, hg]
        exact ih2
      · rw [hg]; exact lbO_mono hlb (keyLe_of_lt hksep)
      · rw [hg]; exact ih4
      · rw [hg]; exact lbS_of_le_of_lt hlb hksep
      · rw [ht, hd, entriesL_cons, List.append_assoc, ih6, entriesL_cons]

/-- soundness of one `insertNode` call on a well-formed subtree. -/
def insOK (ord : Nat) (key : Key) (value : BVal) (lo hi : Option Key) (n : BNode) : Prop :=
  (∀ n2, insertNode ord key value n = .one n2 →
      WFB lo hi n2 ∧ entriesN n2 = insertInLeaf key value (entriesN n)) ∧
  (∀ l sk r, insertNode ord key value n = .split l sk r →
      WFB lo (some sk) l ∧ WFB (some sk) hi r ∧
      entriesN l ≠ [] ∧ entriesN r ≠ [] ∧
      lbS lo sk ∧ ubO hi sk ∧
      entriesN l ++ entriesN r = insertInLeaf key value (entriesN n))

/-- soundness of one `insertChildren` call, combined with the
`insertKeyChild` splice that `insertInParent` performs when a split is
handed up. -/
def insCOK (ord : Nat) (key : Key) (value : BVal) (lo hi : Option Key)
    (ks : List Key) (c : BNode) (cs : List BNode) : Prop :=
  (∀ cs2, insertChildren ord key value ks c cs = (cs2, none) →
      WFC lo hi ks cs2 ∧
      entriesL cs2 = insertInLeaf key value (entriesL (c :: cs))) ∧
  (∀ cs2 sk r, insertChildren ord key value ks c cs = (cs2, some (sk, r)) →
      WFC lo hi (insertKeyChild sk r ks cs2).1 (insertKeyChild sk r ks cs2).2 ∧
      entriesL (insertKeyChild sk r ks cs2).2
        = insertInLeaf key value (entriesL (c :: cs)) ∧
      (insertKeyChild sk r ks cs2).1.length = ks.length + 1 ∧
      lbS lo sk)

theorem insertChildren_ok_aux :
    ∀ (cs : List BNode) (c : BNode) (ks : List Key) (lo hi : Option Key)
      (ord : Nat) (key : Key) (value : BVal),
    1 ≤ ord →
    (∀ c2, (c2 = c ∨ c2 ∈ cs) → ∀ lo2 hi2, WFB lo2 hi2 c2 → lbO lo2 key → ubO hi2 key →
        insOK ord key value lo2 hi2 c2) →
    WFC lo hi ks (c :: cs) → lbO lo key → ubO hi key →
    insCOK ord key value lo hi ks c cs := by
  intro cs
  induction cs with
  | nil =>
    intro c ks lo hi ord key value hord hch hwf hlb hub
    cases ks with
    | cons k ks2 =>
      rw [WFC] at hwf
      have := wfc_len hwf.2.2.2.2
      simp at this
    | nil =>
      rw [WFC] at hwf
      obtain ⟨hwc, hne⟩ := hwf
      have hio := hch c (Or.inl rfl) lo hi hwc hlb hub
      rcases hres : insertNode ord key value c with c2 | ⟨l, sk, r⟩
      · obtain ⟨h1, h2⟩ := hio.1 c2 hres
        have heval : insertChildren ord key value [] c [] = ([c2], none) := by
          simp [insertChildren, hres]
        constructor
        · intro cs2 heq
          rw [heval] at heq
          injection heq with heq1 heq2
          subst heq1
          refine ⟨?_, ?_⟩
          · rw [WFC]
            exact ⟨h1, h2 ▸ insertInLeaf_ne key value (entriesN c)⟩
          · rw [entriesL_cons, entriesL_nil, entriesL_cons, entriesL_nil,
              List.append_nil, List.append_nil]
            exact h2
        · intro cs2 sk r heq
          rw [heval] at heq
          injection heq with heq1 heq2
          cases heq2
      · obtain ⟨h1, h2, h3, h4, h5, h6, h7⟩ := hio.2 l sk r hres
        have heval : insertChildren ord key value [] c [] = ([l], some (sk, r)) := by
          simp [insertChildren, hres]
        constructor
        · intro cs2 heq
          rw [heval] at heq
          injection heq with heq1 heq2
          cases heq2
        · intro cs2 sk2 r2 heq
          rw [heval] at heq
          injection heq with heq1 heq2
          injection heq2 with heq2
          injection heq2 with heq3 heq4
          subst heq1; subst heq3; subst heq4
          have hq : insertKeyChild sk r ([] : List Key) [l] = ([sk], [l, r]) := rfl
          rw [hq]
          refine ⟨?_, ?_, by simp, h5⟩
          · rw [WFC]
            refine ⟨h1, h3, lbO_of_lbS h5, h6, ?_⟩
            rw [WFC]
            exact ⟨h2, h4⟩
          · simp only [entriesL_cons, entriesL_nil, List.append_nil]
            exact h7
  | cons c2 cs2 ih =>
    intro c ks lo hi ord key value hord hch hwf hlb hub
    cases ks with
    | nil => simp [WFC] at hwf
    | cons k ks2 =>
      rw [WFC] at hwf
      obtain ⟨hwc, hne, hlbk, hubk, hrest⟩ := hwf
      by_cases hlt : keyCmp key k = Ordering.lt
      · -- the key descends into c
        have hio := hch c (Or.inl rfl) lo (some k) hwc hlb (ubO_some hlt)
        have hkeysgt : ∀ k2 ∈ keysOf (entriesL (c2 :: cs2)), keyLt key k2 := by
          intro k2 hk2
          obtain ⟨e, he, he2⟩ := List.mem_map.mp hk2
          have hb := wfc_bounds hrest e he
          rw [← he2]
          exact keyLt_of_lt_of_le hlt (lbO_some_elim hb.1)
        rcases hres : insertNode ord key value c with c3 | ⟨l, sk, r⟩
        · obtain ⟨h1, h2⟩ := hio.1 c3 hres
          have heval : insertChildren ord key value (k :: ks2) c (c2 :: cs2)
              = (c3 :: c2 :: cs2, none) := by
            simp [insertChildren, hlt, hres]
          constructor
          · intro cs3 heq
            rw [heval] at heq
            injection heq with heq1 heq2
            subst heq1
            refine ⟨?_, ?_⟩
            · rw [WFC]
              exact ⟨h1, h2 ▸ insertInLeaf_ne key value (entriesN c), hlbk, hubk, hrest⟩
            · rw [entriesL_cons c3 (c2 :: cs2), entriesL_cons c (c2 :: cs2), h2,
                insertInLeaf_append_left hkeysgt]
          · intro cs3 sk r heq
            rw [heval] at heq
            injection heq with heq1 heq2
            cases heq2
        · obtain ⟨h1, h2, h3, h4, h5, h6, h7⟩ := hio.2 l sk r hres
          have heval : insertChildren ord key value (k :: ks2) c (c2 :: cs2)
              = (l :: c2 :: cs2, some (sk, r)) := by
            simp [insertChildren, hlt, hres]
          constructor
          · intro cs3 heq
            rw [heval] at heq
            injection heq with heq1 heq2
            cases heq2
          · intro cs3 sk2 r2 heq
            rw [heval] at heq
            injection heq with heq1 heq2
            injection heq2 with heq2
            injection heq2 with heq3 heq4
            subst heq1; subst heq3; subst heq4
            have hskk : keyLt sk k := ubO_some_elim h6
            have hsklt : keyCmp k sk = Ordering.gt := keyCmp_gt_iff.mpr hskk
            have hq : insertKeyChild sk r (k :: ks2) (l :: c2 :: cs2)
                = (sk :: k :: ks2, l :: r :: c2 :: cs2) := by
              simp [insertKeyChild, hsklt]
            rw [hq]
            refine ⟨?_, ?_, by simp, h5⟩
            · rw [WFC]
              refine ⟨h1, h3, lbO_of_lbS h5, ubO_of_lt hubk hskk, ?_⟩
              rw [WFC]
              exact ⟨h2, h4, lbO_some (keyLe_of_lt hskk), hubk, hrest⟩
            · rw [entriesL_cons l (r :: c2 :: cs2), entriesL_cons r (c2 :: cs2),
                ← List.append_assoc, h7, entriesL_cons c (c2 :: cs2),
                insertInLeaf_append_left hkeysgt]
      · -- the key descends to the right of c
        have hkle : keyLe k key := not_keyLt_iff_le.mp hlt
        have hlb2 : lbO (some k) key := lbO_some hkle
        have hckeys : ∀ k1 ∈ keysOf (entriesN c), keyLt k1 key := by
          intro k1 hk1
          obtain ⟨e, he, he2⟩ := List.mem_map.mp hk1
          have hb := wfb_bounds hwc e he
          rw [← he2]
          exact keyLt_of_lt_of_le (ubO_some_elim hb.2) hkle
        have hihyp := ih c2 ks2 (some k) hi ord key value hord
          (fun c3 hc3 => hch c3 (Or.inr (by
            rcases hc3 with h | h
            · subst h; exact List.mem_cons_self _ _
            · exact List.mem_cons_of_mem _ h))) hrest hlb2 hub
        rcases hp2 : insertChildren ord key value ks2 c2 cs2 with ⟨cs3, po⟩
        rcases po with _ | ⟨sk, r⟩
        · obtain ⟨hw3, he3⟩ := hihyp.1 cs3 hp2
          have heval : insertChildren ord key value (k :: ks2) c (c2 :: cs2)
              = (c :: cs3, none) := by
            simp [insertChildren, hlt, hp2]
          constructor
          · intro cs4 heq
            rw [heval] at heq
            injection heq with heq1 heq2
            subst heq1
            refine ⟨?_, ?_⟩
            · rw [WFC]
              exact ⟨hwc, hne, hlbk, hubk, hw3⟩
            · rw [entriesL_cons c cs3, entriesL_cons c (c2 :: cs2), he3,
                insertInLeaf_append_right hckeys]
          · intro cs4 sk r heq
            rw [heval] at heq
            injection heq with heq1 heq2
            cases heq2
        · obtain ⟨hw3, he3, hl3, hs3⟩ := hihyp.2 cs3 sk r hp2
          have hklt : keyCmp k sk = Ordering.lt := lbS_some_elim hs3
          have heval : insertChildren ord key value (k :: ks2) c (c2 :: cs2)
              = (c :: cs3, some (sk, r)) := by
            simp [insertChildren, hlt, hp2]
          constructor
          · intro cs4 heq
            rw [heval] at heq
            injection heq with heq1 heq2
            cases heq2
          · intro cs4 sk2 r2 heq
            rw [heval] at heq
            injection heq with heq1 heq2
            injection heq2 with heq2
            injection heq2 with heq3 heq4
            subst heq1; subst heq3; subst heq4
            have hq : insertKeyChild sk r (k :: ks2) (c :: cs3)
                = (k :: (insertKeyChild sk r ks2 cs3).1,
                   c :: (insertKeyChild sk r ks2 cs3).2) := by
              simp [insertKeyChild, hklt]
            rw [hq]
            refine ⟨?_, ?_, by simp [hl3], lbS_of_le_of_lt hlbk (lbS_some_elim hs3)⟩
            · rw [WFC]
              exact ⟨hwc, hne, hlbk, hubk, hw3⟩
            · rw [entriesL_cons c ((insertKeyChild sk r ks2 cs3).2),
                entriesL_cons c (c2 :: cs2), he3,
                insertInLeaf_append_right hckeys]

theorem insertNode_ok_fuel :
    ∀ (N : Nat) (n : BNode), bsize n ≤ N →
    ∀ (ord : Nat) (key : Key) (value : BVal) (lo hi : Option Key),
    1 ≤ ord → WFB lo hi n → lbO lo key → ubO hi key →
    insOK ord key value lo hi n := by
  intro N
  induction N with
  | zero => intro n h; have := bsize_pos n; omega
  | succ N ih =>
    intro n hn ord key value lo hi hord hwf hlb hub
    cases n with
    | leaf es =>
      rw [WFB] at hwf
      obtain ⟨hs, hb, hv⟩ := hwf
      have hs2 : List.Chain' keyLt (keysOf (insertInLeaf key value es)) := by
        rw [keysOf_insertInLeaf]; exact insertKeyList_sorted hs
      have hb2 : ∀ k2 ∈ keysOf (insertInLeaf key value es), lbO lo k2 ∧ ubO hi k2 := by
        intro k2 hk2
        rw [keysOf_insertInLeaf] at hk2
        rcases insertKeyList_mem hk2 with h | h
        · subst h; exact ⟨hlb, hub⟩
        · exact hb k2 h
      have hv2 : ∀ e ∈ insertInLeaf key value es, e.2 ≠ [] := insertInLeaf_vals_ne hv
      by_cases hov : (insertInLeaf key value es).length > 2 * ord - 1
      · have hmid1 : 1 ≤ (insertInLeaf key value es).length / 2 := by omega
        have hmid2 : (insertInLeaf key value es).length / 2
            < (insertInLeaf key value es).length := by omega
        obtain ⟨w1, w2, w3, w4, w5, w6, w7⟩ := leaf_split_ok hs2 hb2 hv2 hmid1 hmid2
        have heval : insertNode ord key value (.leaf es)
            = .split
              (.leaf ((insertInLeaf key value es).take
                ((insertInLeaf key value es).length / 2)))
              (((insertInLeaf key value es).drop
                ((insertInLeaf key value es).length / 2)).headD ([], [])).1
              (.leaf ((insertInLeaf key value es).drop
                ((insertInLeaf key value es).length / 2))) := by
          simp only [insertNode]
          rw [if_pos hov]
        constructor
        · intro n2 hn2; rw [heval] at hn2; cases hn2
        · intro l sk r hsp
          rw [heval] at hsp
          injection hsp with hl hsk hr
          subst hl; subst hsk; subst hr
          refine ⟨w1, w2, w3, w4, lbS_of_wfb w1 w3, w6, ?_⟩
          simpa only [entriesN] using w7
      · have heval : insertNode ord key value (.leaf es)
            = .one (.leaf (insertInLeaf key value es)) := by
          simp only [insertNode]
          rw [if_neg hov]
        constructor
        · intro n2 hn2; rw [heval] at hn2; injection hn2 with hn2; subst hn2
          refine ⟨?_, by rw [entriesN, entriesN]⟩
          rw [WFB]; exact ⟨hs2, hb2, hv2⟩
        · intro l sk r hsp; rw [heval] at hsp; cases hsp
    | node ks cs =>
      cases cs with
      | nil =>
        rw [WFB] at hwf
        have := wfc_len hwf
        simp at this
      | cons c cs =>
        rw [WFB] at hwf
        have hco := insertChildren_ok_aux cs c ks lo hi ord key value hord
          (fun c2 hc2 lo2 hi2 hwf2 hlb2 hub2 => by
            refine ih c2 ?_ ord key value lo2 hi2 hord hwf2 hlb2 hub2
            have hm : c2 ∈ c :: cs := by
              rcases hc2 with h | h
              · subst h; exact List.mem_cons_self _ _
              · exact List.mem_cons_of_mem _ h
            have := bsize_mem_le hm
            simp only [bsize] at hn
            omega)
          hwf hlb hub
        rcases hres : insertChildren ord key value ks c cs with ⟨cs2, po⟩
        rcases po with _ | ⟨sk, r⟩
        · obtain ⟨h1, h2⟩ := hco.1 cs2 hres
          have heval : insertNode ord key value (.node ks (c :: cs))
              = .one (.node ks cs2) := by
            simp only [insertNode, hres]
          constructor
          · intro n2 hn2; rw [heval] at hn2; injection hn2 with hn2; subst hn2
            refine ⟨by rw [WFB]; exact h1, ?_⟩
            rw [entriesN, entriesN]
            exact h2
          · intro l sk r hsp; rw [heval] at hsp; cases hsp
        · obtain ⟨hq1, hq2, hq3, hq4⟩ := hco.2 cs2 sk r hres
          by_cases hov : (insertKeyChild sk r ks cs2).1.length > 2 * ord - 1
          · have hmid : (insertKeyChild sk r ks cs2).1.length / 2
                < (insertKeyChild sk r ks cs2).1.length := by omega
            obtain ⟨w1, w2, w3, w4, w5, w6⟩ :=
              wfc_split_ok ((insertKeyChild sk r ks cs2).1.length / 2)
                (insertKeyChild sk r ks cs2).1 (insertKeyChild sk r ks cs2).2
                lo hi hq1 hmid
            have heval : insertNode ord key value (.node ks (c :: cs))
                = .split
                  (.node ((insertKeyChild sk r ks cs2).1.take
                      ((insertKeyChild sk r ks cs2).1.length / 2))
                    ((insertKeyChild sk r ks cs2).2.take
                      ((insertKeyChild sk r ks cs2).1.length / 2 + 1)))
                  ((insertKeyChild sk r ks cs2).1.getD
                    ((insertKeyChild sk r ks cs2).1.length / 2) [])
                  (.node ((insertKeyChild sk r ks cs2).1.drop
                      ((insertKeyChild sk r ks cs2).1.length / 2 + 1))
                    ((insertKeyChild sk r ks cs2).2.drop
                      ((insertKeyChild sk r ks cs2).1.length / 2 + 1))) := by
              simp only [insertNode, hres]
              rw [if_pos hov]
            constructor
            · intro n2 hn2; rw [heval] at hn2; cases hn2
            · intro l2 sk2 r2 hsp
              rw [heval] at hsp
              injection hsp with hl hsk hr
              subst hl; subst hsk; subst hr
              refine ⟨by rw [WFB]; exact w1, by rw [WFB]; exact w2,
                by rw [entriesN]; exact wfc_entries_ne w1,
                by rw [entriesN]; exact wfc_entries_ne w2,
                w5, w4, ?_⟩
              rw [entriesN, entriesN, entriesN, w6, hq2]
          · have heval : insertNode ord key value (.node ks (c :: cs))
                = .one (.node (insertKeyChild sk r ks cs2).1
                    (insertKeyChild sk r ks cs2).2) := by
              simp only [insertNode, hres]
              rw [if_neg hov]
            constructor
            · intro n2 hn2; rw [heval] at hn2; injection hn2 with hn2; subst hn2
              refine ⟨by rw [WFB]; exact hq1, ?_⟩
              rw [entriesN, entriesN]
              exact hq2
            · intro l sk2 r2 hsp; rw [heval] at hsp; cases hsp

/-- `Insert` preserves well-formedness and acts on the entry list exactly as
ordered-association-list insertion. -/
theorem Insert_wf_entries {t : BTree} (hord : 1 ≤ t.order) (hwf : WFT t)
    (key : Key) (value : BVal) :
    WFT (t.Insert key value) ∧
    entriesN (t.Insert key value).root = insertInLeaf key value (entriesN t.root) ∧
    (t.Insert key value).order = t.order := by
  have hio := insertNode_ok_fuel (bsize t.root) t.root (Nat.le_refl _) t.order key value
    none none hord hwf (lbO_none key) (ubO_none key)
  unfold BTree.Insert
  rcases hres : insertNode t.order key value t.root with n2 | ⟨l, sk, r⟩
  · obtain ⟨h1, h2⟩ := hio.1 n2 hres
    exact ⟨h1, h2, rfl⟩
  · obtain ⟨h1, h2, h3, h4, h5, h6, h7⟩ := hio.2 l sk r hres
    refine ⟨?_, ?_, rfl⟩
    · show WFB none none (.node [sk] [l, r])
      rw [WFB, WFC]
      refine ⟨h1, h3, lbO_of_lbS h5, h6, ?_⟩
      rw [WFC]
      exact ⟨h2, h4⟩
    · show entriesN (.node [sk] [l, r]) = _
      rw [entriesN, entriesL_cons, entriesL_cons, entriesL_nil, List.append_nil]
      exact h7

/-- a tree built by a sequence of Insert calls starting from `NewBPlusTree`. -/
def buildTree (ord : Nat) (ins : List (Key × BVal)) : BTree :=
  ins.foldl (fun t kv => t.Insert kv.1 kv.2) (NewBPlusTree ord)

/-- the ordered-association-list model of the same insertions. -/
def modelOf (ins : List (Key × BVal)) : List (Key × List BVal) :=
  ins.foldl (fun m kv => insertInLeaf kv.1 kv.2 m) []

theorem buildTree_wf_aux :
    ∀ (ins : List (Key × BVal)) (t : BTree) (m : List (Key × List BVal)),
    1 ≤ t.order → WFT t → entriesN t.root = m →
    WFT (ins.foldl (fun t kv => t.Insert kv.1 kv.2) t) ∧
    entriesN (ins.foldl (fun t kv => t.Insert kv.1 kv.2) t).root
      = ins.foldl (fun m kv => insertInLeaf kv.1 kv.2 m) m ∧
    (ins.foldl (fun t kv => t.Insert kv.1 kv.2) t).order = t.order := by
  intro ins
  induction ins with
  | nil => intro t m hord hwf hm; exact ⟨hwf, hm, rfl⟩
  | cons kv ins ih =>
    intro t m hord hwf hm
    obtain ⟨h1, h2, h3⟩ := Insert_wf_entries hord hwf kv.1 kv.2
    have hord2 : 1 ≤ (t.Insert kv.1 kv.2).order := by rw [h3]; exact hord
    obtain ⟨g1, g2, g3⟩ := ih (t.Insert kv.1 kv.2)
      (insertInLeaf kv.1 kv.2 m) hord2 h1 (by rw [h2, hm])
    refine ⟨g1, g2, by rw [List.foldl_cons, g3, h3]⟩

/-- `WFT` and the entry-list model for trees built from an empty tree. -/
theorem buildTree_wf (ord : Nat) (hord : 1 ≤ ord) (ins : List (Key × BVal)) :
    WFT (buildTree ord ins) ∧
    entriesN (buildTree ord ins).root = modelOf ins ∧
    (buildTree ord ins).order = ord := by
  have hwf0 : WFT (NewBPlusTree ord) := by
    show WFB none none (.leaf [])
    rw [WFB]
    refine ⟨by simp [keysOf], by simp [keysOf], by simp⟩
  exact buildTree_wf_aux ins (NewBPlusTree ord) [] hord hwf0 rfl

/-
=====================  Search correctness  =====================
-/

theorem lookupE_append_no_right {key : Key} {A B : List (Key × List BVal)}
    (h : ∀ e ∈ B, e.1 ≠ key) : lookupE (A ++ B) key = lookupE A key := by
  induction A with
  | nil => simp only [List.nil_append]; rw [lookupE_eq_nil h]; rfl
  | cons e A ih =>
    rw [List.cons_append, lookupE_cons, lookupE_cons, ih]

theorem lookupE_append_no_left {key : Key} {A B : List (Key × List BVal)}
    (h : ∀ e ∈ A, e.1 ≠ key) : lookupE (A ++ B) key = lookupE B key := by
  induction A with
  | nil => rfl
  | cons e A ih =>
    rw [List.cons_append, lookupE_cons, if_neg (h e (List.mem_cons_self _ _))]
    exact ih (fun e2 he2 => h e2 (List.mem_cons_of_mem _ he2))

theorem findLeafL_lookup_aux :
    ∀ (cs : List BNode) (c : BNode) (ks : List Key) (lo hi : Option Key) (key : Key),
    (∀ c2, (c2 = c ∨ c2 ∈ cs) → ∀ lo2 hi2, WFB lo2 hi2 c2 → lbO lo2 key → ubO hi2 key →
        lookupE (findLeafN c2 key) key = lookupE (entriesN c2) key) →
    WFC lo hi ks (c :: cs) → lbO lo key → ubO hi key →
    lookupE (findLeafL ks c cs key) key = lookupE (entriesL (c :: cs)) key := by
  intro cs
  induction cs with
  | nil =>
    intro c ks lo hi key hch hwf hlb hub
    cases ks with
    | cons k ks2 =>
      rw [WFC] at hwf
      have := wfc_len hwf.2.2.2.2
      simp at this
    | nil =>
      rw [WFC] at hwf
      rw [findLeafL, entriesL_cons, entriesL_nil, List.append_nil]
      exact hch c (Or.inl rfl) lo hi hwf.1 hlb hub
  | cons c2 cs2 ih =>
    intro c ks lo hi key hch hwf hlb hub
    cases ks with
    | nil => simp [WFC] at hwf
    | cons k ks2 =>
      rw [WFC] at hwf
      obtain ⟨hwc, hne, hlbk, hubk, hrest⟩ := hwf
      by_cases hlt : keyCmp key k = Ordering.lt
      · rw [findLeafL, if_pos hlt, entriesL_cons]
        rw [lookupE_append_no_right]
        · exact hch c (Or.inl rfl) lo (some k) hwc hlb (ubO_some hlt)
        · intro e he hekey
          have hb := wfc_bounds hrest e he
          have : keyLt key e.1 := keyLt_of_lt_of_le hlt (lbO_some_elim hb.1)
          exact keyLt_ne this hekey.symm
      · have hkle : keyLe k key := not_keyLt_iff_le.mp hlt
        rw [findLeafL, if_neg hlt, entriesL_cons]
        rw [lookupE_append_no_left]
        · exact ih c2 ks2 (some k) hi key
            (fun c3 hc3 => hch c3 (Or.inr (by
              rcases hc3 with h | h
              · subst h; exact List.mem_cons_self _ _
              · exact List.mem_cons_of_mem _ h)))
            hrest (lbO_some hkle) hub
        · intro e he hekey
          have hb := wfb_bounds hwc e he
          have : keyLt e.1 key := keyLt_of_lt_of_le (ubO_some_elim hb.2) hkle
          exact keyLt_ne this hekey

theorem findLeaf_lookup_fuel :
    ∀ (N : Nat) (n : BNode), bsize n ≤ N → ∀ lo hi key, WFB lo hi n →
    lbO lo key → ubO hi key →
    lookupE (findLeafN n key) key = lookupE (entriesN n) key := by
  intro N
  induction N with
  | zero => intro n h; have := bsize_pos n; omega
  | succ N ih =>
    intro n hn lo hi key hwf hlb hub
    cases n with
    | leaf es => rw [findLeafN, entriesN]
    | node ks cs =>
      cases cs with
      | nil =>
        rw [WFB] at hwf
        have := wfc_len hwf
        simp at this
      | cons c cs =>
        rw [WFB] at hwf
        rw [findLeafN, entriesN]
        refine findLeafL_lookup_aux cs c ks lo hi key ?_ hwf hlb hub
        intro c2 hc2 lo2 hi2 hwf2 hlb2 hub2
        refine ih c2 ?_ lo2 hi2 key hwf2 hlb2 hub2
        have hm : c2 ∈ c :: cs := by
          rcases hc2 with h | h
          · subst h; exact List.mem_cons_self _ _
          · exact List.mem_cons_of_mem _ h
        have := bsize_mem_le hm
        simp only [bsize] at hn
        omega

/-- `Search` on a well-formed tree is association lookup on the entry list. -/
theorem Search_eq_lookup {t : BTree} (hwf : WFT t) (key : Key) :
    t.Search key = lookupE (entriesN t.root) key := by
  have h1 : t.Search key = lookupE (findLeafN t.root key) key := rfl
  rw [h1]
  exact findLeaf_lookup_fuel (bsize t.root) t.root (Nat.le_refl _) none none key hwf
    (lbO_none key) (ubO_none key)

/-- C9: inserting (k, v) appends v to the value list at k when k is present
(Search afterwards returns the previous list with v appended), yields the
singleton [v] when k is absent, and keeps the keys in sorted order. -/
theorem C9_insert_appends (t : BTree) (hord : 1 ≤ t.order) (hwf : WFT t)
    (k : Key) (v : BVal) :
    ((t.Insert k v).Search k = t.Search k ++ [v]) ∧
    (k ∉ keysOf (entriesN t.root) → (t.Insert k v).Search k = [v]) ∧
    List.Chain' keyLt (keysOf (entriesN (t.Insert k v).root)) := by
  obtain ⟨hwf2, hent2, _⟩ := Insert_wf_entries hord hwf k v
  have hs := wfb_sorted hwf
  have happ : (t.Insert k v).Search k = t.Search k ++ [v] := by
    rw [Search_eq_lookup hwf2, Search_eq_lookup hwf, hent2]
    exact lookupE_insertInLeaf_self hs
  refine ⟨happ, ?_, wfb_sorted hwf2⟩
  intro habs
  rw [happ, Search_eq_lookup hwf]
  rw [lookupE_eq_nil]
  · rfl
  · intro e he hek
    exact habs (hek ▸ List.mem_map_of_mem Prod.fst he)

/-- witness for C9 at a concrete tree. -/
theorem C9_insert_appends_witness :
    ((buildTree 2 [([5], [50])]).Insert [5] [55]).Search [5] = [[50], [55]] ∧
    ((buildTree 2 [([5], [50])]).Insert [7] [70]).Search [7] = [[70]] := by
  obtain ⟨hwf, hent, hord⟩ := buildTree_wf 2 (by decide) [([5], [50])]
  have h1 := C9_insert_appends (buildTree 2 [([5], [50])]) (by rw [hord]; decide) hwf [5] [55]
  have h2 := C9_insert_appends (buildTree 2 [([5], [50])]) (by rw [hord]; decide) hwf [7] [70]
  constructor
  · rw [h1.1, Search_eq_lookup hwf, hent]
    decide
  · refine h2.2.1 ?_
    rw [hent]
    decide

/-
=====================  RangeSearch correctness  =====================
-/

theorem leavesL_nil : leavesL [] = [] := by simp [leavesL]

theorem leavesL_cons (c : BNode) (cs : List BNode) :
    leavesL (c :: cs) = leavesN c ++ leavesL cs := by simp [leavesL]

theorem numLeaves_eq_length_fuel :
    ∀ (N : Nat) (n : BNode), bsize n ≤ N → numLeavesN n = (leavesN n).length := by
  intro N
  induction N with
  | zero => intro n h; have := bsize_pos n; omega
  | succ N ih =>
    intro n hn
    cases n with
    | leaf es => rw [numLeavesN, leavesN]; rfl
    | node ks cs =>
      rw [numLeavesN, leavesN]
      have hcs : bsizeL cs ≤ N := by simp only [bsize] at hn; omega
      clear hn
      induction cs with
      | nil => rw [numLeavesL, leavesL]; rfl
      | cons c cs ihc =>
        rw [numLeavesL, leavesL_cons, List.length_append]
        have h1 : bsize c ≤ N := by simp only [bsizeL] at hcs; have := bsize_pos c; omega
        have h2 : bsizeL cs ≤ N := by simp only [bsizeL] at hcs; have := bsize_pos c; omega
        rw [ih c h1, ihc h2]

theorem numLeaves_eq_length (n : BNode) : numLeavesN n = (leavesN n).length :=
  numLeaves_eq_length_fuel (bsize n) n (Nat.le_refl _)

theorem leaves_flatten_fuel :
    ∀ (N : Nat) (n : BNode), bsize n ≤ N → (leavesN n).flatten = entriesN n := by
  intro N
  induction N with
  | zero => intro n h; have := bsize_pos n; omega
  | succ N ih =>
    intro n hn
    cases n with
    | leaf es => rw [leavesN, entriesN]; simp
    | node ks cs =>
      rw [leavesN, entriesN]
      have hcs : bsizeL cs ≤ N := by simp only [bsize] at hn; omega
      clear hn
      induction cs with
      | nil => rw [leavesL, entriesL]; rfl
      | cons c cs ihc =>
        rw [leavesL_cons, entriesL_cons, List.flatten_append]
        have h1 : bsize c ≤ N := by simp only [bsizeL] at hcs; have := bsize_pos c; omega
        have h2 : bsizeL cs ≤ N := by simp only [bsizeL] at hcs; have := bsize_pos c; omega
        rw [ih c h1, ihc h2]

theorem leaves_flatten (n : BNode) : (leavesN n).flatten = entriesN n :=
  leaves_flatten_fuel (bsize n) n (Nat.le_refl _)

/-- the leaves skipped by `findLeaf`'s descent hold only keys below the
searched key. -/
theorem leafIdxL_aux :
    ∀ (cs : List BNode) (c : BNode) (ks : List Key) (lo hi : Option Key) (s : Key),
    (∀ c2, (c2 = c ∨ c2 ∈ cs) → ∀ lo2 hi2, WFB lo2 hi2 c2 → lbO lo2 s → ubO hi2 s →
        leafIdxN c2 s ≤ (leavesN c2).length ∧
        ∀ e ∈ ((leavesN c2).take (leafIdxN c2 s)).flatten, keyLt e.1 s) →
    WFC lo hi ks (c :: cs) → lbO lo s → ubO hi s →
    leafIdxL ks c cs s ≤ (leavesL (c :: cs)).length ∧
    ∀ e ∈ ((leavesL (c :: cs)).take (leafIdxL ks c cs s)).flatten, keyLt e.1 s := by
  intro cs
  induction cs with
  | nil =>
    intro c ks lo hi s hch hwf hlb hub
    cases ks with
    | cons k ks2 =>
      rw [WFC] at hwf
      have := wfc_len hwf.2.2.2.2
      simp at this
    | nil =>
      rw [WFC] at hwf
      obtain ⟨hwc, _⟩ := hwf
      obtain ⟨g1, g2⟩ := hch c (Or.inl rfl) lo hi hwc hlb hub
      rw [leafIdxL, leavesL_cons, leavesL_nil, List.append_nil]
      exact ⟨g1, g2⟩
  | cons c2 cs2 ih =>
    intro c ks lo hi s hch hwf hlb hub
    cases ks with
    | nil => simp [WFC] at hwf
    | cons k ks2 =>
      rw [WFC] at hwf
      obtain ⟨hwc, hne, hlbk, hubk, hrest⟩ := hwf
      by_cases hlt : keyCmp s k = Ordering.lt
      · obtain ⟨g1, g2⟩ := hch c (Or.inl rfl) lo (some k) hwc hlb (ubO_some hlt)
        rw [leafIdxL, if_pos hlt, leavesL_cons]
        constructor
        · rw [List.length_append]; omega
        · rw [List.take_append_of_le_length g1]
          exact g2
      · have hkle : keyLe k s := not_keyLt_iff_le.mp hlt
        obtain ⟨g1, g2⟩ := ih c2 ks2 (some k) hi s
          (fun c3 hc3 => hch c3 (Or.inr (by
            rcases hc3 with h | h
            · subst h; exact List.mem_cons_self _ _
            · exact List.mem_cons_of_mem _ h)))
          hrest (lbO_some hkle) hub
        rw [leafIdxL, if_neg hlt, leavesL_cons]
        rw [numLeaves_eq_length]
        constructor
        · rw [List.length_append]; omega
        · rw [List.take_append, List.flatten_append, leaves_flatten]
          intro e he
          rcases List.mem_append.mp he with h | h
          · have hb := wfb_bounds hwc e h
            exact keyLt_of_lt_of_le (ubO_some_elim hb.2) hkle
          · exact g2 e h

theorem leafIdx_prefix_fuel :
    ∀ (N : Nat) (n : BNode), bsize n ≤ N → ∀ lo hi s, WFB lo hi n →
    lbO lo s → ubO hi s →
    leafIdxN n s ≤ (leavesN n).length ∧
    ∀ e ∈ ((leavesN n).take (leafIdxN n s)).flatten, keyLt e.1 s := by
  intro N
  induction N with
  | zero => intro n h; have := bsize_pos n; omega
  | succ N ih =>
    intro n hn lo hi s hwf hlb hub
    cases n with
    | leaf es =>
      rw [leafIdxN]
      constructor
      · simp [leavesN]
      · intro e he; simp at he
    | node ks cs =>
      cases cs with
      | nil =>
        rw [WFB] at hwf
        have := wfc_len hwf
        simp at this
      | cons c cs =>
        rw [WFB] at hwf
        rw [leafIdxN, leavesN]
        refine leafIdxL_aux cs c ks lo hi s ?_ hwf hlb hub
        intro c2 hc2 lo2 hi2 hwf2 hlb2 hub2
        refine ih c2 ?_ lo2 hi2 s hwf2 hlb2 hub2
        have hm : c2 ∈ c :: cs := by
          rcases hc2 with h | h
          · subst h; exact List.mem_cons_self _ _
          · exact List.mem_cons_of_mem _ h
        have := bsize_mem_le hm
        simp only [bsize] at hn
        omega

theorem leafIdx_prefix {n : BNode} {lo hi : Option Key} (s : Key) (hwf : WFB lo hi n)
    (hlb : lbO lo s) (hub : ubO hi s) :
    leafIdxN n s ≤ (leavesN n).length ∧
    ∀ e ∈ ((leavesN n).take (leafIdxN n s)).flatten, keyLt e.1 s :=
  leafIdx_prefix_fuel (bsize n) n (Nat.le_refl _) lo hi s hwf hlb hub

/-- the range predicate of the spec:
`(k > lo ∨ (k = lo ∧ incLo)) ∧ (k < hi ∨ (k = hi ∧ incHi))`. -/
def rangePred (start stop : Option Key) (includeStart includeEnd : Bool) (k : Key) : Bool :=
  (match start with
   | none => true
   | some l =>
      match keyCmp k l with
      | .gt => true
      | .eq => includeStart
      | .lt => false) &&
  (match stop with
   | none => true
   | some h =>
      match keyCmp k h with
      | .lt => true
      | .eq => includeEnd
      | .gt => false)

theorem rangePred_eq (start stop : Option Key) (incS incE : Bool) (k : Key) :
    rangePred start stop incS incE k
      = (!belowStart start incS k && !pastEnd stop incE k) := by
  unfold rangePred belowStart pastEnd
  cases start with
  | none =>
    cases stop with
    | none => simp
    | some h => rcases hc : keyCmp k h with _ | _ | _ <;> simp [hc]
  | some l =>
    cases stop with
    | none => rcases hc : keyCmp k l with _ | _ | _ <;> simp [hc]
    | some h =>
      rcases hc : keyCmp k l with _ | _ | _ <;>
        rcases hc2 : keyCmp k h with _ | _ | _ <;> simp [hc, hc2]

theorem pastEnd_mono {stop : Option Key} {incE : Bool} {k0 k : Key}
    (h : pastEnd stop incE k0 = true) (hlt : keyLt k0 k) :
    pastEnd stop incE k = true := by
  cases stop with
  | none => simp [pastEnd] at h
  | some e =>
    rcases hc : keyCmp k0 e with _ | _ | _ <;> simp only [pastEnd, hc] at h ⊢
    · simp at h
    · have he : k0 = e := keyCmp_eq_iff.mp hc
      have hek : keyLt e k := he ▸ hlt
      rw [keyCmp_gt_iff.mpr hek]
    · have hek : keyLt e k := keyLt_trans (keyCmp_gt_iff.mp hc) hlt
      rw [keyCmp_gt_iff.mpr hek]

theorem pastEnd_of_ge {e : Key} {incE : Bool} {k0 k : Key}
    (hge : keyLe e k0) (hlt : keyLt k0 k) : pastEnd (some e) incE k = true := by
  have hek : keyLt e k := keyLt_of_le_of_lt hge hlt
  simp only [pastEnd]
  rw [keyCmp_gt_iff.mpr hek]

theorem filter_pastEnd_nil {start stop : Option Key} {incS incE : Bool}
    {L : List (Key × List BVal)}
    (h : ∀ e ∈ L, pastEnd stop incE e.1 = true) :
    L.filter (fun e => rangePred start stop incS incE e.1) = [] := by
  rw [List.filter_eq_nil_iff]
  intro e he
  rw [rangePred_eq, h e he]
  simp

theorem scanLeaf_res (start stop : Option Key) (incS incE : Bool) :
    ∀ (es : List (Key × List BVal)), List.Chain' keyLt (keysOf es) →
    (scanLeaf start stop incS incE es).1
      = ((es.filter (fun e => rangePred start stop incS incE e.1)).map Prod.snd).flatten := by
  intro es
  induction es with
  | nil => intro hs; simp [scanLeaf]
  | cons e es ih =>
    intro hs
    have hs2 : List.Chain' keyLt (keysOf es) := by
      simp only [keysOf, List.map_cons] at hs
      exact hs.tail
    rcases hbv : belowStart start incS e.1 with _ | _
    · rcases hpv : pastEnd stop incE e.1 with _ | _
      · -- collect
        have hrp : rangePred start stop incS incE e.1 = true := by
          rw [rangePred_eq, hbv, hpv]; rfl
        have hpred : (fun e2 : Key × List BVal =>
            rangePred start stop incS incE e2.1) e = true := hrp
        simp only [scanLeaf, hbv, hpv, Bool.false_eq_true, if_false]
        rw [@List.filter_cons_of_pos _ (fun e2 : Key × List BVal =>
            rangePred start stop incS incE e2.1) e es hpred,
          List.map_cons, List.flatten_cons, ih hs2]
      · -- early return
        have hrest : ∀ e2 ∈ es, pastEnd stop incE e2.1 = true := by
          intro e2 he2
          have hkk : keyLt e.1 e2.1 := by
            have hs3 : List.Chain' keyLt (e.1 :: keysOf es) := by simpa [keysOf] using hs
            exact sorted_cons_keys hs3 e2.1 (List.mem_map_of_mem Prod.fst he2)
          exact pastEnd_mono hpv hkk
        have hrp : rangePred start stop incS incE e.1 = false := by
          rw [rangePred_eq, hpv]; simp
        have hpred : ¬ (fun e2 : Key × List BVal =>
            rangePred start stop incS incE e2.1) e = true := by
          show ¬ rangePred start stop incS incE e.1 = true
          rw [hrp]; simp
        simp only [scanLeaf, hbv, hpv, Bool.false_eq_true, if_false, if_true]
        rw [@List.filter_cons_of_neg _ (fun e2 : Key × List BVal =>
            rangePred start stop incS incE e2.1) e es hpred,
          filter_pastEnd_nil hrest]
        rfl
    · -- skip
      have hrp : rangePred start stop incS incE e.1 = false := by
        rw [rangePred_eq, hbv]; simp
      have hpred : ¬ (fun e2 : Key × List BVal =>
          rangePred start stop incS incE e2.1) e = true := by
        show ¬ rangePred start stop incS incE e.1 = true
        rw [hrp]; simp
      simp only [scanLeaf, hbv, if_true]
      rw [@List.filter_cons_of_neg _ (fun e2 : Key × List BVal =>
          rangePred start stop incS incE e2.1) e es hpred, ih hs2]

theorem scanLeaf_stop (start stop : Option Key) (incS incE : Bool) :
    ∀ (es : List (Key × List BVal)),
    (scanLeaf start stop incS incE es).2 = true →
    ∃ k0 ∈ keysOf es, pastEnd stop incE k0 = true := by
  intro es
  induction es with
  | nil => intro h; simp [scanLeaf] at h
  | cons e es ih =>
    intro h
    rcases hbv : belowStart start incS e.1 with _ | _ <;>
      rw [scanLeaf] at h <;> rw [hbv] at h
    · rcases hpv : pastEnd stop incE e.1 with _ | _ <;> rw [hpv] at h
      · simp only [Bool.false_eq_true, if_false] at h
        obtain ⟨k0, hk0, hk02⟩ := ih h
        exact ⟨k0, by simp [keysOf] at hk0 ⊢; exact Or.inr hk0, hk02⟩
      · exact ⟨e.1, by simp [keysOf], hpv⟩
    · simp only [if_true] at h
      obtain ⟨k0, hk0, hk02⟩ := ih h
      exact ⟨k0, by simp [keysOf] at hk0 ⊢; exact Or.inr hk0, hk02⟩

theorem lastKeyStops_ge {stop : Option Key} {es : List (Key × List BVal)}
    (h : lastKeyStops stop es = true) :
    ∃ e0 entry, stop = some e0 ∧ es.getLast? = some entry ∧ keyLe e0 entry.1 := by
  unfold lastKeyStops at h
  rcases hstop : stop with _ | e0 <;> rw [hstop] at h
  · simp at h
  · rcases hlast : es.getLast? with _ | entry <;> rw [hlast] at h
    · simp at h
    · refine ⟨e0, entry, rfl, rfl, ?_⟩
      have h2 : (match keyCmp entry.1 e0 with
          | Ordering.lt => false
          | _ => true) = true := h
      rcases hc : keyCmp entry.1 e0 with _ | _ | _ <;> rw [hc] at h2
      · simp at h2
      · exact keyLe_iff_lt_or_eq.mpr (Or.inr (keyCmp_eq_iff.mp hc).symm)
      · exact keyLe_of_lt (keyCmp_gt_iff.mp hc)

theorem walkLeaves_spec (start stop : Option Key) (incS incE : Bool) :
    ∀ (lvs : List (List (Key × List BVal))),
    List.Chain' keyLt (keysOf lvs.flatten) →
    walkLeaves start stop incS incE lvs
      = ((lvs.flatten.filter
          (fun e => rangePred start stop incS incE e.1)).map Prod.snd).flatten := by
  intro lvs
  induction lvs with
  | nil => intro hs; simp [walkLeaves]
  | cons es rest ih =>
    intro hs
    have hsplit : keysOf ((es :: rest).flatten) = keysOf es ++ keysOf rest.flatten := by
      rw [List.flatten_cons, keysOf_append]
    have hp : List.Pairwise keyLt (keysOf (es :: rest).flatten) :=
      List.chain'_iff_pairwise.mp hs
    rw [hsplit] at hp
    obtain ⟨p1, p2, hglue⟩ := List.pairwise_append.mp hp
    have hs_es : List.Chain' keyLt (keysOf es) := List.chain'_iff_pairwise.mpr p1
    have hs_rest : List.Chain' keyLt (keysOf rest.flatten) :=
      List.chain'_iff_pairwise.mpr p2
    have hres := scanLeaf_res start stop incS incE es hs_es
    have hfl : (es :: rest).flatten.filter
          (fun e => rangePred start stop incS incE e.1)
        = es.filter (fun e => rangePred start stop incS incE e.1)
          ++ rest.flatten.filter (fun e => rangePred start stop incS incE e.1) := by
      rw [List.flatten_cons, List.filter_append]
    simp only [walkLeaves]
    rcases hst : (scanLeaf start stop incS incE es).2 with _ | _
    · simp only [hst, Bool.false_eq_true, if_false]
      by_cases hls : lastKeyStops stop es = true
      · rw [if_pos hls]
        obtain ⟨e0, entry, hstop, hlast, hge⟩ := lastKeyStops_ge hls
        have hentrymem : entry.1 ∈ keysOf es :=
          List.mem_map_of_mem Prod.fst (mem_of_getLast? hlast)
        have hrestnil : rest.flatten.filter
            (fun e => rangePred start stop incS incE e.1) = [] := by
          rw [hstop]
          apply filter_pastEnd_nil
          intro e2 he2
          exact pastEnd_of_ge hge
            (hglue entry.1 hentrymem e2.1 (List.mem_map_of_mem Prod.fst he2))
        rw [hres, hfl, hrestnil, List.append_nil]
      · rw [if_neg hls]
        rw [hres, ih hs_rest, hfl, List.map_append, List.flatten_append]
    · simp only [hst, if_true]
      obtain ⟨k0, hk0, hk0p⟩ := scanLeaf_stop start stop incS incE es hst
      have hrestnil : rest.flatten.filter
          (fun e => rangePred start stop incS incE e.1) = [] := by
        apply filter_pastEnd_nil
        intro e2 he2
        exact pastEnd_mono hk0p
          (hglue k0 hk0 e2.1 (List.mem_map_of_mem Prod.fst he2))
      rw [hres, List.flatten_cons, List.filter_append, hrestnil, List.append_nil]

theorem rangePred_lt_start {s : Key} {stop : Option Key} {incS incE : Bool} {k : Key}
    (h : keyLt k s) : rangePred (some s) stop incS incE k = false := by
  have h2 : keyCmp k s = Ordering.lt := h
  simp only [rangePred, h2]
  simp

/-- `RangeSearch` on a well-formed tree returns exactly the values of the
entries whose keys satisfy the range predicate, in entry (sorted-key) order. -/
theorem RangeSearch_eq_filter {t : BTree} (hwf : WFT t)
    (start stop : Option Key) (incS incE : Bool) :
    t.RangeSearch start stop incS incE
      = (((entriesN t.root).filter
          (fun e => rangePred start stop incS incE e.1)).map Prod.snd).flatten := by
  unfold BTree.RangeSearch
  cases start with
  | none =>
    simp only [List.drop_zero]
    rw [walkLeaves_spec _ _ _ _ _ (by rw [leaves_flatten]; exact wfb_sorted hwf),
      leaves_flatten]
  | some s =>
    obtain ⟨hle, hpre⟩ := leafIdx_prefix s hwf (lbO_none s) (ubO_none s)
    have hTD := List.take_append_drop (leafIdxN t.root s) (leavesN t.root)
    have hent : entriesN t.root
        = ((leavesN t.root).take (leafIdxN t.root s)).flatten
          ++ ((leavesN t.root).drop (leafIdxN t.root s)).flatten := by
      rw [← List.flatten_append, hTD, leaves_flatten]
    have hsorted : List.Chain' keyLt (keysOf (entriesN t.root)) := wfb_sorted hwf
    have hsorted2 : List.Chain' keyLt
        (keysOf (((leavesN t.root).drop (leafIdxN t.root s)).flatten)) := by
      rw [hent, keysOf_append] at hsorted
      exact (List.chain'_append.mp hsorted).2.1
    rw [walkLeaves_spec _ _ _ _ _ hsorted2]
    have hprenil : ((leavesN t.root).take (leafIdxN t.root s)).flatten.filter
        (fun e => rangePred (some s) stop incS incE e.1) = [] := by
      rw [List.filter_eq_nil_iff]
      intro e he
      rw [rangePred_lt_start (hpre e he)]
      simp
    rw [hent, List.filter_append, hprenil, List.nil_append]

/-- C3: for a B+tree built by any sequence of Insert calls and any optional
bounds with inclusivity flags, RangeSearch returns the values of exactly the
inserted keys k with (k > lo ∨ (k = lo ∧ incLo)) ∧ (k < hi ∨ (k = hi ∧ incHi)),
in sorted key order (the model list is sorted by key). -/
theorem C3_range_search_correct (ord : Nat) (hord : 1 ≤ ord)
    (ins : List (Key × BVal)) (start stop : Option Key) (incS incE : Bool) :
    (buildTree ord ins).RangeSearch start stop incS incE
      = (((modelOf ins).filter
          (fun e => rangePred start stop incS incE e.1)).map Prod.snd).flatten ∧
    List.Chain' keyLt (keysOf (modelOf ins)) := by
  obtain ⟨hwf, hent, _⟩ := buildTree_wf ord hord ins
  constructor
  · rw [RangeSearch_eq_filter hwf, hent]
  · rw [← hent]; exact wfb_sorted hwf

/-- witness for C3 at a concrete tree and range. -/
theorem C3_range_search_correct_witness :
    (buildTree 2 [([3], [30]), ([1], [10]), ([5], [50]), ([4], [40])]).RangeSearch
      (some [1]) (some [4]) false true = [[30], [40]] := by
  have h := C3_range_search_correct 2 (by decide)
    [([3], [30]), ([1], [10]), ([5], [50]), ([4], [40])]
    (some [1]) (some [4]) false true
  rw [h.1]
  decide

/-
=====================  node key-count bound (C6)  =====================
-/

/-- `len(node.keys)`: entries for a leaf, separator keys for an internal node. -/
def nodeKeys : BNode → Nat
  | .leaf es => es.length
  | .node ks _ => ks.length

mutual
/-- all nodes of a subtree. -/
def allNodes : BNode → List BNode
  | .leaf es => [.leaf es]
  | .node ks cs => .node ks cs :: allNodesL cs
def allNodesL : List BNode → List BNode
  | [] => []
  | c :: cs => allNodes c ++ allNodesL cs
end

mutual
/-- every node of the subtree holds at most `2*ord - 1` keys. -/
def BoundedN (ord : Nat) : BNode → Prop
  | .leaf es => es.length ≤ 2 * ord - 1
  | .node ks cs => ks.length ≤ 2 * ord - 1 ∧ BoundedL ord cs
def BoundedL (ord : Nat) : List BNode → Prop
  | [] => True
  | c :: cs => BoundedN ord c ∧ BoundedL ord cs
end

theorem boundedL_mem :
    ∀ {cs : List BNode} {ord : Nat}, BoundedL ord cs → ∀ c ∈ cs, BoundedN ord c := by
  intro cs
  induction cs with
  | nil => intro ord h c hc; cases hc
  | cons c2 cs ih =>
    intro ord h c hc
    rw [BoundedL] at h
    rcases List.mem_cons.mp hc with h2 | h2
    · subst h2; exact h.1
    · exact ih h.2 c h2

theorem bounded_allNodes_fuel :
    ∀ (N : Nat) (n : BNode), bsize n ≤ N → ∀ ord, BoundedN ord n →
    ∀ n2 ∈ allNodes n, nodeKeys n2 ≤ 2 * ord - 1 := by
  intro N
  induction N with
  | zero => intro n h; have := bsize_pos n; omega
  | succ N ih =>
    intro n hn ord hb n2 hn2
    cases n with
    | leaf es =>
      rw [allNodes] at hn2
      rw [BoundedN] at hb
      rcases List.mem_cons.mp hn2 with h | h
      · subst h; exact hb
      · cases h
    | node ks cs =>
      rw [allNodes] at hn2
      rw [BoundedN] at hb
      rcases List.mem_cons.mp hn2 with h | h
      · subst h; exact hb.1
      · have hcs : bsizeL cs ≤ N := by simp only [bsize] at hn; omega
        clear hn hn2
        induction cs with
        | nil => rw [allNodesL] at h; cases h
        | cons c cs ihc =>
          rw [allNodesL] at h
          rw [BoundedL] at *
          rcases List.mem_append.mp h with h2 | h2
          · refine ih c ?_ ord hb.2.1 n2 h2
            simp only [bsizeL] at hcs
            have := bsize_pos c
            omega
          · refine ihc ⟨hb.1, hb.2.2⟩ h2 ?_
            simp only [bsizeL] at hcs
            have := bsize_pos c
            omega

theorem insertKeyChild_len (sk : Key) (r : BNode) :
    ∀ (ks : List Key) (cs : List BNode),
    (insertKeyChild sk r ks cs).1.length = ks.length + 1 := by
  intro ks
  induction ks with
  | nil =>
    intro cs
    cases cs <;> simp [insertKeyChild]
  | cons k ks ih =>
    intro cs
    cases cs with
    | nil => simp [insertKeyChild]
    | cons c cs =>
      simp only [insertKeyChild]
      rcases keyCmp k sk with _ | _ | _ <;> simp [ih]

theorem insertKeyChild_mem (sk : Key) (r : BNode) :
    ∀ (ks : List Key) (cs : List BNode) (c2 : BNode),
    c2 ∈ (insertKeyChild sk r ks cs).2 → c2 = r ∨ c2 ∈ cs := by
  intro ks
  induction ks with
  | nil =>
    intro cs c2 h
    cases cs with
    | nil => simp [insertKeyChild] at h; exact Or.inl h
    | cons c cs =>
      simp only [insertKeyChild] at h
      rcases List.mem_cons.mp h with h2 | h2
      · subst h2; exact Or.inr (List.mem_cons_self _ _)
      · rcases List.mem_cons.mp h2 with h3 | h3
        · exact Or.inl h3
        · exact Or.inr (List.mem_cons_of_mem _ h3)
  | cons k ks ih =>
    intro cs c2 h
    cases cs with
    | nil => simp [insertKeyChild] at h; exact Or.inl h
    | cons c cs =>
      simp only [insertKeyChild] at h
      rcases hc : keyCmp k sk with _ | _ | _ <;> rw [hc] at h <;>
        simp only [List.mem_cons] at h
      · rcases h with h2 | h2
        · subst h2; exact Or.inr (List.mem_cons_self _ _)
        · rcases ih cs c2 h2 with h3 | h3
          · exact Or.inl h3
          · exact Or.inr (List.mem_cons_of_mem _ h3)
      · rcases h with h2 | h2
        · subst h2; exact Or.inr (List.mem_cons_self _ _)
        · rcases h2 with h3 | h3
          · exact Or.inl h3
          · exact Or.inr (List.mem_cons_of_mem _ h3)
      · rcases h with h2 | h2
        · subst h2; exact Or.inr (List.mem_cons_self _ _)
        · rcases h2 with h3 | h3
          · exact Or.inl h3
          · exact Or.inr (List.mem_cons_of_mem _ h3)

/-- bounded-ness statement for one `insertNode` call. -/
def insBOK (ord : Nat) (key : Key) (value : BVal) (n : BNode) : Prop :=
  (∀ n2, insertNode ord key value n = .one n2 → BoundedN ord n2) ∧
  (∀ l sk r, insertNode ord key value n = .split l sk r →
      BoundedN ord l ∧ BoundedN ord r)

/-- bounded-ness statement for one `insertChildren` call. -/
def insCBOK (ord : Nat) (key : Key) (value : BVal)
    (ks : List Key) (c : BNode) (cs : List BNode) : Prop :=
  (∀ cs2, insertChildren ord key value ks c cs = (cs2, none) → BoundedL ord cs2) ∧
  (∀ cs2 sk r, insertChildren ord key value ks c cs = (cs2, some (sk, r)) →
      BoundedL ord cs2 ∧ BoundedN ord r)

theorem insertChildren_bounded_aux :
    ∀ (cs : List BNode) (c : BNode) (ks : List Key) (ord : Nat) (key : Key) (value : BVal),
    (∀ c2, (c2 = c ∨ c2 ∈ cs) → BoundedN ord c2 → insBOK ord key value c2) →
    BoundedN ord c → BoundedL ord cs →
    insCBOK ord key value ks c cs := by
  intro cs
  induction cs with
  | nil =>
    intro c ks ord key value hch hbc hbl
    have hstep : ∀ cs2 po, (match insertNode ord key value c with
          | InsRes.one c2 => ([c2], none)
          | InsRes.split l sk r => ([l], some (sk, r))) = (cs2, po) →
        (po = none → BoundedL ord cs2) ∧
        (∀ sk r, po = some (sk, r) → BoundedL ord cs2 ∧ BoundedN ord r) := by
      intro cs2 po heq
      rcases hres : insertNode ord key value c with c2 | ⟨l, sk, r⟩ <;> rw [hres] at heq <;>
        injection heq with heq1 heq2
      · subst heq1; subst heq2
        constructor
        · intro _
          rw [BoundedL, BoundedL]
          exact ⟨(hch c (Or.inl rfl) hbc).1 c2 hres, trivial⟩
        · intro sk r h; cases h
      · subst heq1; subst heq2
        constructor
        · intro h; cases h
        · intro sk2 r2 h
          injection h with h
          injection h with h1 h2
          subst h1; subst h2
          obtain ⟨g1, g2⟩ := (hch c (Or.inl rfl) hbc).2 l sk r hres
          refine ⟨?_, g2⟩
          rw [BoundedL, BoundedL]
          exact ⟨g1, trivial⟩
    cases ks with
    | nil =>
      constructor
      · intro cs2 heq
        rw [insertChildren] at heq
        exact (hstep cs2 none heq).1 rfl
      · intro cs2 sk r heq
        rw [insertChildren] at heq
        exact (hstep cs2 (some (sk, r)) heq).2 sk r rfl
    | cons k ks2 =>
      constructor
      · intro cs2 heq
        rw [insertChildren] at heq
        rcases hcm : keyCmp key k with _ | _ | _ <;> rw [hcm] at heq <;>
          first
            | (rw [if_pos rfl] at heq; exact (hstep cs2 none heq).1 rfl)
            | (rw [if_neg (by intro h; cases h)] at heq
               exact (hstep cs2 none heq).1 rfl)
      · intro cs2 sk r heq
        rw [insertChildren] at heq
        rcases hcm : keyCmp key k with _ | _ | _ <;> rw [hcm] at heq <;>
          first
            | (rw [if_pos rfl] at heq; exact (hstep cs2 (some (sk, r)) heq).2 sk r rfl)
            | (rw [if_neg (by intro h; cases h)] at heq
               exact (hstep cs2 (some (sk, r)) heq).2 sk r rfl)
  | cons c2 cs2 ih =>
    intro c ks ord key value hch hbc hbl
    rw [BoundedL] at hbl
    have hch2 : ∀ c3, (c3 = c2 ∨ c3 ∈ cs2) → BoundedN ord c3 → insBOK ord key value c3 :=
      fun c3 hc3 => hch c3 (Or.inr (by
        rcases hc3 with h | h
        · subst h; exact List.mem_cons_self _ _
        · exact List.mem_cons_of_mem _ h))
    have hstepc : ∀ cs3 po, (match insertNode ord key value c with
          | InsRes.one c3 => (c3 :: c2 :: cs2, none)
          | InsRes.split l sk r => (l :: c2 :: cs2, some (sk, r))) = (cs3, po) →
        (po = none → BoundedL ord cs3) ∧
        (∀ sk r, po = some (sk, r) → BoundedL ord cs3 ∧ BoundedN ord r) := by
      intro cs3 po heq
      rcases hres : insertNode ord key value c with c3 | ⟨l, sk, r⟩ <;> rw [hres] at heq <;>
        injection heq with heq1 heq2
      · subst heq1; subst heq2
        refine ⟨fun _ => ?_, fun sk r h => by cases h⟩
        rw [BoundedL]
        exact ⟨(hch c (Or.inl rfl) hbc).1 c3 hres, hbl⟩
      · subst heq1; subst heq2
        refine ⟨fun h => ?_, fun sk2 r2 h => ?_⟩
        · cases h
        · injection h with h
          injection h with h1 h2
          subst h1; subst h2
          obtain ⟨g1, g2⟩ := (hch c (Or.inl rfl) hbc).2 l sk r hres
          refine ⟨?_, g2⟩
          rw [BoundedL]
          exact ⟨g1, hbl⟩
    cases ks with
    | nil =>
      constructor
      · intro cs3 heq
        rw [insertChildren] at heq
        rcases hp2 : insertChildren ord key value [] c2 cs2 with ⟨cs4, po2⟩
        rw [hp2] at heq
        injection heq with heq1 heq2
        subst heq1
        cases po2 with
        | none =>
          rw [BoundedL]
          exact ⟨hbc, (ih c2 [] ord key value hch2 hbl.1 hbl.2).1 cs4 hp2⟩
        | some v => cases heq2
      · intro cs3 sk r heq
        rw [insertChildren] at heq
        rcases hp2 : insertChildren ord key value [] c2 cs2 with ⟨cs4, po2⟩
        rw [hp2] at heq
        injection heq with heq1 heq2
        subst heq1
        cases po2 with
        | none => cases heq2
        | some v =>
          injection heq2 with heq2
          subst heq2
          obtain ⟨g1, g2⟩ := (ih c2 [] ord key value hch2 hbl.1 hbl.2).2 cs4 sk r hp2
          refine ⟨?_, g2⟩
          rw [BoundedL]
          exact ⟨hbc, g1⟩
    | cons k ks2 =>
      constructor
      · intro cs3 heq
        rw [insertChildren] at heq
        by_cases hcm : keyCmp key k = Ordering.lt
        · rw [if_pos hcm] at heq
          exact (hstepc cs3 none heq).1 rfl
        · rw [if_neg hcm] at heq
          rcases hp2 : insertChildren ord key value ks2 c2 cs2 with ⟨cs4, po2⟩
          rw [hp2] at heq
          injection heq with heq1 heq2
          subst heq1
          cases po2 with
          | none =>
            rw [BoundedL]
            exact ⟨hbc, (ih c2 ks2 ord key value hch2 hbl.1 hbl.2).1 cs4 hp2⟩
          | some v => cases heq2
      · intro cs3 sk r heq
        rw [insertChildren] at heq
        by_cases hcm : keyCmp key k = Ordering.lt
        · rw [if_pos hcm] at heq
          exact (hstepc cs3 (some (sk, r)) heq).2 sk r rfl
        · rw [if_neg hcm] at heq
          rcases hp2 : insertChildren ord key value ks2 c2 cs2 with ⟨cs4, po2⟩
          rw [hp2] at heq
          injection heq with heq1 heq2
          subst heq1
          cases po2 with
          | none => cases heq2
          | some v =>
            injection heq2 with heq2
            subst heq2
            obtain ⟨g1, g2⟩ := (ih c2 ks2 ord key value hch2 hbl.1 hbl.2).2 cs4 sk r hp2
            refine ⟨?_, g2⟩
            rw [BoundedL]
            exact ⟨hbc, g1⟩

theorem boundedL_of_mem :
    ∀ {cs : List BNode} {ord : Nat}, (∀ c ∈ cs, BoundedN ord c) → BoundedL ord cs := by
  intro cs
  induction cs with
  | nil => intro ord h; rw [BoundedL]; trivial
  | cons c cs ih =>
    intro ord h
    rw [BoundedL]
    exact ⟨h c (List.mem_cons_self _ _), ih (fun c2 hc2 => h c2 (List.mem_cons_of_mem _ hc2))⟩

theorem insertNode_bounded_fuel :
    ∀ (N : Nat) (n : BNode), bsize n ≤ N →
    ∀ (ord : Nat) (key : Key) (value : BVal), 1 ≤ ord → BoundedN ord n →
    insBOK ord key value n := by
  intro N
  induction N with
  | zero => intro n h; have := bsize_pos n; omega
  | succ N ih =>
    intro n hn ord key value hord hb
    cases n with
    | leaf es =>
      rw [BoundedN] at hb
      have hlen : es.length ≤ (insertInLeaf key value es).length ∧
          (insertInLeaf key value es).length ≤ es.length + 1 := insertInLeaf_length es
      by_cases hov : (insertInLeaf key value es).length > 2 * ord - 1
      · have heval : insertNode ord key value (.leaf es)
            = .split
              (.leaf ((insertInLeaf key value es).take
                ((insertInLeaf key value es).length / 2)))
              (((insertInLeaf key value es).drop
                ((insertInLeaf key value es).length / 2)).headD ([], [])).1
              (.leaf ((insertInLeaf key value es).drop
                ((insertInLeaf key value es).length / 2))) := by
          simp only [insertNode]
          rw [if_pos hov]
        constructor
        · intro n2 hn2; rw [heval] at hn2; cases hn2
        · intro l sk r hsp
          rw [heval] at hsp
          injection hsp with hl hsk hr
          subst hl; subst hr
          constructor
          · rw [BoundedN, List.length_take]
            omega
          · rw [BoundedN, List.length_drop]
            omega
      · have heval : insertNode ord key value (.leaf es)
            = .one (.leaf (insertInLeaf key value es)) := by
          simp only [insertNode]
          rw [if_neg hov]
        constructor
        · intro n2 hn2; rw [heval] at hn2; injection hn2 with hn2; subst hn2
          rw [BoundedN]
          omega
        · intro l sk r hsp; rw [heval] at hsp; cases hsp
    | node ks cs =>
      cases cs with
      | nil =>
        constructor
        · intro n2 hn2
          rw [insertNode] at hn2
          injection hn2 with hn2
          subst hn2
          exact hb
        · intro l sk r hsp; rw [insertNode] at hsp; cases hsp
      | cons c cs =>
        rw [BoundedN] at hb
        obtain ⟨hks, hbl⟩ := hb
        rw [BoundedL] at hbl
        have hco := insertChildren_bounded_aux cs c ks ord key value
          (fun c2 hc2 hb2 => by
            refine ih c2 ?_ ord key value hord hb2
            have hm : c2 ∈ c :: cs := by
              rcases hc2 with h | h
              · subst h; exact List.mem_cons_self _ _
              · exact List.mem_cons_of_mem _ h
            have := bsize_mem_le hm
            simp only [bsize] at hn
            omega)
          hbl.1 hbl.2
        rcases hres : insertChildren ord key value ks c cs with ⟨cs2, po⟩
        rcases po with _ | ⟨sk, r⟩
        · have h1 := hco.1 cs2 hres
          have heval : insertNode ord key value (.node ks (c :: cs))
              = .one (.node ks cs2) := by
            simp only [insertNode, hres]
          constructor
          · intro n2 hn2; rw [heval] at hn2; injection hn2 with hn2; subst hn2
            rw [BoundedN]
            exact ⟨hks, h1⟩
          · intro l sk r hsp; rw [heval] at hsp; cases hsp
        · obtain ⟨hb2, hbr⟩ := hco.2 cs2 sk r hres
          have hql := insertKeyChild_len sk r ks cs2
          have hqm : BoundedL ord (insertKeyChild sk r ks cs2).2 := by
            apply boundedL_of_mem
            intro c2 hc2
            rcases insertKeyChild_mem sk r ks cs2 c2 hc2 with h | h
            · subst h; exact hbr
            · exact boundedL_mem hb2 c2 h
          by_cases hov : (insertKeyChild sk r ks cs2).1.length > 2 * ord - 1
          · have heval : insertNode ord key value (.node ks (c :: cs))
                = .split
                  (.node ((insertKeyChild sk r ks cs2).1.take
                      ((insertKeyChild sk r ks cs2).1.length / 2))
                    ((insertKeyChild sk r ks cs2).2.take
                      ((insertKeyChild sk r ks cs2).1.length / 2 + 1)))
                  ((insertKeyChild sk r ks cs2).1.getD
                    ((insertKeyChild sk r ks cs2).1.length / 2) [])
                  (.node ((insertKeyChild sk r ks cs2).1.drop
                      ((insertKeyChild sk r ks cs2).1.length / 2 + 1))
                    ((insertKeyChild sk r ks cs2).2.drop
                      ((insertKeyChild sk r ks cs2).1.length / 2 + 1))) := by
              simp only [insertNode, hres]
              rw [if_pos hov]
            constructor
            · intro n2 hn2; rw [heval] at hn2; cases hn2
            · intro l2 sk2 r2 hsp
              rw [heval] at hsp
              injection hsp with hl hsk hr
              subst hl; subst hr
              constructor
              · rw [BoundedN]
                constructor
                · rw [List.length_take]; omega
                · apply boundedL_of_mem
                  intro c2 hc2
                  exact boundedL_mem hqm c2 (List.take_subset _ _ hc2)
              · rw [BoundedN]
                constructor
                · rw [List.length_drop]; omega
                · apply boundedL_of_mem
                  intro c2 hc2
                  exact boundedL_mem hqm c2 (List.drop_subset _ _ hc2)
          · have heval : insertNode ord key value (.node ks (c :: cs))
                = .one (.node (insertKeyChild sk r ks cs2).1
                    (insertKeyChild sk r ks cs2).2) := by
              simp only [insertNode, hres]
              rw [if_neg hov]
            constructor
            · intro n2 hn2; rw [heval] at hn2; injection hn2 with hn2; subst hn2
              rw [BoundedN]
              exact ⟨by omega, hqm⟩
            · intro l sk2 r2 hsp; rw [heval] at hsp; cases hsp

theorem Insert_bounded {t : BTree} (hord : 1 ≤ t.order)
    (hb : BoundedN t.order t.root) (key : Key) (value : BVal) :
    BoundedN t.order (t.Insert key value).root := by
  have hio := insertNode_bounded_fuel (bsize t.root) t.root (Nat.le_refl _)
    t.order key value hord hb
  unfold BTree.Insert
  rcases hres : insertNode t.order key value t.root with n2 | ⟨l, sk, r⟩
  · exact hio.1 n2 hres
  · obtain ⟨h1, h2⟩ := hio.2 l sk r hres
    show BoundedN t.order (.node [sk] [l, r])
    rw [BoundedN, BoundedL, BoundedL, BoundedL]
    refine ⟨by simp; omega, h1, h2, trivial⟩

theorem buildTree_bounded_aux :
    ∀ (ins : List (Key × BVal)) (t : BTree), 1 ≤ t.order → BoundedN t.order t.root →
    BoundedN t.order (ins.foldl (fun t kv => t.Insert kv.1 kv.2) t).root ∧
    (ins.foldl (fun t kv => t.Insert kv.1 kv.2) t).order = t.order := by
  intro ins
  induction ins with
  | nil => intro t hord hb; exact ⟨hb, rfl⟩
  | cons kv ins ih =>
    intro t hord hb
    have h1 := Insert_bounded hord hb kv.1 kv.2
    have hordeq : (t.Insert kv.1 kv.2).order = t.order := by
      unfold BTree.Insert
      rcases insertNode t.order kv.1 kv.2 t.root <;> rfl
    obtain ⟨g1, g2⟩ := ih (t.Insert kv.1 kv.2) (by rw [hordeq]; exact hord)
      (by rw [hordeq]; exact h1)
    rw [List.foldl_cons]
    exact ⟨by rw [← hordeq]; exact (hordeq ▸ g1), by rw [g2, hordeq]⟩

/-- C6: in a B+tree of order m ≥ 1 built from an empty tree by any sequence
of Insert calls, every node (leaf or internal) holds at most 2m-1 keys. -/
theorem C6_node_key_bound (m : Nat) (hm : 1 ≤ m) (ins : List (Key × BVal)) :
    ∀ n ∈ allNodes (buildTree m ins).root, nodeKeys n ≤ 2 * m - 1 := by
  have h0 : BoundedN (NewBPlusTree m).order (NewBPlusTree m).root := by
    show BoundedN m (.leaf [])
    rw [BoundedN]
    simp
  obtain ⟨hb, hord⟩ := buildTree_bounded_aux ins (NewBPlusTree m) hm h0
  refine bounded_allNodes_fuel (bsize (buildTree m ins).root) _ (Nat.le_refl _) m ?_
  show BoundedN m (buildTree m ins).root
  have : (NewBPlusTree m).order = m := rfl
  rw [← this]
  exact hb

def insC6 : List (Key × BVal) :=
  [([5], [50]), ([3], [30]), ([8], [80]), ([1], [10]), ([9], [90]), ([7], [70])]

/-- witness for C6 at a concrete order and insert sequence. -/
theorem C6_node_key_bound_witness :
    1 ≤ 2 ∧ (allNodes (buildTree 2 insC6).root).all
      (fun n => decide (nodeKeys n ≤ 2 * 2 - 1)) = true :=
  ⟨by decide, by
    rw [List.all_eq_true]
    intro n hn
    exact decide_eq_true (C6_node_key_bound 2 (by decide) insC6 n hn)⟩

/-
========  index persistence (serializeBTree / deserializeBTree)  ========

`serializeBTree` numbers the nodes in BFS order (pass 1) and then emits them
in the same BFS order (pass 2), recording child links as indices into that
numbering; on a tree the pointer-keyed `nodeIndexMap` and `visited` set
behave exactly like position-based BFS numbering, which is what the model
below computes.  `deserializeBTree` rebuilds every node, attaches children
whose index is in range, and re-links the leaf chain in array order; reading
the node graph from its root gives the functional tree below.
-/

/-- `SerializedNode`: is_leaf, keys, values (leaves), children indices. -/
structure SerializedNode where
  isLeaf : Bool
  keys : List Key
  values : List (List BVal)
  children : List Nat
deriving Repr, DecidableEq

instance : Inhabited SerializedNode := ⟨⟨true, [], [], []⟩⟩

/-- `IndexFile`: { field, order, nodes }. -/
structure IndexFile where
  fieldName : List Nat
  order : Nat
  nodes : List SerializedNode
deriving Repr, DecidableEq

def childrenOf : BNode → List BNode
  | .leaf _ => []
  | .node _ cs => cs

/-- one serialized node; `firstChild` is the BFS index of its first child. -/
def serNode (n : BNode) (firstChild : Nat) : SerializedNode :=
  match n with
  | .leaf es =>
      { isLeaf := true, keys := es.map Prod.fst, values := es.map Prod.snd,
        children := [] }
  | .node ks cs =>
      { isLeaf := false, keys := ks, values := [],
        children := (List.range cs.length).map (fun i => firstChild + i) }

theorem bsizeL_append (a b : List BNode) : bsizeL (a ++ b) = bsizeL a + bsizeL b := by
  induction a with
  | nil => simp [bsizeL]
  | cons c a ih => simp [bsizeL, ih]; omega

theorem bsizeL_ge_length (cs : List BNode) : cs.length ≤ bsizeL cs := by
  induction cs with
  | nil => simp [bsizeL]
  | cons c cs ih => have := bsize_pos c; simp [bsizeL]; omega

theorem bsizeL_childrenOf (n : BNode) : bsizeL (childrenOf n) = bsize n - 1 := by
  cases n <;> simp [childrenOf, bsize, bsizeL]

/-- BFS serialization of a queue of subtrees; `base` is the BFS index of the
queue's first element. -/
def serQueue : List BNode → Nat → List SerializedNode
  | [], _ => []
  | n :: rest, base =>
      serNode n (base + 1 + rest.length) :: serQueue (rest ++ childrenOf n) (base + 1)
termination_by q _ => bsizeL q
decreasing_by
  simp_wf
  rw [bsizeL_append, bsizeL_childrenOf]
  simp only [bsizeL]
  have := bsize_pos n
  omega

/-- `serializeBTree`: the root always exists in the functional model, so the
nil-guard branch of the Go code collapses into the main path. -/
def serializeBTree (tree : BTree) (fieldName : List Nat) (order : Nat) : IndexFile :=
  { fieldName := fieldName, order := order, nodes := serQueue [tree.root] 0 }

/-- rebuild the node at index `i`; children are attached only when their
index is in range, values only on leaves (`len(sn.Values) > 0` guard —
`zip` pairs keys with values exactly as the parallel arrays do). -/
def deserNode (nodes : List SerializedNode) : Nat → Nat → BNode
  | 0, _ => .leaf []
  | fuel + 1, i =>
      let sn := nodes.getD i default
      if sn.isLeaf then .leaf (sn.keys.zip sn.values)
      else .node sn.keys
        ((sn.children.filter (fun j => decide (j < nodes.length))).map
          (fun j => deserNode nodes fuel j))

/-- `deserializeBTree`: empty node list yields a fresh tree; otherwise the
tree rooted at node 0, carrying the file's order. -/
def deserializeBTree (data : IndexFile) : BTree :=
  match data.nodes with
  | [] => NewBPlusTree data.order
  | _ => { root := deserNode data.nodes data.nodes.length 0, order := data.order }

theorem serQueue_length :
    ∀ (T : Nat) (q : List BNode) (b : Nat), bsizeL q ≤ T →
    (serQueue q b).length = bsizeL q := by
  intro T
  induction T with
  | zero =>
    intro q b hq
    cases q with
    | nil => rw [serQueue]; simp [bsizeL]
    | cons n rest =>
      simp only [bsizeL] at hq
      have := bsize_pos n
      omega
  | succ T ih =>
    intro q b hq
    cases q with
    | nil => rw [serQueue]; simp [bsizeL]
    | cons n rest =>
      rw [serQueue]
      simp only [List.length_cons]
      rw [ih (rest ++ childrenOf n) (b + 1)
        (by rw [bsizeL_append, bsizeL_childrenOf]
            simp only [bsizeL] at hq ⊢
            have := bsize_pos n
            omega)]
      rw [bsizeL_append, bsizeL_childrenOf]
      simp only [bsizeL]
      have := bsize_pos n
      omega

theorem getD_append_self (pre : List SerializedNode) (x : SerializedNode)
    (s : List SerializedNode) :
    (pre ++ x :: s).getD pre.length default = x := by
  rw [List.getD_append_right pre (x :: s) default pre.length (Nat.le_refl _)]
  simp

theorem zip_map_fst_snd (es : List (Key × List BVal)) :
    (es.map Prod.fst).zip (es.map Prod.snd) = es := by
  induction es with
  | nil => rfl
  | cons e es ih => simp [List.zip_cons_cons, ih]

theorem range_map_getD (cs : List BNode) (d : BNode) :
    (List.range cs.length).map (fun i => cs.getD i d) = cs := by
  induction cs with
  | nil => rfl
  | cons c cs ih =>
    rw [List.length_cons, List.range_succ_eq_map, List.map_cons, List.map_map]
    simp only [List.getD_cons_zero]
    have h : (List.range cs.length).map ((fun i => (c :: cs).getD i d) ∘ Nat.succ)
        = (List.range cs.length).map (fun i => cs.getD i d) := by
      apply List.map_congr_left
      intro i _
      rfl
    rw [h, ih]

theorem serQueue_roundtrip :
    ∀ (T : Nat) (q : List BNode), bsizeL q ≤ T →
    ∀ (pre : List SerializedNode) (fuel : Nat), bsizeL q ≤ fuel →
    ∀ j, j < q.length →
      deserNode (pre ++ serQueue q pre.length) fuel (pre.length + j)
        = q.getD j (.leaf []) := by
  intro T
  induction T with
  | zero =>
    intro q hq pre fuel hf j hj
    cases q with
    | nil => simp at hj
    | cons n rest =>
      simp only [bsizeL] at hq
      have := bsize_pos n
      omega
  | succ T ih =>
    intro q hq pre fuel hf j hj
    cases q with
    | nil => simp at hj
    | cons n rest =>
      have hq2 : bsizeL (rest ++ childrenOf n) ≤ T := by
        rw [bsizeL_append, bsizeL_childrenOf]
        simp only [bsizeL] at hq
        have := bsize_pos n
        omega
      rw [serQueue]
      have hassoc : pre ++ serNode n (pre.length + 1 + rest.length)
            :: serQueue (rest ++ childrenOf n) (pre.length + 1)
          = (pre ++ [serNode n (pre.length + 1 + rest.length)])
            ++ serQueue (rest ++ childrenOf n)
              (pre ++ [serNode n (pre.length + 1 + rest.length)]).length := by
        simp
      cases j with
      | succ j =>
        have hj2 : j < rest.length := by simpa using hj
        rw [hassoc]
        have hidx : pre.length + (j + 1)
            = (pre ++ [serNode n (pre.length + 1 + rest.length)]).length + j := by
          simp; omega
        rw [hidx]
        rw [ih (rest ++ childrenOf n) hq2 _ fuel
          (by simp only [bsizeL] at hf; rw [bsizeL_append, bsizeL_childrenOf]
              have := bsize_pos n; omega)
          j (by simp; omega)]
        rw [List.getD_append rest (childrenOf n) _ j hj2]
        simp [List.getD_cons_succ]
      | zero =>
        obtain ⟨f, hfe⟩ : ∃ f, fuel = f + 1 := by
          refine ⟨fuel - 1, ?_⟩
          simp only [bsizeL] at hf
          have := bsize_pos n
          omega
        subst hfe
        show deserNode (pre ++ serNode n (pre.length + 1 + rest.length)
              :: serQueue (rest ++ childrenOf n) (pre.length + 1)) (f + 1) pre.length
            = (n :: rest).getD 0 (.leaf [])
        rw [deserNode]
        have hget : (pre ++ serNode n (pre.length + 1 + rest.length)
              :: serQueue (rest ++ childrenOf n) (pre.length + 1)).getD
              pre.length default
            = serNode n (pre.length + 1 + rest.length) :=
          getD_append_self _ _ _
        rw [hget]
        cases n with
        | leaf es =>
          simp only [serNode, if_pos rfl]
          rw [zip_map_fst_snd]
          rfl
        | node ks cs =>
          simp only [serNode]
          rw [if_neg (by simp)]
          show BNode.node ks _ = _
          simp only [List.getD_cons_zero]
          congr 1
          have hser : ({ isLeaf := false, keys := ks, values := [], children := List.map (fun i => pre.length + 1 + rest.length + i) (List.range cs.length) } : SerializedNode) = serNode (.node ks cs) (pre.length + 1 + rest.length) := rfl
          simp only [hser]
          -- children indices are all in range and decode to cs
          have hlenA : (pre ++ serNode (.node ks cs) (pre.length + 1 + rest.length)
                :: serQueue (rest ++ childrenOf (.node ks cs)) (pre.length + 1)).length
              = pre.length + 1 + bsizeL (rest ++ childrenOf (.node ks cs)) := by
            simp only [List.length_append, List.length_cons]
            rw [serQueue_length (bsizeL (rest ++ childrenOf (.node ks cs))) _ _
              (Nat.le_refl _)]
            omega
          have hrange : ∀ i, i < cs.length →
              pre.length + 1 + rest.length + i
                < (pre ++ serNode (.node ks cs) (pre.length + 1 + rest.length)
                    :: serQueue (rest ++ childrenOf (.node ks cs))
                      (pre.length + 1)).length := by
            intro i hi
            rw [hlenA, bsizeL_append, bsizeL_childrenOf]
            have h1 := bsizeL_ge_length rest
            have h2 := bsizeL_ge_length cs
            simp only [childrenOf, bsize]
            omega
          have hfilter : ((List.range cs.length).map
                (fun i => pre.length + 1 + rest.length + i)).filter
                (fun j2 => decide (j2 < (pre ++ serNode (.node ks cs)
                  (pre.length + 1 + rest.length)
                  :: serQueue (rest ++ childrenOf (.node ks cs))
                    (pre.length + 1)).length))
              = (List.range cs.length).map
                (fun i => pre.length + 1 + rest.length + i) := by
            rw [List.filter_eq_self]
            intro j2 hj2
            obtain ⟨i, hi, hieq⟩ := List.mem_map.mp hj2
            subst hieq
            simp only [decide_eq_true_eq]
            exact hrange i (List.mem_range.mp hi)
          rw [hfilter, List.map_map]
          have hdecode : ∀ i ∈ List.range cs.length,
              ((fun j2 => deserNode (pre ++ serNode (.node ks cs)
                  (pre.length + 1 + rest.length)
                  :: serQueue (rest ++ childrenOf (.node ks cs)) (pre.length + 1))
                  f j2) ∘ (fun i => pre.length + 1 + rest.length + i)) i
                = cs.getD i (.leaf []) := by
            intro i hi
            have hi2 := List.mem_range.mp hi
            simp only [Function.comp]
            rw [hassoc]
            have hidx : pre.length + 1 + rest.length + i
                = (pre ++ [serNode (.node ks cs) (pre.length + 1 + rest.length)]).length
                  + (rest.length + i) := by
              simp; omega
            rw [hidx]
            rw [ih (rest ++ childrenOf (.node ks cs)) hq2 _ f
              (by simp only [bsizeL] at hf
                  rw [bsizeL_append, bsizeL_childrenOf]
                  have := bsize_pos (BNode.node ks cs)
                  omega)
              (rest.length + i)
              (by rw [List.length_append]
                  simp only [childrenOf]
                  omega)]
            rw [List.getD_append_right rest (childrenOf (.node ks cs)) _ _
              (by omega)]
            simp [childrenOf]
          rw [List.map_congr_left hdecode]
          exact range_map_getD cs (.leaf [])

theorem deserialize_serialize_root (t : BTree) (fn : List Nat) (ord : Nat) :
    (deserializeBTree (serializeBTree t fn ord)).root = t.root := by
  have hmain : deserNode (serQueue [t.root] 0) (serQueue [t.root] 0).length 0 = t.root := by
    have h := serQueue_roundtrip (bsizeL [t.root]) [t.root] (Nat.le_refl _)
      [] (serQueue [t.root] 0).length
      (Nat.le_of_eq (serQueue_length (bsizeL [t.root]) [t.root] 0 (Nat.le_refl _)).symm)
      0 (by simp)
    simpa using h
  obtain ⟨sn, rest2, hns⟩ : ∃ sn rest2, serQueue [t.root] 0 = sn :: rest2 := by
    rw [serQueue]
    exact ⟨_, _, rfl⟩
  show (deserializeBTree { fieldName := fn, order := ord, nodes := serQueue [t.root] 0 }).root = t.root
  rw [deserializeBTree]
  rw [hns] at hmain ⊢
  exact hmain

/-- C4: for every B+tree populated by a sequence of `Insert` calls, the
serialize → deserialize round trip yields a tree in which `Search` returns
the same value list as in the original tree, for every key (in particular
for every inserted key). -/
theorem C4_serialize_roundtrip (ord : Nat) (ins : List (Key × BVal))
    (fn : List Nat) (sord : Nat) (key : Key) :
    (deserializeBTree (serializeBTree (buildTree ord ins) fn sord)).Search key
      = (buildTree ord ins).Search key := by
  simp only [BTree.Search, deserialize_serialize_root]

/-
=====================  collection layer: values and key encoding  ===========

The code of `internal/operators` (MatchDocument), `internal/query` (Parse)
and the index key encoder `index.ValueToKey` is not part of the sources
under verification; the definitions below are modelled from the spec
(§3 value model and key encoding, §4.4 match engine) and are marked as
such.  Everything else in this section is translated from
`internal/storage/collection.go` and the command layer.
-/

/-- Modelled from the spec (§3): admissible dynamic values.  Floats,
arrays and mappings are omitted — no claim under study involves them.
Strings are modelled as their byte sequences (Go strings are byte
slices). -/
inductive Val where
  | vnull : Val
  | vbool : Bool → Val
  | vint : Int → Val
  | vstr : List Nat → Val
deriving DecidableEq, Repr

/-- big-endian fixed-width byte string of `n` (`k` bytes, valid for
`n < 256^k`): the head is the most significant byte.  Modelled from the
spec (§3). -/
def beRec : Nat → Nat → List Nat
  | 0, _ => []
  | k + 1, n => (n / 256 ^ k) :: beRec k (n % 256 ^ k)

/-- the spec's 8-byte big-endian representation. -/
def be8 (n : Nat) : List Nat := beRec 8 n

/-- Modelled from the spec (§3): one type-tag byte, then the payload.
null=0, false=1, true=2, integer=3 then 8 bytes big-endian with the sign
bit flipped (equivalently `i + 2^63`, reduced mod `2^64`), string=5 then
the bytes. -/
def ValueToKey : Val → Key
  | .vnull => [0]
  | .vbool false => [1]
  | .vbool true => [2]
  | .vint i => 3 :: be8 ((i + 2 ^ 63).toNat % 2 ^ 64)
  | .vstr s => 5 :: s

theorem keyCmp_beRec (k : Nat) :
    ∀ n m : Nat, n < 256 ^ k → m < 256 ^ k →
    keyCmp (beRec k n) (beRec k m) = compare n m := by
  induction k with
  | zero =>
    intro n m hn hm
    simp only [pow_zero, Nat.lt_one_iff] at hn hm
    subst hn; subst hm
    rfl
  | succ k ih =>
    intro n m hn hm
    rw [beRec, beRec]
    simp only [keyCmp]
    rcases Nat.lt_trichotomy (n / 256 ^ k) (m / 256 ^ k) with h | h | h
    · rw [if_pos h]
      have hnm : n < m := by
        by_contra hc
        have hle : m ≤ n := by omega
        have h6 : m / 256 ^ k ≤ n / 256 ^ k := Nat.div_le_div_right hle
        omega
      rw [(Nat.compare_eq_lt).mpr hnm]
    · rw [if_neg (by omega), if_neg (by omega)]
      have h3 : n % 256 ^ k < 256 ^ k := Nat.mod_lt _ (Nat.pos_pow_of_pos k (by omega))
      have h4 : m % 256 ^ k < 256 ^ k := Nat.mod_lt _ (Nat.pos_pow_of_pos k (by omega))
      rw [ih (n % 256 ^ k) (m % 256 ^ k) h3 h4]
      have h1 := Nat.div_add_mod n (256 ^ k)
      have h2 := Nat.div_add_mod m (256 ^ k)
      have hq : 256 ^ k * (n / 256 ^ k) = 256 ^ k * (m / 256 ^ k) :=
        congrArg (fun x => 256 ^ k * x) h
      rcases Nat.lt_trichotomy (n % 256 ^ k) (m % 256 ^ k) with h5 | h5 | h5
      · rw [(Nat.compare_eq_lt).mpr h5, (Nat.compare_eq_lt).mpr (by omega)]
      · rw [(Nat.compare_eq_eq).mpr h5, (Nat.compare_eq_eq).mpr (by omega)]
      · rw [(Nat.compare_eq_gt).mpr h5, (Nat.compare_eq_gt).mpr (by omega)]
    · rw [if_neg (by omega), if_pos h]
      have hnm : m < n := by
        by_contra hc
        have hle : n ≤ m := by omega
        have h6 : n / 256 ^ k ≤ m / 256 ^ k := Nat.div_le_div_right hle
        omega
      rw [(Nat.compare_eq_gt).mpr hnm]

theorem keyCmp_be8 (n m : Nat) (hn : n < 2 ^ 64) (hm : m < 2 ^ 64) :
    keyCmp (be8 n) (be8 m) = compare n m := by
  have h : (256 : Nat) ^ 8 = 2 ^ 64 := by norm_num
  exact keyCmp_beRec 8 n m (by omega) (by omega)

/-
=====================  collection layer: store and collection  ==============
-/

/-- a document: field name → value association list (Go `map[string]any`;
the model fixes insertion order, which is sound for the set/multiset-level
claims below). -/
abbrev Doc := List (String × Val)

/-- `document[field]` lookup. -/
def getField (d : Doc) (f : String) : Option Val :=
  (List.find? (fun p => p.1 == f) d).map Prod.snd

/-- `document[field] = v` assignment (`doc["_id"] = id`). -/
def setField (d : Doc) (f : String) (v : Val) : Doc :=
  if List.any d (fun p => p.1 == f) then
    List.map (fun p => if p.1 == f then (f, v) else p) d
  else d ++ [(f, v)]

/-- Modelled from the spec (§4.1): the document store maps `_id` (a byte
string) to the document.  Go map iteration order is unspecified; the model
fixes association-list insertion order. -/
abbrev HashMap := List (List Nat × Doc)

/-- `Put`: replace the value at the key, or append a fresh binding. -/
def HashMap.Put (m : HashMap) (k : List Nat) (v : Doc) : HashMap :=
  if List.any m (fun p => p.1 == k) then
    List.map (fun p => if p.1 == k then (k, v) else p) m
  else m ++ [(k, v)]

/-- `Get`. -/
def HashMap.Get (m : HashMap) (k : List Nat) : Option Doc :=
  (List.find? (fun p => p.1 == k) m).map Prod.snd

/-- `Remove`: drops the binding, reporting whether it was present. -/
def HashMap.Remove (m : HashMap) (k : List Nat) : HashMap × Bool :=
  (List.filter (fun p => !(p.1 == k)) m, List.any m (fun p => p.1 == k))

/-- `Items`: the stored documents, in store order. -/
def HashMap.Items (m : HashMap) : List Doc := List.map Prod.snd m

/-- `storage.Collection`: name, document store, and the per-field B+tree
index registry (Go `map[string]*index.BTree`, modelled as an association
list). -/
structure Collection where
  Name : String
  Data : HashMap
  Indexes : List (String × BTree)

/-- `NewCollection`. -/
def NewCollection (name : String) : Collection :=
  { Name := name, Data := [], Indexes := [] }

/-- `GetByID` (the stored value is always a document in the model, so the
Go type assertion always succeeds). -/
def Collection.GetByID (c : Collection) (id : List Nat) : Option Doc :=
  c.Data.Get id

/-- `HasIndex`. -/
def Collection.HasIndex (c : Collection) (f : String) : Bool :=
  List.any c.Indexes (fun p => p.1 == f)

/-- `GetIndex`. -/
def Collection.GetIndex (c : Collection) (f : String) : Option BTree :=
  (List.find? (fun p => p.1 == f) c.Indexes).map Prod.snd

/-- `All`: every stored document (the Go type assertion always succeeds in
the model). -/
def Collection.All (c : Collection) : List Doc := c.Data.Items

/-- `updateIndexesOnInsert`: for each index whose field the document
carries, insert (encoded field value, docID) into that tree. -/
def Collection.updateIndexesOnInsert (c : Collection) (docID : List Nat)
    (doc : Doc) : Collection :=
  { c with Indexes := List.map (fun ft =>
      match getField doc ft.1 with
      | some v => (ft.1, BTree.Insert ft.2 (ValueToKey v) docID)
      | none => ft) c.Indexes }

/-- `Collection.Insert`.  `generateID` is time/randomness dependent; the
model takes the generated id as an argument. -/
def Collection.Insert (c : Collection) (id : List Nat) (doc : Doc) : Collection :=
  let doc2 := setField doc "_id" (.vstr id)
  let c2 := { c with Data := c.Data.Put id doc2 }
  c2.updateIndexesOnInsert id doc2

/-- `updateIndexesOnDelete`: the hook has an empty body. -/
def Collection.updateIndexesOnDelete (c : Collection) (docID : List Nat)
    (doc : Doc) : Collection := c

/-- `Collection.Delete`: fetch the document, run the (empty) index hook,
remove from the store. -/
def Collection.Delete (c : Collection) (id : List Nat) : Collection × Bool :=
  match c.GetByID id with
  | none => (c, false)
  | some doc =>
      let c2 := c.updateIndexesOnDelete id doc
      let r := c2.Data.Remove id
      ({ c2 with Data := r.1 }, r.2)

/-- the index-building scan shared by `CreateIndex` and
`RebuildAllIndexes`: for each document carrying the field, insert
(encoded value, _id).  Go reads `doc["_id"].(string)` unchecked; documents
entering the store via `Insert` always carry a string `_id`, and the
claims below quantify over stores built that way, so the fallback branch
(skip) is never reached there. -/
def indexDocs (docs : List Doc) (f : String) (t : BTree) : BTree :=
  docs.foldl (fun t doc =>
    match getField doc f with
    | some v =>
        match getField doc "_id" with
        | some (.vstr id) => BTree.Insert t (ValueToKey v) id
        | _ => t
    | none => t) t

/-- `CreateIndex`: error (`some msg`) if the index exists, else build the
tree from a full scan and register it.  (The final `SaveIndex` call only
writes to disk; its payload is modelled by `saveIndexFile`.) -/
def Collection.CreateIndex (c : Collection) (f : String) (order : Nat) :
    Collection × Option String :=
  if c.HasIndex f then (c, some "index already exists")
  else
    let btree := indexDocs c.All f (NewBPlusTree order)
    ({ c with Indexes := c.Indexes ++ [(f, btree)] }, none)

/-- field-name bytes for the index file (the claims never inspect them). -/
def strBytes (s : String) : List Nat := s.data.map Char.toNat

/-- `SaveIndex`: the `IndexFile` value written to disk — note the literal
`64` passed as the order (`serializeBTree(btree, fieldName, 64)`). -/
def Collection.saveIndexFile (c : Collection) (f : String) : Option IndexFile :=
  match c.GetIndex f with
  | none => none
  | some btree => some (serializeBTree btree (strBytes f) 64)

/-- `LoadIndex` applied to an already-read index file: deserialize and
register. -/
def Collection.LoadIndexFrom (c : Collection) (f : String) (file : IndexFile) :
    Collection :=
  { c with Indexes :=
      if List.any c.Indexes (fun p => p.1 == f) then
        List.map (fun p => if p.1 == f then (f, deserializeBTree file) else p) c.Indexes
      else c.Indexes ++ [(f, deserializeBTree file)] }

/-- `RebuildAllIndexes`: remember the indexed fields, clear the registry,
and rebuild each field's tree with `NewBPlusTree(64)` from a scan of the
remaining documents. -/
def Collection.RebuildAllIndexes (c : Collection) : Collection :=
  let fields := List.map Prod.fst c.Indexes
  { c with Indexes := fields.map (fun f => (f, indexDocs c.All f (NewBPlusTree 64))) }

/-
=====================  match engine and planner  ============================
-/

/-- Modelled from the spec (§4.4/§6): a comparator argument is a primitive
value or (for `$in` / logical operators' arrays handled separately) an
array of values. -/
inductive Operand where
  | oval : Val → Operand
  | oarr : List Val → Operand
deriving DecidableEq, Repr

/-- Modelled from the spec (§4.4): the value attached to a top-level
condition key — a bare primitive (equality), a comparator mapping, or an
array of condition objects (the argument of `$and` / `$or`). -/
inductive CondVal where
  | prim : Val → CondVal
  | ops : List (String × Operand) → CondVal
  | sub : List (List (String × CondVal)) → CondVal

/-- a condition mapping (Go `map[string]any`, in insertion order). -/
abbrev Conditions := List (String × CondVal)

mutual
def cvSize : CondVal → Nat
  | .prim _ => 1
  | .ops _ => 1
  | .sub l => 1 + cvSizeLL l
def cvSizeLL : List (List (String × CondVal)) → Nat
  | [] => 0
  | c :: cs => 1 + cvSizeL c + cvSizeLL cs
def cvSizeL : List (String × CondVal) → Nat
  | [] => 0
  | kv :: r => 1 + cvSize kv.2 + cvSizeL r
end

/-- same-kind strict comparison: numeric for integers, byte-lexicographic
for strings; every cross-kind (or unordered-kind) pair fails.  Modelled
from the spec (§4.4): "numeric or lexicographic order; if the two operands
have different value kinds, the predicate fails". -/
def valLt : Val → Val → Bool
  | .vint a, .vint b => a < b
  | .vstr a, .vstr b => keyCmp a b == .lt
  | _, _ => false

/-- same-kind non-strict comparison. -/
def valLe : Val → Val → Bool
  | .vint a, .vint b => a ≤ b
  | .vstr a, .vstr b => !(keyCmp a b == .gt)
  | _, _ => false

/-- Modelled from the spec (§4.4): `$like`, `%` = any run, `_` = exactly
one byte, anchored at both ends (byte 37 = `%`, 95 = `_`). -/
def likeMatch : List Nat → List Nat → Bool
  | [], [] => true
  | [], _ :: _ => false
  | p :: ps, s =>
      if p == 37 then
        likeMatch ps s ||
          (match s with
           | [] => false
           | _ :: s2 => likeMatch (p :: ps) s2)
      else
        match s with
        | [] => false
        | c :: s2 => (p == 95 || p == c) && likeMatch ps s2
termination_by p s => p.length + s.length
decreasing_by all_goals (simp_wf; try omega)

/-- Modelled from the spec (§4.4): one comparator against the document's
field value (`none` = field missing: every predicate fails except
`$eq null`). -/
def matchOp (fv : Option Val) (op : String) (arg : Operand) : Bool :=
  match fv with
  | none =>
      op == "$eq" && (match arg with
                      | .oval .vnull => true
                      | _ => false)
  | some v =>
      if op == "$eq" then (match arg with | .oval w => v == w | _ => false)
      else if op == "$gt" then (match arg with | .oval w => valLt w v | _ => false)
      else if op == "$gte" then (match arg with | .oval w => valLe w v | _ => false)
      else if op == "$lt" then (match arg with | .oval w => valLt v w | _ => false)
      else if op == "$lte" then (match arg with | .oval w => valLe v w | _ => false)
      else if op == "$in" then
        (match arg with | .oarr l => l.any (fun w => v == w) | _ => false)
      else if op == "$like" then
        (match v, arg with
         | .vstr s, .oval (.vstr pat) => likeMatch pat s
         | _, _ => false)
      else false

/-- Modelled from the spec (§4.4): a field-name key's predicate — bare
primitive is equality, a comparator mapping is the conjunction of its
comparators; an array value (logical-operator shape) under a field name
matches nothing. -/
def matchField (doc : Doc) (f : String) (cv : CondVal) : Bool :=
  match cv with
  | .prim v => matchOp (getField doc f) "$eq" (.oval v)
  | .ops m => m.all (fun p => matchOp (getField doc f) p.1 p.2)
  | .sub _ => false

mutual
/-- Modelled from the spec (§4.4): top level is an implicit AND; `$and` /
`$or` take arrays of condition objects; other keys are field predicates. -/
def MatchDocument (doc : Doc) : Conditions → Bool
  | [] => true
  | kv :: rest =>
      (if kv.1 == "$and" then matchAndArg doc kv.2
       else if kv.1 == "$or" then matchOrArg doc kv.2
       else matchField doc kv.1 kv.2) && MatchDocument doc rest
termination_by conds => cvSizeL conds
decreasing_by all_goals (simp_wf; simp only [cvSizeL]; omega)

def matchAndArg (doc : Doc) : CondVal → Bool
  | .sub l => matchSubAll doc l
  | _ => false
termination_by cv => cvSize cv
decreasing_by all_goals (simp_wf; simp only [cvSize]; omega)

def matchOrArg (doc : Doc) : CondVal → Bool
  | .sub l => matchSubAny doc l
  | _ => false
termination_by cv => cvSize cv
decreasing_by all_goals (simp_wf; simp only [cvSize]; omega)

def matchSubAll (doc : Doc) : List Conditions → Bool
  | [] => true
  | c :: cs => MatchDocument doc c && matchSubAll doc cs
termination_by l => cvSizeLL l
decreasing_by all_goals (simp_wf; simp only [cvSizeLL]; omega)

def matchSubAny (doc : Doc) : List Conditions → Bool
  | [] => false
  | c :: cs => MatchDocument doc c || matchSubAny doc cs
termination_by l => cvSizeLL l
decreasing_by all_goals (simp_wf; simp only [cvSizeLL]; omega)
end

/-- Modelled from the spec (§4.3): a parsed query carries one top-level
condition mapping. -/
structure Query where
  Conditions : Conditions

/-- `hasLogicalOperators`: `$or` or `$and` key present. -/
def hasLogicalOperators (conds : Conditions) : Bool :=
  List.any conds (fun p => p.1 == "$or") || List.any conds (fun p => p.1 == "$and")

/-- operator lookup in a comparator mapping (`v["$gt"]` etc.). -/
def lookupOp (m : List (String × Operand)) (op : String) : Option Operand :=
  (List.find? (fun p => p.1 == op) m).map Prod.snd

/-- `findWithIndex`: point/range/multi-point search on the field's tree,
then fetch each returned document id from the store.  A Go `Value` is the
id's bytes, so `ValuesToStrings` is the identity here.  The type switch
(`case float64, int, int64, string, bool`) has no case for `nil`, so a
bare-null condition matches neither branch and yields no ids.
`ValueToKey` on an array argument of a scalar comparator is an error per
§3 and unreachable in the claims below; the model returns no ids there. -/
def findWithIndex (c : Collection) (field : String) (cond : CondVal) : List Doc :=
  match c.GetIndex field with
  | none => []
  | some btree =>
      let docIDs : List BVal :=
        match cond with
        | .prim .vnull => []
        | .prim v => btree.Search (ValueToKey v)
        | .ops m =>
            match lookupOp m "$gt" with
            | some (.oval w) => btree.SearchGreaterThan (ValueToKey w)
            | some (.oarr _) => []
            | none =>
              match lookupOp m "$lt" with
              | some (.oval w) => btree.SearchLessThan (ValueToKey w)
              | some (.oarr _) => []
              | none =>
                match lookupOp m "$eq" with
                | some (.oval w) => btree.Search (ValueToKey w)
                | some (.oarr _) => []
                | none =>
                  match lookupOp m "$in" with
                  | some (.oarr l) => btree.SearchIn (l.map ValueToKey)
                  | _ => []
        | .sub _ => []
      docIDs.filterMap (fun id => c.GetByID id)

/-- `findFullScan`: filter every stored document through the matcher. -/
def findFullScan (c : Collection) (q : Query) : List Doc :=
  List.filter (fun doc => MatchDocument doc q.Conditions) c.All

/-- the planner's index-path attempt in `cmdFind`: `some` exactly when the
query has a single condition, no top-level `$or`/`$and`, and the field has
an index (the `for … break` over the singleton mapping inspects its only
entry). -/
def cmdFindPath (c : Collection) (q : Query) : Option (List Doc) :=
  if q.Conditions.length == 1 && !hasLogicalOperators q.Conditions then
    match q.Conditions with
    | kv :: _ => if c.HasIndex kv.1 then some (findWithIndex c kv.1 kv.2) else none
    | [] => none
  else none

/-- `cmdFind`: a Go nil slice results from the index path iff no document
was appended, i.e. iff the returned list is empty, so `results == nil`
(fall back to full scan) is modelled by emptiness. -/
def cmdFind (c : Collection) (q : Query) : List Doc :=
  match cmdFindPath c q with
  | some rs => if rs.isEmpty then findFullScan c q else rs
  | none => findFullScan c q

/-- `cmdDelete`'s deletion loop: snapshot `All()`, delete every matching
document by its string `_id` (documents without one are skipped, as by the
`ok` type-assertion check). -/
def deleteMatching (c : Collection) (conds : Conditions) : Collection :=
  (c.All).foldl (fun acc doc =>
    if MatchDocument doc conds then
      match getField doc "_id" with
      | some (.vstr id) => (acc.Delete id).1
      | _ => acc
    else acc) c

/-- `cmdDelete`: delete matching documents, then rebuild every index. -/
def cmdDelete (c : Collection) (conds : Conditions) : Collection :=
  (deleteMatching c conds).RebuildAllIndexes

/-
=====================  C7, C8, C10  =========================================
-/

/-- C7: `Collection.Delete` leaves every index (and the name) unchanged —
the `updateIndexesOnDelete` hook has an empty body — so only the document
store is modified. -/
theorem C7_delete_preserves_indexes (c : Collection) (id : List Nat) :
    ((c.Delete id).1).Indexes = c.Indexes ∧ ((c.Delete id).1).Name = c.Name := by
  unfold Collection.Delete
  cases c.GetByID id <;> simp [Collection.updateIndexesOnDelete]

/-- C8: `CreateIndex` on an already-indexed field returns an error and
leaves the collection (index registry and document store) unchanged. -/
theorem C8_create_index_exists_error (c : Collection) (f : String) (ord : Nat)
    (h : c.HasIndex f = true) :
    ((c.CreateIndex f ord).2).isSome = true ∧ (c.CreateIndex f ord).1 = c := by
  simp [Collection.CreateIndex, h]

def collC8 : Collection :=
  { Name := "db", Data := [], Indexes := [("age", NewBPlusTree 4)] }

theorem C8_create_index_exists_error_witness :
    collC8.HasIndex "age" = true ∧
    (((collC8.CreateIndex "age" 7).2).isSome = true ∧
      (collC8.CreateIndex "age" 7).1 = collC8) :=
  ⟨by decide, C8_create_index_exists_error collC8 "age" 7 (by decide)⟩

theorem find?_eq_none_of_any_false {α : Type} (p : α → Bool) (l : List α)
    (h : List.any l p = false) : List.find? p l = none := by
  rw [List.find?_eq_none]
  intro x hx hpx
  rw [List.any_eq_false] at h
  exact h x hx hpx

theorem find?_append_none {α : Type} (p : α → Bool) (l1 l2 : List α)
    (h : List.find? p l1 = none) : List.find? p (l1 ++ l2) = List.find? p l2 := by
  induction l1 with
  | nil => rfl
  | cons a l ih =>
    rw [List.find?_cons] at h
    rw [List.cons_append, List.find?_cons]
    cases hp : p a with
    | true => rw [hp] at h; simp at h
    | false =>
      rw [hp] at h
      simp only [hp]
      exact ih h

/-- the loaded order always equals the file's order field. -/
theorem deserializeBTree_order (file : IndexFile) :
    (deserializeBTree file).order = file.order := by
  rcases file with ⟨fn, ord, nodes⟩
  cases nodes <;> rfl

/-- C10: after `CreateIndex(f, ord)` with any order, the index file that
`SaveIndex` writes carries order 64 (`serializeBTree(btree, fieldName, 64)`
is called with a literal 64), so `LoadIndex` reloads the tree with order
64 regardless of `ord`. -/
theorem C10_saveindex_order_64 (c : Collection) (f : String) (ord : Nat)
    (h : c.HasIndex f = false) :
    ∃ file, ((c.CreateIndex f ord).1).saveIndexFile f = some file ∧
      file.order = 64 ∧ (deserializeBTree file).order = 64 := by
  refine ⟨serializeBTree (indexDocs c.All f (NewBPlusTree ord)) (strBytes f) 64,
    ?_, ?_, ?_⟩
  case refine_2 => simp [serializeBTree]
  case refine_3 => rw [deserializeBTree_order]; simp [serializeBTree]
  unfold Collection.CreateIndex
  rw [if_neg (by rw [h]; simp)]
  unfold Collection.saveIndexFile Collection.GetIndex
  have hn : List.find? (fun p => p.1 == f) c.Indexes = none := by
    apply find?_eq_none_of_any_false
    exact h
  rw [find?_append_none _ _ _ hn]
  rw [List.find?_cons]
  simp

theorem C10_saveindex_order_64_witness :
    ∃ file, (((NewCollection "db").CreateIndex "age" 7).1).saveIndexFile "age"
        = some file ∧ file.order = 64 ∧ (deserializeBTree file).order = 64 :=
  C10_saveindex_order_64 (NewCollection "db") "age" 7 (by decide)

/-
=====================  C2: post-delete index invariant  =====================
-/

/-- the (encoded key, docID) pairs an index-building scan inserts. -/
def pairsOf (docs : List Doc) (f : String) : List (Key × BVal) :=
  docs.filterMap (fun d =>
    match getField d f with
    | some v =>
        match getField d "_id" with
        | some (.vstr id) => some (ValueToKey v, id)
        | _ => none
    | none => none)

theorem indexDocs_foldl (docs : List Doc) (f : String) :
    ∀ t : BTree, indexDocs docs f t
      = (pairsOf docs f).foldl (fun t kv => t.Insert kv.1 kv.2) t := by
  induction docs with
  | nil => intro t; rfl
  | cons d docs ih =>
    intro t
    have hstep : indexDocs (d :: docs) f t = indexDocs docs f
        (match getField d f with
         | some v =>
             match getField d "_id" with
             | some (.vstr id) => BTree.Insert t (ValueToKey v) id
             | _ => t
         | none => t) := rfl
    rw [hstep]
    rcases hv : getField d f with _ | v
    · simp only [pairsOf, List.filterMap_cons, hv]
      exact ih t
    · rcases hid : getField d "_id" with _ | w
      · simp only [pairsOf, List.filterMap_cons, hv, hid]
        exact ih t
      · cases w with
        | vstr id =>
          simp only [pairsOf, List.filterMap_cons, hv, hid, List.foldl_cons]
          exact ih (BTree.Insert t (ValueToKey v) id)
        | vnull =>
          simp only [pairsOf, List.filterMap_cons, hv, hid]
          exact ih t
        | vbool b =>
          simp only [pairsOf, List.filterMap_cons, hv, hid]
          exact ih t
        | vint i =>
          simp only [pairsOf, List.filterMap_cons, hv, hid]
          exact ih t

theorem indexDocs_eq_buildTree (docs : List Doc) (f : String) (ord : Nat) :
    indexDocs docs f (NewBPlusTree ord) = buildTree ord (pairsOf docs f) :=
  indexDocs_foldl docs f (NewBPlusTree ord)

theorem flattenE_foldl_perm :
    ∀ (ins : List (Key × BVal)) (m : List (Key × List BVal)),
    (flattenE (ins.foldl (fun m kv => insertInLeaf kv.1 kv.2 m) m)).Perm
      (ins ++ flattenE m) := by
  intro ins
  induction ins with
  | nil => intro m; simp
  | cons kv ins ih =>
    intro m
    rw [List.foldl_cons]
    refine (ih (insertInLeaf kv.1 kv.2 m)).trans ?_
    refine (List.Perm.append_left ins (flattenE_insertInLeaf_perm kv.1 kv.2 m)).trans ?_
    exact List.perm_middle

theorem flattenE_modelOf_perm (ins : List (Key × BVal)) :
    (flattenE (modelOf ins)).Perm ins := by
  have h := flattenE_foldl_perm ins []
  simpa [modelOf, flattenE] using h

theorem mem_flattenE {es : List (Key × List BVal)} {k : Key} {v : BVal} :
    (k, v) ∈ flattenE es ↔ ∃ e ∈ es, e.1 = k ∧ v ∈ e.2 := by
  simp only [flattenE, List.mem_flatten, List.mem_map]
  constructor
  · rintro ⟨l, ⟨e, he, rfl⟩, hm⟩
    obtain ⟨w, hw, hwe⟩ := List.mem_map.mp hm
    obtain ⟨h1, h2⟩ := Prod.mk.injEq .. ▸ hwe
    exact ⟨e, he, h1.symm ▸ rfl, h2 ▸ hw⟩
  · rintro ⟨e, he, h1, h2⟩
    exact ⟨e.2.map (fun w => (e.1, w)), ⟨e, he, rfl⟩,
      List.mem_map.mpr ⟨v, h2, by rw [h1]⟩⟩

theorem mem_flattenE_key {es : List (Key × List BVal)} {k : Key} {v : BVal}
    (h : (k, v) ∈ flattenE es) : k ∈ keysOf es := by
  obtain ⟨e, he, h1, _⟩ := mem_flattenE.mp h
  exact h1 ▸ List.mem_map.mpr ⟨e, he, rfl⟩

theorem mem_lookupE_iff :
    ∀ (es : List (Key × List BVal)), List.Chain' keyLt (keysOf es) →
    ∀ (k : Key) (v : BVal), (v ∈ lookupE es k ↔ (k, v) ∈ flattenE es) := by
  intro es
  induction es with
  | nil => intro _ k v; simp [lookupE, flattenE]
  | cons e es ih =>
    intro hs k v
    obtain ⟨k1, vs⟩ := e
    have hk : keysOf ((k1, vs) :: es) = k1 :: keysOf es := rfl
    rw [hk] at hs
    have hs2 : List.Chain' keyLt (keysOf es) := hs.tail
    rw [lookupE_cons, flattenE_cons]
    by_cases hkeq : k1 = k
    · subst hkeq
      rw [if_pos rfl]
      simp only [List.mem_append]
      constructor
      · intro hv
        exact Or.inl (List.mem_map.mpr ⟨v, hv, rfl⟩)
      · intro hor
        rcases hor with h1 | h2
        · obtain ⟨w, hw, hwe⟩ := List.mem_map.mp h1
          obtain ⟨_, h4⟩ := Prod.mk.injEq .. ▸ hwe
          exact h4 ▸ hw
        · exfalso
          have hkey := mem_flattenE_key h2
          have := sorted_cons_keys hs k1 hkey
          unfold keyLt at this
          rw [keyCmp_self] at this
          exact absurd this (by simp)
    · rw [if_neg hkeq]
      rw [ih hs2 k v]
      simp only [List.mem_append]
      constructor
      · intro h2; exact Or.inr h2
      · intro hor
        rcases hor with h1 | h2
        · obtain ⟨w, hw, hwe⟩ := List.mem_map.mp h1
          obtain ⟨h3, _⟩ := Prod.mk.injEq .. ▸ hwe
          exact absurd h3 hkeq
        · exact h2

/-- membership-level Search characterization of a tree built by inserts. -/
theorem mem_Search_buildTree (ord : Nat) (hord : 1 ≤ ord)
    (ins : List (Key × BVal)) (k : Key) (v : BVal) :
    v ∈ (buildTree ord ins).Search k ↔ (k, v) ∈ ins := by
  obtain ⟨hwf, hent, _⟩ := buildTree_wf ord hord ins
  rw [Search_eq_lookup hwf, hent]
  rw [mem_lookupE_iff (modelOf ins) (by rw [← hent]; exact wfb_sorted hwf) k v]
  exact (flattenE_modelOf_perm ins).mem_iff

/-- C2: after the delete command completes (match-and-remove, then
`RebuildAllIndexes`), every index registered for a field `f` contains a
(key(d[f]), d._id) association exactly for the documents `d` remaining in
the store in which `f` is present, and no association to a document id
absent from the store. -/
theorem C2_delete_rebuild_invariant (c : Collection) (conds : Conditions)
    (f : String) (t : BTree)
    (hmem : (f, t) ∈ (cmdDelete c conds).Indexes) :
    (∀ d ∈ (cmdDelete c conds).All, ∀ v, getField d f = some v →
       ∀ id, getField d "_id" = some (.vstr id) →
       id ∈ t.Search (ValueToKey v)) ∧
    (∀ k id, id ∈ t.Search k →
       ∃ d ∈ (cmdDelete c conds).All, getField d "_id" = some (.vstr id) ∧
         ∃ v, getField d f = some v ∧ ValueToKey v = k) := by
  have hAll : (cmdDelete c conds).All = (deleteMatching c conds).All := rfl
  have hIdx : (cmdDelete c conds).Indexes
      = (List.map Prod.fst (deleteMatching c conds).Indexes).map
          (fun g => (g, indexDocs (deleteMatching c conds).All g (NewBPlusTree 64))) := rfl
  rw [hIdx] at hmem
  obtain ⟨g, hg, heq⟩ := List.mem_map.mp hmem
  rw [Prod.mk.injEq] at heq
  obtain ⟨hgf, hgt⟩ := heq
  subst hgf
  subst hgt
  rw [hAll]
  rw [indexDocs_eq_buildTree]
  constructor
  · intro d hd v hv id hid
    rw [mem_Search_buildTree 64 (by omega)]
    apply List.mem_filterMap.mpr
    refine ⟨d, hd, ?_⟩
    simp only [hv, hid]
  · intro k id hsearch
    rw [mem_Search_buildTree 64 (by omega)] at hsearch
    obtain ⟨d, hd, hfd⟩ := List.mem_filterMap.mp hsearch
    refine ⟨d, hd, ?_⟩
    rcases hv : getField d g with _ | v
    · rw [hv] at hfd; simp at hfd
    · rcases hid : getField d "_id" with _ | w
      · rw [hv, hid] at hfd; simp at hfd
      · cases w with
        | vstr id2 =>
          rw [hv, hid] at hfd
          simp only [Option.some.injEq, Prod.mk.injEq] at hfd
          obtain ⟨h1, h2⟩ := hfd
          exact ⟨h2 ▸ rfl, v, rfl, h1⟩
        | vnull => rw [hv, hid] at hfd; simp at hfd
        | vbool b => rw [hv, hid] at hfd; simp at hfd
        | vint i => rw [hv, hid] at hfd; simp at hfd

def collC2 : Collection :=
  { Name := "db", Data := [], Indexes := [("age", NewBPlusTree 4)] }

theorem C2_delete_rebuild_invariant_witness :
    ("age", NewBPlusTree 64) ∈ (cmdDelete collC2 []).Indexes ∧
    ((∀ d ∈ (cmdDelete collC2 []).All, ∀ v, getField d "age" = some v →
        ∀ id, getField d "_id" = some (.vstr id) →
        id ∈ (NewBPlusTree 64).Search (ValueToKey v)) ∧
     (∀ k id, id ∈ (NewBPlusTree 64).Search k →
        ∃ d ∈ (cmdDelete collC2 []).All, getField d "_id" = some (.vstr id) ∧
          ∃ v, getField d "age" = some v ∧ ValueToKey v = k)) :=
  ⟨List.mem_cons_self _ _,
   C2_delete_rebuild_invariant collC2 [] "age" (NewBPlusTree 64)
     (List.mem_cons_self _ _)⟩

/-
=====================  C5: planner path choice  =============================
-/

theorem getIndex_isSome_of_hasIndex {c : Collection} {f : String}
    (h : c.HasIndex f = true) : ∃ t, c.GetIndex f = some t := by
  unfold Collection.HasIndex at h
  unfold Collection.GetIndex
  rcases hfind : List.find? (fun p => p.1 == f) c.Indexes with _ | p
  · rw [List.find?_eq_none] at hfind
    rw [List.any_eq_true] at h
    obtain ⟨x, hx, hpx⟩ := h
    exact absurd hpx (hfind x hx)
  · exact ⟨p.2, by rw [hfind]; rfl⟩

/-- C5: the find command takes the index path exactly when the query has a
single top-level condition whose key is not `$or`/`$and` and whose field
has an index; and when that single condition's comparator mapping holds
none of the supported operators `$gt`/`$lt`/`$eq`/`$in` (e.g. only `$gte`,
`$lte`, `$like`), the returned result equals the full scan's. -/
theorem C5_planner_choice (c : Collection) (q : Query) :
    ((cmdFindPath c q).isSome = true ↔
      ∃ f cond, q.Conditions = [(f, cond)] ∧ f ≠ "$or" ∧ f ≠ "$and" ∧
        c.HasIndex f = true) ∧
    (∀ f m, q.Conditions = [(f, .ops m)] → f ≠ "$or" → f ≠ "$and" →
       c.HasIndex f = true →
       lookupOp m "$gt" = none → lookupOp m "$lt" = none →
       lookupOp m "$eq" = none → lookupOp m "$in" = none →
       cmdFind c q = findFullScan c q) := by
  constructor
  · constructor
    · intro hsome
      unfold cmdFindPath at hsome
      by_cases hcnd : (q.Conditions.length == 1 && !hasLogicalOperators q.Conditions) = true
      · rw [if_pos hcnd] at hsome
        rcases hqc : q.Conditions with _ | ⟨kv, rest⟩
        · rw [hqc] at hsome; simp at hsome
        · rw [hqc] at hsome
          rw [hqc] at hcnd
          simp only [Bool.and_eq_true, beq_iff_eq, Bool.not_eq_true'] at hcnd
          obtain ⟨hlen, hlog⟩ := hcnd
          have hrest : rest = [] := by
            rw [List.length_cons] at hlen
            cases rest with
            | nil => rfl
            | cons a r => simp at hlen
          subst hrest
          have hsome2 : (if c.HasIndex kv.1 = true
              then some (findWithIndex c kv.1 kv.2) else none).isSome = true := hsome
          by_cases hidx : c.HasIndex kv.1 = true
          · refine ⟨kv.1, kv.2, rfl, ?_, ?_, hidx⟩
            · intro hor
              rw [hasLogicalOperators] at hlog
              simp only [List.any_cons, List.any_nil] at hlog
              rw [hor] at hlog
              simp at hlog
            · intro hand
              rw [hasLogicalOperators] at hlog
              simp only [List.any_cons, List.any_nil] at hlog
              rw [hand] at hlog
              simp at hlog
          · rw [if_neg hidx] at hsome2
            simp at hsome2
      · rw [if_neg hcnd] at hsome
        simp at hsome
    · rintro ⟨f, cond, hqc, hor, hand, hidx⟩
      unfold cmdFindPath
      rw [hqc]
      have h1 : ((([(f, cond)] : Conditions)).length == 1
          && !hasLogicalOperators [(f, cond)]) = true := by
        simp [hasLogicalOperators, hor, hand]
      rw [if_pos h1]
      show (if c.HasIndex f = true
          then some (findWithIndex c f cond) else none).isSome = true
      rw [hidx]
      simp
  · intro f m hqc hor hand hidx hgt hlt heq hin
    obtain ⟨btree, hbt⟩ := getIndex_isSome_of_hasIndex hidx
    have hwi : findWithIndex c f (.ops m) = [] := by
      unfold findWithIndex
      rw [hbt]
      simp only [hgt, hlt, heq, hin]
      rfl
    have hpath : cmdFindPath c q = some (findWithIndex c f (.ops m)) := by
      unfold cmdFindPath
      rw [hqc]
      have h1 : ((([(f, CondVal.ops m)] : Conditions)).length == 1
          && !hasLogicalOperators [(f, CondVal.ops m)]) = true := by
        simp [hasLogicalOperators, hor, hand]
      rw [if_pos h1]
      show (if c.HasIndex f = true
          then some (findWithIndex c f (.ops m)) else none)
        = some (findWithIndex c f (.ops m))
      rw [hidx]
      simp
    unfold cmdFind
    rw [hpath, hwi]
    rfl

def collC5 : Collection :=
  { Name := "db", Data := [], Indexes := [("age", NewBPlusTree 64)] }

def qC5 : Query := ⟨[("age", CondVal.ops [("$gte", .oval (.vint 5))])]⟩

theorem C5_planner_choice_witness :
    (cmdFindPath collC5 qC5).isSome = true ∧
    cmdFind collC5 qC5 = findFullScan collC5 qC5 :=
  ⟨(C5_planner_choice collC5 qC5).1.mpr
     ⟨"age", CondVal.ops [("$gte", .oval (.vint 5))], rfl,
      by decide, by decide, by decide⟩,
   (C5_planner_choice collC5 qC5).2 "age" [("$gte", .oval (.vint 5))] rfl
     (by decide) (by decide) (by decide) rfl rfl rfl rfl⟩

/-
=====================  C1: index/scan equivalence  ==========================
-/

/-- the document as stored by `Collection.Insert`: `_id` stamped in. -/
def storeDoc (dv : List Nat × Doc) : Doc := setField dv.2 "_id" (.vstr dv.1)

/-- the (encoded key, docID) pairs contributed to the index on `f` by
inserting `docs` in order. -/
def insOf (f : String) (docs : List (List Nat × Doc)) : List (Key × BVal) :=
  docs.filterMap (fun dv =>
    (getField (storeDoc dv) f).map (fun v => (ValueToKey v, dv.1)))

/-- the collection produced by `create_index` on a fresh collection
followed by a sequence of inserts (ids made explicit, §6). -/
def mkColl (name f : String) (docs : List (List Nat × Doc)) : Collection :=
  docs.foldl (fun c dv => c.Insert dv.1 dv.2)
    (((NewCollection name).CreateIndex f 64).1)

theorem find_setAll (d : Doc) (f : String) (v : Val) :
    getField (List.map (fun p => if p.1 == f then (f, v) else p) d) f
      = if List.any d (fun p => p.1 == f) then some v else none := by
  induction d with
  | nil => rfl
  | cons p d ih =>
    rw [List.map_cons, List.any_cons]
    by_cases hp : (p.1 == f) = true
    · rw [if_pos hp]
      unfold getField
      rw [List.find?_cons_of_pos _ (by simp)]
      simp [hp]
    · rw [if_neg hp]
      unfold getField at ih ⊢
      rw [List.find?_cons_of_neg _ (by simpa using hp)]
      rw [ih]
      have hp2 : (p.1 == f) = false := by simpa using hp
      rw [hp2]
      rfl

theorem getField_setField_self (d : Doc) (f : String) (v : Val) :
    getField (setField d f v) f = some v := by
  unfold setField
  by_cases h : List.any d (fun p => p.1 == f) = true
  · rw [if_pos h]
    rw [find_setAll, if_pos h]
  · rw [if_neg h]
    unfold getField
    have hn : List.find? (fun p => p.1 == f) d = none :=
      find?_eq_none_of_any_false _ _ (by simpa only [Bool.not_eq_true] using h)
    rw [find?_append_none _ _ _ hn]
    rw [List.find?_cons]
    simp

/-- store/index shape of a fold of `Insert`s over fresh, distinct ids. -/
theorem foldl_insert_spec (f : String) :
    ∀ (docs : List (List Nat × Doc)) (c0 : Collection) (t0 : BTree),
    c0.Indexes = [(f, t0)] →
    (docs.map Prod.fst).Nodup →
    (∀ dv ∈ docs, List.any c0.Data (fun p => p.1 == dv.1) = false) →
    (docs.foldl (fun c dv => c.Insert dv.1 dv.2) c0).Data
      = c0.Data ++ docs.map (fun dv => (dv.1, storeDoc dv)) ∧
    (docs.foldl (fun c dv => c.Insert dv.1 dv.2) c0).Indexes
      = [(f, (insOf f docs).foldl (fun t kv => t.Insert kv.1 kv.2) t0)] := by
  intro docs
  induction docs with
  | nil =>
    intro c0 t0 hidx hnd hfresh
    exact ⟨by simp, by simpa using hidx⟩
  | cons dv docs ih =>
    intro c0 t0 hidx hnd hfresh
    rw [List.foldl_cons]
    have hfresh0 : List.any c0.Data (fun p => p.1 == dv.1) = false :=
      hfresh dv (List.mem_cons_self _ _)
    have hnd2 : (docs.map Prod.fst).Nodup := by
      rw [List.map_cons] at hnd
      exact hnd.of_cons
    have hne : ∀ dv2 ∈ docs, ¬ dv2.1 = dv.1 := by
      intro dv2 h2 heq2
      rw [List.map_cons] at hnd
      rw [List.nodup_cons] at hnd
      exact hnd.1 (heq2 ▸ List.mem_map.mpr ⟨dv2, h2, rfl⟩)
    have hc1data : (c0.Insert dv.1 dv.2).Data = c0.Data ++ [(dv.1, storeDoc dv)] := by
      show (c0.Data.Put dv.1 (storeDoc dv)) = _
      unfold HashMap.Put
      rw [if_neg (by rw [hfresh0]; simp)]
    have hstep : (c0.Insert dv.1 dv.2).Indexes
        = List.map (fun ft =>
            match getField (storeDoc dv) ft.1 with
            | some v => (ft.1, BTree.Insert ft.2 (ValueToKey v) dv.1)
            | none => ft) c0.Indexes := rfl
    have hc1idx : (c0.Insert dv.1 dv.2).Indexes
        = [(f, match getField (storeDoc dv) f with
               | some v => BTree.Insert t0 (ValueToKey v) dv.1
               | none => t0)] := by
      rw [hstep, hidx]
      simp only [List.map_cons, List.map_nil]
      rcases hv : getField (storeDoc dv) f with _ | v
      · simp [hv]
      · simp [hv]
    have hfresh2 : ∀ dv2 ∈ docs,
        List.any (c0.Insert dv.1 dv.2).Data (fun p => p.1 == dv2.1) = false := by
      intro dv2 h2
      rw [hc1data, List.any_append]
      have ha : List.any c0.Data (fun p => p.1 == dv2.1) = false :=
        hfresh dv2 (List.mem_cons_of_mem _ h2)
      rw [ha]
      simp only [List.any_cons, List.any_nil]
      have : (dv.1 == dv2.1) = false := by
        rw [beq_eq_false_iff_ne]
        intro heq2
        exact hne dv2 h2 heq2.symm
      rw [this]
      rfl
    obtain ⟨hd, hi⟩ := ih (c0.Insert dv.1 dv.2)
      (match getField (storeDoc dv) f with
       | some v => BTree.Insert t0 (ValueToKey v) dv.1
       | none => t0) hc1idx hnd2 hfresh2
    refine ⟨?_, ?_⟩
    · rw [hd, hc1data]
      simp
    · rw [hi]
      have hins : insOf f (dv :: docs)
          = match getField (storeDoc dv) f with
            | some v => (ValueToKey v, dv.1) :: insOf f docs
            | none => insOf f docs := by
        unfold insOf
        rw [List.filterMap_cons]
        rcases hv : getField (storeDoc dv) f with _ | v
        · simp [hv]
        · simp [hv]
      rw [hins]
      rcases hv : getField (storeDoc dv) f with _ | v
      · simp [hv]
      · simp [hv]

theorem eq_of_fst_nodup {α β : Type} {l : List (α × β)}
    (hnd : (l.map Prod.fst).Nodup) {x y : α × β}
    (hx : x ∈ l) (hy : y ∈ l) (hfst : x.1 = y.1) : x = y := by
  induction l with
  | nil => simp at hx
  | cons a l ih =>
    rw [List.map_cons, List.nodup_cons] at hnd
    rcases List.mem_cons.mp hx with rfl | hx2
    · rcases List.mem_cons.mp hy with rfl | hy2
      · rfl
      · exact absurd (hfst ▸ List.mem_map.mpr ⟨y, hy2, rfl⟩) hnd.1
    · rcases List.mem_cons.mp hy with rfl | hy2
      · exact absurd (hfst ▸ List.mem_map.mpr ⟨x, hx2, rfl⟩) hnd.1
      · exact ih hnd.2 hx2 hy2

theorem eq_of_snd_nodup {α β : Type} {l : List (α × β)}
    (hnd : (l.map Prod.snd).Nodup) {x y : α × β}
    (hx : x ∈ l) (hy : y ∈ l) (hsnd : x.2 = y.2) : x = y := by
  induction l with
  | nil => simp at hx
  | cons a l ih =>
    rw [List.map_cons, List.nodup_cons] at hnd
    rcases List.mem_cons.mp hx with rfl | hx2
    · rcases List.mem_cons.mp hy with rfl | hy2
      · rfl
      · exact absurd (hsnd ▸ List.mem_map.mpr ⟨y, hy2, rfl⟩) hnd.1
    · rcases List.mem_cons.mp hy with rfl | hy2
      · exact absurd (hsnd ▸ List.mem_map.mpr ⟨x, hx2, rfl⟩) hnd.1
      · exact ih hnd.2 hx2 hy2

theorem get_some_iff_mem {m : HashMap} (hnd : (m.map Prod.fst).Nodup)
    (id : List Nat) (doc : Doc) :
    m.Get id = some doc ↔ (id, doc) ∈ m := by
  constructor
  · intro h
    unfold HashMap.Get at h
    rcases hfind : List.find? (fun p => p.1 == id) m with _ | p
    · rw [hfind] at h; exact Option.noConfusion h
    · rw [hfind] at h
      have hm := List.mem_of_find?_eq_some hfind
      have hp := List.find?_some hfind
      have h2 : p.2 = doc := Option.some.inj h
      have hkey : p.1 = id := by simpa using hp
      have hpair : p = (id, doc) := Prod.ext hkey h2
      exact hpair ▸ hm
  · intro h
    induction m with
    | nil => simp at h
    | cons q m ih =>
      rw [List.map_cons, List.nodup_cons] at hnd
      rcases List.mem_cons.mp h with rfl | h2
      · unfold HashMap.Get
        rw [List.find?_cons_of_pos _ (by simp)]
        rfl
      · have hq : (q.1 == id) = false := by
          rw [beq_eq_false_iff_ne]
          intro heq
          exact hnd.1 (heq ▸ List.mem_map.mpr ⟨(id, doc), h2, rfl⟩)
        unfold HashMap.Get at ih ⊢
        rw [List.find?_cons_of_neg _ (by simp [hq])]
        exact ih hnd.2 h2

theorem mkColl_spec (name f : String) (docs : List (List Nat × Doc))
    (hnd : (docs.map Prod.fst).Nodup) :
    (mkColl name f docs).Data = docs.map (fun dv => (dv.1, storeDoc dv)) ∧
    (mkColl name f docs).Indexes = [(f, buildTree 64 (insOf f docs))] := by
  have hc0idx : (((NewCollection name).CreateIndex f 64).1).Indexes
      = [(f, NewBPlusTree 64)] := rfl
  have hc0data : (((NewCollection name).CreateIndex f 64).1).Data = [] := rfl
  obtain ⟨hd, hi⟩ := foldl_insert_spec f docs _ (NewBPlusTree 64) hc0idx hnd
    (by intro dv _; rw [hc0data]; rfl)
  constructor
  · show (mkColl name f docs).Data = _
    rw [show (mkColl name f docs).Data
        = (docs.foldl (fun c dv => c.Insert dv.1 dv.2)
            (((NewCollection name).CreateIndex f 64).1)).Data from rfl]
    rw [hd, hc0data]
    rfl
  · rw [show (mkColl name f docs).Indexes
        = (docs.foldl (fun c dv => c.Insert dv.1 dv.2)
            (((NewCollection name).CreateIndex f 64).1)).Indexes from rfl]
    rw [hi]
    rfl

theorem mkColl_all (name f : String) (docs : List (List Nat × Doc))
    (hnd : (docs.map Prod.fst).Nodup) :
    (mkColl name f docs).All = docs.map storeDoc := by
  show ((mkColl name f docs).Data).Items = _
  rw [(mkColl_spec name f docs hnd).1]
  unfold HashMap.Items
  rw [List.map_map]
  rfl

theorem mkColl_getIndex (name f : String) (docs : List (List Nat × Doc))
    (hnd : (docs.map Prod.fst).Nodup) :
    (mkColl name f docs).GetIndex f = some (buildTree 64 (insOf f docs)) := by
  unfold Collection.GetIndex
  rw [(mkColl_spec name f docs hnd).2]
  rw [List.find?_cons_of_pos _ (by simp)]
  rfl

/-- index-side pipeline: fetched documents are the stored docs whose id
the search returned. -/
theorem filterMap_getByID_mem (name f : String) (docs : List (List Nat × Doc))
    (hnd : (docs.map Prod.fst).Nodup) (docIDs : List BVal) (d : Doc) :
    d ∈ docIDs.filterMap (fun id => (mkColl name f docs).GetByID id) ↔
      ∃ dv ∈ docs, storeDoc dv = d ∧ dv.1 ∈ docIDs := by
  have hdata := (mkColl_spec name f docs hnd).1
  have hndk : (((mkColl name f docs).Data).map Prod.fst).Nodup := by
    rw [hdata, List.map_map]
    have : (Prod.fst ∘ fun dv => (dv.1, storeDoc dv)) = (Prod.fst : List Nat × Doc → List Nat) := rfl
    rw [this]
    exact hnd
  rw [List.mem_filterMap]
  constructor
  · rintro ⟨id, hid, hget⟩
    have hmem : (id, d) ∈ (mkColl name f docs).Data :=
      (get_some_iff_mem hndk id d).mp hget
    rw [hdata] at hmem
    obtain ⟨dv, hdv, heq⟩ := List.mem_map.mp hmem
    rw [Prod.mk.injEq] at heq
    exact ⟨dv, hdv, heq.2, heq.1 ▸ hid⟩
  · rintro ⟨dv, hdv, hs, hid⟩
    refine ⟨dv.1, hid, ?_⟩
    apply (get_some_iff_mem hndk dv.1 d).mpr
    rw [hdata]
    exact List.mem_map.mpr ⟨dv, hdv, by rw [hs]⟩

/-- membership of a pair in the index-build input list. -/
theorem mem_insOf {f : String} {docs : List (List Nat × Doc)} {k : Key} {id : BVal} :
    (k, id) ∈ insOf f docs ↔
      ∃ dv ∈ docs, dv.1 = id ∧ ∃ v, getField (storeDoc dv) f = some v ∧ ValueToKey v = k := by
  unfold insOf
  rw [List.mem_filterMap]
  constructor
  · rintro ⟨dv, hdv, heq⟩
    rcases hv : getField (storeDoc dv) f with _ | v
    · rw [hv] at heq; exact Option.noConfusion heq
    · rw [hv] at heq
      have heq2 : (ValueToKey v, dv.1) = (k, id) := Option.some.inj heq
      rw [Prod.mk.injEq] at heq2
      exact ⟨dv, hdv, heq2.2, v, hv, heq2.1⟩
  · rintro ⟨dv, hdv, hid, v, hv, hk⟩
    refine ⟨dv, hdv, ?_⟩
    rw [hv]
    show some (ValueToKey v, dv.1) = some (k, id)
    rw [hk, hid]

/-- with distinct ids, the pair for a particular inserted document. -/
theorem mem_insOf_self {f : String} {docs : List (List Nat × Doc)}
    (hnd : (docs.map Prod.fst).Nodup) {dv : List Nat × Doc} (hdv : dv ∈ docs)
    {k : Key} :
    (k, dv.1) ∈ insOf f docs ↔
      ∃ v, getField (storeDoc dv) f = some v ∧ ValueToKey v = k := by
  rw [mem_insOf]
  constructor
  · rintro ⟨dv2, hdv2, hid, v, hv, hk⟩
    have : dv2 = dv := eq_of_fst_nodup hnd hdv2 hdv hid
    exact ⟨v, this ▸ hv, hk⟩
  · rintro ⟨v, hv, hk⟩
    exact ⟨dv, hdv, rfl, v, hv, hk⟩

/-- scan-side pipeline: full-scan results are the stored docs whose single
field condition matches (top-level key neither `$or` nor `$and`). -/
theorem findFullScan_mem (name f : String) (docs : List (List Nat × Doc))
    (hnd : (docs.map Prod.fst).Nodup) (cond : CondVal)
    (hor : f ≠ "$or") (hand : f ≠ "$and") (d : Doc) :
    d ∈ findFullScan (mkColl name f docs) ⟨[(f, cond)]⟩ ↔
      ∃ dv ∈ docs, storeDoc dv = d ∧ matchField (storeDoc dv) f cond = true := by
  unfold findFullScan
  rw [mkColl_all name f docs hnd]
  rw [List.mem_filter]
  have hmd : ∀ d2 : Doc, MatchDocument d2 [(f, cond)] = matchField d2 f cond := by
    intro d2
    rw [MatchDocument, MatchDocument]
    have h1 : (f == "$and") = false := by rw [beq_eq_false_iff_ne]; exact hand
    have h2 : (f == "$or") = false := by rw [beq_eq_false_iff_ne]; exact hor
    simp [h1, h2]
  rw [hmd]
  constructor
  · rintro ⟨hmem, hmatch⟩
    obtain ⟨dv, hdv, heq⟩ := List.mem_map.mp hmem
    exact ⟨dv, hdv, heq, by rw [heq]; exact hmatch⟩
  · rintro ⟨dv, hdv, heq, hmatch⟩
    exact ⟨List.mem_map.mpr ⟨dv, hdv, heq⟩, heq ▸ hmatch⟩

/-- membership form of range search on a built tree. -/
theorem mem_RangeSearch_buildTree (ord : Nat) (hord : 1 ≤ ord)
    (ins : List (Key × BVal)) (lo hi : Option Key) (il ihb : Bool) (id : BVal) :
    id ∈ (buildTree ord ins).RangeSearch lo hi il ihb ↔
      ∃ k, (k, id) ∈ ins ∧ rangePred lo hi il ihb k = true := by
  obtain ⟨hwf, hent, _⟩ := buildTree_wf ord hord ins
  rw [RangeSearch_eq_filter hwf, hent]
  constructor
  · intro h
    rw [List.mem_flatten] at h
    obtain ⟨l, hl, hid⟩ := h
    obtain ⟨e, he, rfl⟩ := List.mem_map.mp hl
    rw [List.mem_filter] at he
    refine ⟨e.1, ?_, he.2⟩
    rw [← (flattenE_modelOf_perm ins).mem_iff]
    exact mem_flattenE.mpr ⟨e, he.1, rfl, hid⟩
  · rintro ⟨k, hk, hp⟩
    rw [← (flattenE_modelOf_perm ins).mem_iff] at hk
    obtain ⟨e, he, hek, hid⟩ := mem_flattenE.mp hk
    rw [List.mem_flatten]
    exact ⟨e.2, List.mem_map.mpr ⟨e, List.mem_filter.mpr ⟨he, by rw [hek]; exact hp⟩, rfl⟩, hid⟩

/-- membership form of multi-point search. -/
theorem mem_SearchIn_buildTree (ord : Nat) (hord : 1 ≤ ord)
    (ins : List (Key × BVal)) (keys : List Key) (id : BVal) :
    id ∈ (buildTree ord ins).SearchIn keys ↔
      ∃ k ∈ keys, (k, id) ∈ ins := by
  unfold BTree.SearchIn
  rw [List.mem_flatten]
  constructor
  · rintro ⟨l, hl, hid⟩
    obtain ⟨k, hk, rfl⟩ := List.mem_map.mp hl
    exact ⟨k, hk, (mem_Search_buildTree ord hord ins k id).mp hid⟩
  · rintro ⟨k, hk, hmem⟩
    exact ⟨(buildTree ord ins).Search k, List.mem_map.mpr ⟨k, hk, rfl⟩,
      (mem_Search_buildTree ord hord ins k id).mpr hmem⟩

/-- with duplicate-free inserted values, every entry's value list of the
model is duplicate-free and the lists are pairwise disjoint. -/
theorem modelOf_vals_nodup (ins : List (Key × BVal))
    (hsnd : (ins.map Prod.snd).Nodup) :
    (∀ l ∈ (modelOf ins).map (fun e => e.2), l.Nodup) ∧
    List.Pairwise List.Disjoint ((modelOf ins).map (fun e => e.2)) := by
  have hperm : ((flattenE (modelOf ins)).map Prod.snd).Perm (ins.map Prod.snd) :=
    (flattenE_modelOf_perm ins).map Prod.snd
  have hnodup : ((flattenE (modelOf ins)).map Prod.snd).Nodup :=
    hperm.nodup_iff.mpr hsnd
  have heq : (flattenE (modelOf ins)).map Prod.snd
      = ((modelOf ins).map (fun e => e.2)).flatten := by
    unfold flattenE
    rw [List.map_flatten, List.map_map]
    congr 1
    apply List.map_congr_left
    intro e _
    show (e.2.map (fun w => (e.1, w))).map Prod.snd = e.2
    rw [List.map_map]
    simp
  rw [heq, List.nodup_flatten] at hnodup
  exact hnodup

theorem search_buildTree_nodup (ord : Nat) (hord : 1 ≤ ord)
    (ins : List (Key × BVal)) (hsnd : (ins.map Prod.snd).Nodup) (k : Key) :
    ((buildTree ord ins).Search k).Nodup := by
  obtain ⟨hwf, hent, _⟩ := buildTree_wf ord hord ins
  rw [Search_eq_lookup hwf, hent]
  obtain ⟨hvals, _⟩ := modelOf_vals_nodup ins hsnd
  unfold lookupE
  rcases hf : List.find? (fun e => e.1 == k) (modelOf ins) with _ | e
  · rw [hf]; exact List.nodup_nil
  · rw [hf]; exact hvals e.2 (List.mem_map.mpr ⟨e, List.mem_of_find?_eq_some hf, rfl⟩)

theorem rangeSearch_buildTree_nodup (ord : Nat) (hord : 1 ≤ ord)
    (ins : List (Key × BVal)) (hsnd : (ins.map Prod.snd).Nodup)
    (lo hi : Option Key) (il ihb : Bool) :
    ((buildTree ord ins).RangeSearch lo hi il ihb).Nodup := by
  obtain ⟨hwf, hent, _⟩ := buildTree_wf ord hord ins
  rw [RangeSearch_eq_filter hwf, hent]
  obtain ⟨hvals, hdisj⟩ := modelOf_vals_nodup ins hsnd
  rw [List.nodup_flatten]
  have hsub : List.Sublist
      (((modelOf ins).filter (fun e => rangePred lo hi il ihb e.1)).map Prod.snd)
      ((modelOf ins).map (fun e => e.2)) :=
    (List.filter_sublist _).map Prod.snd
  constructor
  · intro l hl
    obtain ⟨e, he, rfl⟩ := List.mem_map.mp hl
    exact hvals e.2 (List.mem_map.mpr ⟨e, (List.mem_filter.mp he).1, rfl⟩)
  · exact hdisj.sublist hsub

theorem searchIn_buildTree_nodup (ord : Nat) (hord : 1 ≤ ord)
    (ins : List (Key × BVal)) (hsnd : (ins.map Prod.snd).Nodup)
    (keys : List Key) (hk : keys.Nodup) :
    ((buildTree ord ins).SearchIn keys).Nodup := by
  unfold BTree.SearchIn
  rw [List.nodup_flatten]
  constructor
  · intro l hl
    obtain ⟨k2, _, rfl⟩ := List.mem_map.mp hl
    exact search_buildTree_nodup ord hord ins hsnd k2
  · rw [List.pairwise_map]
    refine hk.imp ?_
    intro a b hab id hida hidb
    rw [mem_Search_buildTree ord hord] at hida hidb
    have : (a, id) = (b, id) := eq_of_snd_nodup hsnd hida hidb rfl
    rw [Prod.mk.injEq] at this
    exact hab this.1

theorem insOf_snd_sublist (f : String) (docs : List (List Nat × Doc)) :
    List.Sublist ((insOf f docs).map Prod.snd) (docs.map Prod.fst) := by
  induction docs with
  | nil => simp [insOf]
  | cons dv docs ih =>
    have hins : insOf f (dv :: docs)
        = match getField (storeDoc dv) f with
          | some v => (ValueToKey v, dv.1) :: insOf f docs
          | none => insOf f docs := by
      unfold insOf
      rw [List.filterMap_cons]
      rcases hv : getField (storeDoc dv) f with _ | v
      · simp [hv]
      · simp [hv]
    rw [hins, List.map_cons]
    rcases hv : getField (storeDoc dv) f with _ | v
    · exact ih.cons dv.1
    · rw [List.map_cons]
      exact ih.cons₂ dv.1

theorem storeDocs_nodup (docs : List (List Nat × Doc))
    (hnd : (docs.map Prod.fst).Nodup) : (docs.map storeDoc).Nodup := by
  have h1 : (docs.map (fun dv => getField (storeDoc dv) "_id")).Nodup := by
    have heq : docs.map (fun dv => getField (storeDoc dv) "_id")
        = (docs.map Prod.fst).map (fun id => some (Val.vstr id)) := by
      rw [List.map_map]
      apply List.map_congr_left
      intro dv _
      exact getField_setField_self dv.2 "_id" (.vstr dv.1)
    rw [heq]
    refine hnd.map ?_
    intro a b hab
    simpa using hab
  have heq3 : docs.map (fun dv => getField (storeDoc dv) "_id")
      = (docs.map storeDoc).map (fun d => getField d "_id") := by
    rw [List.map_map]
    rfl
  rw [heq3] at h1
  exact h1.of_map _

/-- the fetched documents of a duplicate-free id list are duplicate-free. -/
theorem filterMap_getByID_nodup (name f : String) (docs : List (List Nat × Doc))
    (hnd : (docs.map Prod.fst).Nodup) (docIDs : List BVal)
    (hids : docIDs.Nodup) :
    (docIDs.filterMap (fun id => (mkColl name f docs).GetByID id)).Nodup := by
  refine List.Nodup.filterMap ?_ hids
  intro a b d hda hdb
  simp only [Option.mem_def] at hda hdb
  have hdata := (mkColl_spec name f docs hnd).1
  have hndk : (((mkColl name f docs).Data).map Prod.fst).Nodup := by
    rw [hdata, List.map_map]
    exact hnd
  have hma := (get_some_iff_mem hndk a d).mp hda
  have hmb := (get_some_iff_mem hndk b d).mp hdb
  rw [hdata] at hma hmb
  obtain ⟨dva, _, heqa⟩ := List.mem_map.mp hma
  obtain ⟨dvb, _, heqb⟩ := List.mem_map.mp hmb
  rw [Prod.mk.injEq] at heqa heqb
  have ha : getField d "_id" = some (.vstr a) := by
    rw [← heqa.2, ← heqa.1]
    exact getField_setField_self dva.2 "_id" (.vstr dva.1)
  have hb : getField d "_id" = some (.vstr b) := by
    rw [← heqb.2, ← heqb.1]
    exact getField_setField_self dvb.2 "_id" (.vstr dvb.1)
  rw [ha] at hb
  simpa using hb

/-- values whose encoding is injective: integers restricted to the 64-bit
range (the Go `int64` domain), every other kind unrestricted. -/
def goodEq : Val → Prop
  | .vint i => -(2 ^ 63) ≤ i ∧ i < 2 ^ 63
  | _ => True

/-- operand/value pair on which the matcher's order agrees with the key
order: both 64-bit integers or both strings. -/
def ordPair : Val → Val → Prop
  | .vint i, .vint j =>
      (-(2 ^ 63) ≤ i ∧ i < 2 ^ 63) ∧ (-(2 ^ 63) ≤ j ∧ j < 2 ^ 63)
  | .vstr _, .vstr _ => True
  | _, _ => False

theorem keyCmp_cons_same (a : Nat) (x y : Key) :
    keyCmp (a :: x) (a :: y) = keyCmp x y := by
  rw [keyCmp]
  simp

theorem valueToKey_int_cmp (i j : Int) (hi1 : -(2 ^ 63) ≤ i) (hi2 : i < 2 ^ 63)
    (hj1 : -(2 ^ 63) ≤ j) (hj2 : j < 2 ^ 63) :
    keyCmp (ValueToKey (.vint i)) (ValueToKey (.vint j))
      = compare (i + 2 ^ 63).toNat (j + 2 ^ 63).toNat := by
  have hbi : (i + 2 ^ 63).toNat < 2 ^ 64 := by omega
  have hbj : (j + 2 ^ 63).toNat < 2 ^ 64 := by omega
  simp only [ValueToKey]
  rw [keyCmp_cons_same]
  rw [Nat.mod_eq_of_lt hbi, Nat.mod_eq_of_lt hbj]
  exact keyCmp_be8 _ _ hbi hbj

theorem valueToKey_str_cmp (s t : List Nat) :
    keyCmp (ValueToKey (.vstr s)) (ValueToKey (.vstr t)) = keyCmp s t :=
  keyCmp_cons_same 5 s t

theorem valueToKey_inj (v w : Val) (hv : goodEq v) (hw : goodEq w) :
    ValueToKey v = ValueToKey w ↔ v = w := by
  constructor
  · intro h
    cases v with
    | vnull =>
      cases w with
      | vnull => rfl
      | vbool c => cases c <;> simp [ValueToKey] at h
      | vint j => simp [ValueToKey] at h
      | vstr t => simp [ValueToKey] at h
    | vbool b =>
      cases w with
      | vnull => cases b <;> simp [ValueToKey] at h
      | vbool c =>
        cases b <;> cases c
        · rfl
        · simp [ValueToKey] at h
        · simp [ValueToKey] at h
        · rfl
      | vint j => cases b <;> simp [ValueToKey] at h
      | vstr t => cases b <;> simp [ValueToKey] at h
    | vint i =>
      cases w with
      | vnull => simp [ValueToKey] at h
      | vbool c => cases c <;> simp [ValueToKey] at h
      | vint j =>
        obtain ⟨hi1, hi2⟩ := hv
        obtain ⟨hj1, hj2⟩ := hw
        have h3 : keyCmp (ValueToKey (.vint i)) (ValueToKey (.vint j)) = .eq := by
          rw [h]; exact keyCmp_self _
        rw [valueToKey_int_cmp i j hi1 hi2 hj1 hj2] at h3
        rw [Nat.compare_eq_eq] at h3
        have : i = j := by omega
        rw [this]
      | vstr t => simp [ValueToKey] at h
    | vstr s =>
      cases w with
      | vnull => simp [ValueToKey] at h
      | vbool c => cases c <;> simp [ValueToKey] at h
      | vint j => simp [ValueToKey] at h
      | vstr t =>
        simp only [ValueToKey, List.cons.injEq] at h
        rw [h.2]
  · intro h
    rw [h]

/-- the `$gt` range test on encoded keys agrees with the matcher's
same-kind comparison. -/
theorem gt_bridge (w v : Val) (h : ordPair w v) :
    (keyCmp (ValueToKey v) (ValueToKey w) == Ordering.gt) = valLt w v := by
  cases w with
  | vint i =>
    cases v with
    | vint j =>
      obtain ⟨⟨hi1, hi2⟩, ⟨hj1, hj2⟩⟩ := h
      rw [valueToKey_int_cmp j i hj1 hj2 hi1 hi2]
      show (compare (j + 2 ^ 63).toNat (i + 2 ^ 63).toNat == Ordering.gt)
        = decide (i < j)
      rcases Int.lt_trichotomy i j with h5 | h5 | h5
      · rw [Nat.compare_eq_gt.mpr (by omega), decide_eq_true h5]; rfl
      · rw [Nat.compare_eq_eq.mpr (by omega), decide_eq_false (by omega)]; rfl
      · rw [Nat.compare_eq_lt.mpr (by omega), decide_eq_false (by omega)]; rfl
    | vnull => exact absurd h (by simp [ordPair])
    | vbool c => exact absurd h (by simp [ordPair])
    | vstr t => exact absurd h (by simp [ordPair])
  | vstr s =>
    cases v with
    | vstr t =>
      rw [valueToKey_str_cmp]
      show (keyCmp t s == Ordering.gt) = (keyCmp s t == Ordering.lt)
      rw [keyCmp_swap t s]
      cases keyCmp t s <;> rfl
    | vnull => exact absurd h (by simp [ordPair])
    | vbool c => exact absurd h (by simp [ordPair])
    | vint j => exact absurd h (by simp [ordPair])
  | vnull => exact absurd h (by cases v <;> simp [ordPair])
  | vbool b => exact absurd h (by cases v <;> simp [ordPair])

/-- the `$lt` range test on encoded keys agrees with the matcher's
same-kind comparison. -/
theorem lt_bridge (w v : Val) (h : ordPair w v) :
    (keyCmp (ValueToKey v) (ValueToKey w) == Ordering.lt) = valLt v w := by
  cases w with
  | vint i =>
    cases v with
    | vint j =>
      obtain ⟨⟨hi1, hi2⟩, ⟨hj1, hj2⟩⟩ := h
      rw [valueToKey_int_cmp j i hj1 hj2 hi1 hi2]
      show (compare (j + 2 ^ 63).toNat (i + 2 ^ 63).toNat == Ordering.lt)
        = decide (j < i)
      rcases Int.lt_trichotomy j i with h5 | h5 | h5
      · rw [Nat.compare_eq_lt.mpr (by omega), decide_eq_true h5]; rfl
      · rw [Nat.compare_eq_eq.mpr (by omega), decide_eq_false (by omega)]; rfl
      · rw [Nat.compare_eq_gt.mpr (by omega), decide_eq_false (by omega)]; rfl
    | vnull => exact absurd h (by simp [ordPair])
    | vbool c => exact absurd h (by simp [ordPair])
    | vstr t => exact absurd h (by simp [ordPair])
  | vstr s =>
    cases v with
    | vstr t =>
      rw [valueToKey_str_cmp]
      rfl
    | vnull => exact absurd h (by simp [ordPair])
    | vbool c => exact absurd h (by simp [ordPair])
    | vint j => exact absurd h (by simp [ordPair])
  | vnull => exact absurd h (by cases v <;> simp [ordPair])
  | vbool b => exact absurd h (by cases v <;> simp [ordPair])

theorem rangePred_gt_eq (w k : Key) :
    rangePred (some w) none false false k = (keyCmp k w == Ordering.gt) := by
  unfold rangePred
  cases hc : keyCmp k w <;> simp [hc] <;> rfl

theorem rangePred_lt_eq (w k : Key) :
    rangePred none (some w) false false k = (keyCmp k w == Ordering.lt) := by
  unfold rangePred
  cases hc : keyCmp k w <;> simp [hc] <;> rfl

theorem matchField_single (d : Doc) (f op : String) (arg : Operand) :
    matchField d f (.ops [(op, arg)]) = matchOp (getField d f) op arg := by
  show (List.all [(op, arg)] fun p => matchOp (getField d f) p.1 p.2) = _
  simp

/-- assembly: the index path and the full scan agree as multisets once the
returned id list is duplicate-free and, per stored document, id membership
coincides with the matcher. -/
theorem equiv_assemble (name f : String) (docs : List (List Nat × Doc))
    (hnd : (docs.map Prod.fst).Nodup) (cond : CondVal)
    (hor : f ≠ "$or") (hand : f ≠ "$and") (docIDs : List BVal)
    (hfwi : findWithIndex (mkColl name f docs) f cond
      = docIDs.filterMap (fun id => (mkColl name f docs).GetByID id))
    (hidnd : docIDs.Nodup)
    (hbridge : ∀ dv ∈ docs,
      (dv.1 ∈ docIDs ↔ matchField (storeDoc dv) f cond = true)) :
    (findWithIndex (mkColl name f docs) f cond).Perm
      (findFullScan (mkColl name f docs) ⟨[(f, cond)]⟩) := by
  rw [hfwi]
  have hnd1 := filterMap_getByID_nodup name f docs hnd docIDs hidnd
  have hnd2 : (findFullScan (mkColl name f docs) ⟨[(f, cond)]⟩).Nodup := by
    unfold findFullScan
    rw [mkColl_all name f docs hnd]
    exact (storeDocs_nodup docs hnd).filter _
  rw [List.perm_ext_iff_of_nodup hnd1 hnd2]
  intro d
  rw [filterMap_getByID_mem name f docs hnd docIDs d,
      findFullScan_mem name f docs hnd cond hor hand d]
  constructor
  · rintro ⟨dv, hdv, hs, hid⟩
    exact ⟨dv, hdv, hs, (hbridge dv hdv).mp hid⟩
  · rintro ⟨dv, hdv, hs, hm⟩
    exact ⟨dv, hdv, hs, (hbridge dv hdv).mpr hm⟩

theorem eq_bridge_case (f : String) (docs : List (List Nat × Doc))
    (hnd : (docs.map Prod.fst).Nodup) (w : Val) (hw : goodEq w)
    (hfield : ∀ dv ∈ docs, ∀ v, getField (storeDoc dv) f = some v → goodEq v)
    (hnull : w = .vnull → ∀ dv ∈ docs, (getField (storeDoc dv) f).isSome = true) :
    ∀ dv ∈ docs,
      (dv.1 ∈ (buildTree 64 (insOf f docs)).Search (ValueToKey w) ↔
        matchOp (getField (storeDoc dv) f) "$eq" (Operand.oval w) = true) := by
  intro dv hdv
  rw [mem_Search_buildTree 64 (by omega), mem_insOf_self hnd hdv]
  rcases hgf : getField (storeDoc dv) f with _ | v
  · constructor
    · rintro ⟨v, hv, _⟩
      exact Option.noConfusion hv
    · intro hm
      cases w with
      | vnull =>
        have h2 := hnull rfl dv hdv
        rw [hgf] at h2
        simp at h2
      | vbool b => simp [matchOp] at hm
      | vint i => simp [matchOp] at hm
      | vstr s => simp [matchOp] at hm
  · constructor
    · rintro ⟨v2, hv2, hk⟩
      have hv2e : v2 = v := (Option.some.inj hv2).symm
      subst hv2e
      have hvv : v2 = w := (valueToKey_inj v2 w (hfield dv hdv v2 hgf) hw).mp hk
      subst hvv
      simp [matchOp]
    · intro hm
      have hm2 : (v == w) = true := hm
      have hvw : v = w := by simpa using hm2
      exact ⟨v, rfl, by rw [hvw]⟩

theorem gt_bridge_case (f : String) (docs : List (List Nat × Doc))
    (hnd : (docs.map Prod.fst).Nodup) (w : Val)
    (hfield : ∀ dv ∈ docs, ∀ v, getField (storeDoc dv) f = some v → ordPair w v) :
    ∀ dv ∈ docs,
      (dv.1 ∈ (buildTree 64 (insOf f docs)).RangeSearch
          (some (ValueToKey w)) none false false ↔
        matchOp (getField (storeDoc dv) f) "$gt" (Operand.oval w) = true) := by
  intro dv hdv
  rw [mem_RangeSearch_buildTree 64 (by omega)]
  rcases hgf : getField (storeDoc dv) f with _ | v
  · constructor
    · rintro ⟨k, hk, _⟩
      rw [mem_insOf_self hnd hdv] at hk
      obtain ⟨v, hv, _⟩ := hk
      rw [hgf] at hv
      exact Option.noConfusion hv
    · intro hm
      simp [matchOp] at hm
  · constructor
    · rintro ⟨k, hk, hp⟩
      rw [mem_insOf_self hnd hdv] at hk
      obtain ⟨v2, hv2, hkey⟩ := hk
      rw [hgf] at hv2
      have hv2e : v2 = v := (Option.some.inj hv2).symm
      subst hv2e
      subst hkey
      rw [rangePred_gt_eq, gt_bridge w v2 (hfield dv hdv v2 hgf)] at hp
      exact hp
    · intro hm
      have hm2 : valLt w v = true := hm
      refine ⟨ValueToKey v, ?_, ?_⟩
      · rw [mem_insOf_self hnd hdv]
        exact ⟨v, hgf, rfl⟩
      · rw [rangePred_gt_eq, gt_bridge w v (hfield dv hdv v hgf)]
        exact hm2

theorem lt_bridge_case (f : String) (docs : List (List Nat × Doc))
    (hnd : (docs.map Prod.fst).Nodup) (w : Val)
    (hfield : ∀ dv ∈ docs, ∀ v, getField (storeDoc dv) f = some v → ordPair w v) :
    ∀ dv ∈ docs,
      (dv.1 ∈ (buildTree 64 (insOf f docs)).RangeSearch
          none (some (ValueToKey w)) false false ↔
        matchOp (getField (storeDoc dv) f) "$lt" (Operand.oval w) = true) := by
  intro dv hdv
  rw [mem_RangeSearch_buildTree 64 (by omega)]
  rcases hgf : getField (storeDoc dv) f with _ | v
  · constructor
    · rintro ⟨k, hk, _⟩
      rw [mem_insOf_self hnd hdv] at hk
      obtain ⟨v, hv, _⟩ := hk
      rw [hgf] at hv
      exact Option.noConfusion hv
    · intro hm
      simp [matchOp] at hm
  · constructor
    · rintro ⟨k, hk, hp⟩
      rw [mem_insOf_self hnd hdv] at hk
      obtain ⟨v2, hv2, hkey⟩ := hk
      rw [hgf] at hv2
      have hv2e : v2 = v := (Option.some.inj hv2).symm
      subst hv2e
      subst hkey
      rw [rangePred_lt_eq, lt_bridge w v2 (hfield dv hdv v2 hgf)] at hp
      exact hp
    · intro hm
      have hm2 : valLt v w = true := hm
      refine ⟨ValueToKey v, ?_, ?_⟩
      · rw [mem_insOf_self hnd hdv]
        exact ⟨v, hgf, rfl⟩
      · rw [rangePred_lt_eq, lt_bridge w v (hfield dv hdv v hgf)]
        exact hm2

theorem in_bridge_case (f : String) (docs : List (List Nat × Doc))
    (hnd : (docs.map Prod.fst).Nodup) (l : List Val)
    (hl : ∀ u ∈ l, goodEq u)
    (hfield : ∀ dv ∈ docs, ∀ v, getField (storeDoc dv) f = some v → goodEq v) :
    ∀ dv ∈ docs,
      (dv.1 ∈ (buildTree 64 (insOf f docs)).SearchIn (l.map ValueToKey) ↔
        matchOp (getField (storeDoc dv) f) "$in" (Operand.oarr l) = true) := by
  intro dv hdv
  rw [mem_SearchIn_buildTree 64 (by omega)]
  rcases hgf : getField (storeDoc dv) f with _ | v
  · constructor
    · rintro ⟨k, hk, hmem⟩
      rw [mem_insOf_self hnd hdv] at hmem
      obtain ⟨v, hv, _⟩ := hmem
      rw [hgf] at hv
      exact Option.noConfusion hv
    · intro hm
      simp [matchOp] at hm
  · constructor
    · rintro ⟨k, hk, hmem⟩
      obtain ⟨u, hu, rfl⟩ := List.mem_map.mp hk
      rw [mem_insOf_self hnd hdv] at hmem
      obtain ⟨v2, hv2, hkey⟩ := hmem
      rw [hgf] at hv2
      have hv2e : v2 = v := (Option.some.inj hv2).symm
      subst hv2e
      have hvu : v2 = u :=
        (valueToKey_inj v2 u (hfield dv hdv v2 hgf) (hl u hu)).mp hkey
      show (l.any (fun u => v2 == u)) = true
      rw [List.any_eq_true]
      exact ⟨u, hu, by rw [hvu]; simp⟩
    · intro hm
      have hm2 : (l.any (fun u => v == u)) = true := hm
      rw [List.any_eq_true] at hm2
      obtain ⟨u, hu, hvu⟩ := hm2
      have hvu2 : v = u := by simpa using hvu
      refine ⟨ValueToKey u, List.mem_map.mpr ⟨u, hu, rfl⟩, ?_⟩
      rw [mem_insOf_self hnd hdv]
      exact ⟨v, hgf, by rw [hvu2]⟩

/-- C1 as amended: over a collection built by `create_index` then inserts
with distinct ids, the index path and the full scan agree as multisets for
bare equality, `$eq`, `$gt`, `$lt` and `$in` — provided the comparator
operands and the indexed field's values are kind-compatible (64-bit
integers compared with integers, strings with strings; equality operands
and field values encode injectively), `$in` lists no duplicate keys, a
`$eq` null operand is only used when every document carries the field, and
a bare primitive condition is not null (the Go type switch has no `nil`
case, so a bare-null condition yields no ids and misses stored null
values).  Without these provisos the claim fails (see the
counterexample). -/
theorem C1_amended_index_scan_equiv (name f : String)
    (docs : List (List Nat × Doc)) (hnd : (docs.map Prod.fst).Nodup)
    (cond : CondVal) (hor : f ≠ "$or") (hand : f ≠ "$and")
    (hshape :
      (∃ w, cond = .prim w ∧ w ≠ Val.vnull ∧ goodEq w ∧
         (∀ dv ∈ docs, ∀ v, getField (storeDoc dv) f = some v → goodEq v)) ∨
      (∃ w, cond = .ops [("$eq", Operand.oval w)] ∧ goodEq w ∧
         (∀ dv ∈ docs, ∀ v, getField (storeDoc dv) f = some v → goodEq v) ∧
         (w = .vnull → ∀ dv ∈ docs, (getField (storeDoc dv) f).isSome = true)) ∨
      (∃ w, (cond = .ops [("$gt", Operand.oval w)] ∨
             cond = .ops [("$lt", Operand.oval w)]) ∧
         (∀ dv ∈ docs, ∀ v, getField (storeDoc dv) f = some v → ordPair w v)) ∨
      (∃ l, cond = .ops [("$in", Operand.oarr l)] ∧
         (∀ u ∈ l, goodEq u) ∧ (l.map ValueToKey).Nodup ∧
         (∀ dv ∈ docs, ∀ v, getField (storeDoc dv) f = some v → goodEq v))) :
    (findWithIndex (mkColl name f docs) f cond).Perm
      (findFullScan (mkColl name f docs) ⟨[(f, cond)]⟩) := by
  have hsnd : ((insOf f docs).map Prod.snd).Nodup :=
    (insOf_snd_sublist f docs).nodup hnd
  rcases hshape with ⟨w, rfl, hwn, hw, hfield⟩ | ⟨w, rfl, hw, hfield, hnull⟩
    | ⟨w, hcw, hfield⟩ | ⟨l, hcl, hl, hlnd, hfield⟩
  · refine equiv_assemble name f docs hnd _ hor hand
      ((buildTree 64 (insOf f docs)).Search (ValueToKey w)) ?_ ?_ ?_
    · unfold findWithIndex
      rw [mkColl_getIndex name f docs hnd]
      cases w with
      | vnull => exact absurd rfl hwn
      | vbool b => rfl
      | vint i => rfl
      | vstr t => rfl
    · exact search_buildTree_nodup 64 (by omega) _ hsnd _
    · exact eq_bridge_case f docs hnd w hw hfield (fun h => absurd h hwn)
  · refine equiv_assemble name f docs hnd _ hor hand
      ((buildTree 64 (insOf f docs)).Search (ValueToKey w)) ?_ ?_ ?_
    · unfold findWithIndex
      rw [mkColl_getIndex name f docs hnd]
      rfl
    · exact search_buildTree_nodup 64 (by omega) _ hsnd _
    · intro dv hdv
      rw [matchField_single]
      exact eq_bridge_case f docs hnd w hw hfield hnull dv hdv
  · rcases hcw with rfl | rfl
    · refine equiv_assemble name f docs hnd _ hor hand
        ((buildTree 64 (insOf f docs)).RangeSearch
          (some (ValueToKey w)) none false false) ?_ ?_ ?_
      · unfold findWithIndex
        rw [mkColl_getIndex name f docs hnd]
        rfl
      · exact rangeSearch_buildTree_nodup 64 (by omega) _ hsnd _ _ _ _
      · intro dv hdv
        rw [matchField_single]
        exact gt_bridge_case f docs hnd w hfield dv hdv
    · refine equiv_assemble name f docs hnd _ hor hand
        ((buildTree 64 (insOf f docs)).RangeSearch
          none (some (ValueToKey w)) false false) ?_ ?_ ?_
      · unfold findWithIndex
        rw [mkColl_getIndex name f docs hnd]
        rfl
      · exact rangeSearch_buildTree_nodup 64 (by omega) _ hsnd _ _ _ _
      · intro dv hdv
        rw [matchField_single]
        exact lt_bridge_case f docs hnd w hfield dv hdv
  · subst hcl
    refine equiv_assemble name f docs hnd _ hor hand
      ((buildTree 64 (insOf f docs)).SearchIn (l.map ValueToKey)) ?_ ?_ ?_
    · unfold findWithIndex
      rw [mkColl_getIndex name f docs hnd]
      rfl
    · exact searchIn_buildTree_nodup 64 (by omega) _ hsnd _ hlnd
    · intro dv hdv
      rw [matchField_single]
      exact in_bridge_case f docs hnd l hl hfield dv hdv

instance goodEqDec (v : Val) : Decidable (goodEq v) := by
  cases v <;> unfold goodEq <;> infer_instance

instance ordPairDec (v w : Val) : Decidable (ordPair v w) := by
  cases v <;> cases w <;> unfold ordPair <;> infer_instance

def docsC1 : List (List Nat × Doc) :=
  [([97], [("f", Val.vint 1)]), ([98], [("f", Val.vstr [120])])]

def condC1 : CondVal := CondVal.ops [("$gt", Operand.oval (Val.vint 0))]

/-- C1 counterexample: over the collection holding {f: 1} (id "a") and
{f: "x"} (id "b") with an index on f, the query {f: {$gt: 0}} returns both
documents on the index path — the string's encoding (tag 5) is above every
integer encoding (tag 3) — while the matcher rejects the cross-kind
comparison, so the full scan returns only the integer document.  The two
result lists are not multiset-equal. -/
theorem C1_counterexample :
    ¬ (findWithIndex (mkColl "db" "f" docsC1) "f" condC1).Perm
      (findFullScan (mkColl "db" "f" docsC1) ⟨[("f", condC1)]⟩) := by
  have hnd : ((docsC1.map Prod.fst)).Nodup := by decide
  intro hperm
  have hd2mem : storeDoc ([98], [("f", Val.vstr [120])])
      ∈ findWithIndex (mkColl "db" "f" docsC1) "f" condC1 := by
    have hfwi : findWithIndex (mkColl "db" "f" docsC1) "f" condC1
        = ((buildTree 64 (insOf "f" docsC1)).RangeSearch
            (some (ValueToKey (.vint 0))) none false false).filterMap
            (fun id => (mkColl "db" "f" docsC1).GetByID id) := by
      unfold findWithIndex
      rw [mkColl_getIndex "db" "f" docsC1 hnd]
      rfl
    rw [hfwi, filterMap_getByID_mem "db" "f" docsC1 hnd]
    refine ⟨([98], [("f", Val.vstr [120])]), by decide, rfl, ?_⟩
    rw [mem_RangeSearch_buildTree 64 (by omega)]
    refine ⟨ValueToKey (Val.vstr [120]), ?_, ?_⟩
    · decide
    · decide
  have hd2notscan : storeDoc ([98], [("f", Val.vstr [120])])
      ∉ findFullScan (mkColl "db" "f" docsC1) ⟨[("f", condC1)]⟩ := by
    rw [findFullScan_mem "db" "f" docsC1 hnd condC1 (by decide) (by decide)]
    rintro ⟨dv, hdv, hs, hm⟩
    simp only [docsC1, List.mem_cons, List.not_mem_nil, or_false] at hdv
    rcases hdv with rfl | rfl
    · exact absurd hs (by decide)
    · exact absurd hm (by decide)
  exact hd2notscan (hperm.mem_iff.mp hd2mem)

def docsC1w : List (List Nat × Doc) :=
  [([97], [("age", Val.vint 1)]), ([98], [("age", Val.vint 2)])]

def condC1w : CondVal := CondVal.ops [("$gt", Operand.oval (Val.vint 0))]

theorem C1_amended_index_scan_equiv_witness :
    (findWithIndex (mkColl "db" "age" docsC1w) "age" condC1w).Perm
      (findFullScan (mkColl "db" "age" docsC1w) ⟨[("age", condC1w)]⟩) :=
  C1_amended_index_scan_equiv "db" "age" docsC1w (by decide) condC1w
    (by decide) (by decide)
    (Or.inr (Or.inr (Or.inl ⟨Val.vint 0, Or.inl rfl, by
      intro dv hdv v hv
      simp only [docsC1w, List.mem_cons, List.not_mem_nil, or_false] at hdv
      rcases hdv with rfl | rfl
      · have h1 : getField (storeDoc ([97], [("age", Val.vint 1)])) "age"
            = some (Val.vint 1) := by decide
        rw [h1] at hv
        have h2 : v = Val.vint 1 := (Option.some.inj hv).symm
        rw [h2]
        decide
      · have h1 : getField (storeDoc ([98], [("age", Val.vint 2)])) "age"
            = some (Val.vint 2) := by decide
        rw [h1] at hv
        have h2 : v = Val.vint 2 := (Option.some.inj hv).symm
        rw [h2]
        decide⟩)))
